import Mathlib

/-!
Verification of the mindmap outline engine: a shallow embedding of the
`Node` tree model (`src/domain/node.py`), the Markdown outline parser
(`src/parser/markdown_parser.py`), the tree-to-Markdown serializer
(`src/parser/tree_to_markdown.py`), and the synchronization handlers of the
main window (`src/presentation/main_window.py`) and of the mindmap view
(`src/presentation/mindmap_view.py`, `src/presentation/node_item.py`).

Python objects live on a heap; the embedding replaces the heap by an arena:
a list of `NodeData` records indexed by allocation order, so a `Node` object
is a natural-number id and object identity is id equality (the Python class
defines no custom equality, so `==` on nodes is identity).  Strings are
embedded as `List Char`.  All stateful methods become explicit
state-passing functions on the arena.
-/

namespace Mindmap

/-- Heap cell of one Python `Node` object: its `_text`, `_parent` reference
and ordered `_children` list (`src/domain/node.py`).  The position and font
fields are not consulted by any claim and are omitted from the cell. -/
structure NodeData where
  text : List Char
  parent : Option Nat
  children : List Nat
deriving DecidableEq, Repr, Inhabited

/-- The heap: node `i` is the cell at index `i`, ids are allocation order. -/
abbrev Arena := List NodeData

/-- Read the cell of node `i` (total: out-of-range reads give the default
cell, which never happens on the executions we model). -/
def getNode (a : Arena) (i : Nat) : NodeData := a.getD i default

/-- Overwrite the cell of node `i`. -/
def setNode (a : Arena) (i : Nat) (d : NodeData) : Arena := a.set i d

/-- Allocate a fresh `Node(text)`: no parent, no children; returns its id. -/
def newNode (a : Arena) (text : List Char) : Arena × Nat :=
  (a ++ [⟨text, none, []⟩], a.length)

namespace Node

/-- `Node.add_child` (`src/domain/node.py` lines 80-96): if the child has a
parent, remove it from that parent's children (Python `list.remove`, first
occurrence); append the child to `self`'s children unless already present;
set the child's parent to `self`.  Each mutation acts on the current heap. -/
def add_child (a : Arena) (self child : Nat) : Arena :=
  let a1 :=
    match (getNode a child).parent with
    | some p => setNode a p { getNode a p with children := (getNode a p).children.erase child }
    | none => a
  let a2 :=
    if child ∈ (getNode a1 self).children then a1
    else setNode a1 self { getNode a1 self with children := (getNode a1 self).children ++ [child] }
  setNode a2 child { getNode a2 child with parent := some self }

/-- `Node.remove_child` (`src/domain/node.py` lines 98-107): if the child is
in `self`'s children, remove it (first occurrence) and clear its parent. -/
def remove_child (a : Arena) (self child : Nat) : Arena :=
  if child ∈ (getNode a self).children then
    let a1 := setNode a self { getNode a self with children := (getNode a self).children.erase child }
    setNode a1 child { getNode a1 child with parent := none }
  else a

end Node

/-- Whitespace as matched by Python's regex class and by `str.strip` on the
ASCII range (the source only ever feeds it ASCII whitespace). -/
def isPySpace (c : Char) : Bool :=
  c = ' ' || c = '\t' || c = '\n' || c = '\r' || c = '\x0b' || c = '\x0c'

/-- Python `str.strip()`: drop leading and trailing whitespace. -/
def pyStrip (s : List Char) : List Char :=
  ((s.dropWhile isPySpace).reverse.dropWhile isPySpace).reverse

/-- Python `text.split(chr(10))`: split at every newline, keeping empty
pieces; the result is always nonempty. -/
def splitNl : List Char → List (List Char)
  | [] => [[]]
  | c :: cs =>
    if c = '\n' then [] :: splitNl cs
    else
      match splitNl cs with
      | [] => [[c]]
      | l :: ls => (c :: l) :: ls

/-- Python `chr(10).join(lines)`. -/
def joinNl : List (List Char) → List Char
  | [] => []
  | [l] => l
  | l :: ls => l ++ '\n' :: joinNl ls

namespace MarkdownParser

/-- Match of the heading regex `(#...#)(ws)+(rest)` with 1-6 hashes, at
least one whitespace and a nonempty remainder, returning the hash count and
the remainder already passed through `str.strip` (the greedy whitespace run
plus the final `strip` make the stripped group equal to the strip of
everything after the hashes). -/
def headingMatch (line : List Char) : Option (Int × List Char) :=
  if 1 ≤ (line.takeWhile (· = '#')).length ∧ (line.takeWhile (· = '#')).length ≤ 6 ∧
      2 ≤ (line.dropWhile (· = '#')).length ∧
      isPySpace ((line.dropWhile (· = '#')).headD ' ') then
    some (((line.takeWhile (· = '#')).length : Int),
      pyStrip ((line.dropWhile (· = '#')).dropWhile isPySpace))
  else none

/-- Match of the list regex: optional leading whitespace, a `-` or `*`
marker, at least one whitespace, then a nonempty remainder; returns the
indent level (tab counts as two spaces, total divided by two) and the
stripped item text. -/
def listMatch (line : List Char) : Option (Int × List Char) :=
  match line.dropWhile isPySpace with
  | [] => none
  | m :: rest2 =>
    if (m = '-' ∨ m = '*') ∧ 2 ≤ rest2.length ∧ isPySpace (rest2.headD ' ') then
      some (((((line.takeWhile isPySpace).map fun c => if c = '\t' then 2 else 1).sum) / 2 : Nat),
        pyStrip (rest2.dropWhile isPySpace))
    else none

/-- Loop of `_extract_headings` / `_extract_list_items`: walk the lines with
their zero-based numbers, keeping the matches as (level, text, line) items. -/
def extractAux (match? : List Char → Option (Int × List Char)) :
    Nat → List (List Char) → List (Int × List Char × Nat)
  | _, [] => []
  | lineNum, line :: rest =>
    match match? line with
    | some (l, t) => (l, t, lineNum) :: extractAux match? (lineNum + 1) rest
    | none => extractAux match? (lineNum + 1) rest

/-- `MarkdownParser._extract_headings`. -/
def extract_headings (text : List Char) : List (Int × List Char × Nat) :=
  extractAux headingMatch 0 (splitNl text)

/-- `MarkdownParser._extract_list_items`. -/
def extract_list_items (text : List Char) : List (Int × List Char × Nat) :=
  extractAux listMatch 0 (splitNl text)

/-- `MarkdownParser._find_parent`: among the stack keys strictly below
`level`, pick the entry with the greatest key (the stack never holds two
entries with one key, mirroring the Python dict). -/
def find_parent (level : Int) (stack : List (Int × Nat)) : Option Nat :=
  match stack.filter fun p => p.1 < level with
  | [] => none
  | p :: rest => some (rest.foldl (fun b q => if b.1 < q.1 then q else b) p).2

/-- Python dict assignment `m[k] = v`: overwrite in place or append. -/
def mapInsert (m : List (Nat × Nat)) (k v : Nat) : List (Nat × Nat) :=
  if m.any fun p => p.1 = k then m.map fun p => if p.1 = k then (k, v) else p
  else m ++ [(k, v)]

/-- In-flight state of `_build_tree` / `_build_tree_from_list`: the heap,
the line-to-node dict being filled, and the level stack. -/
structure BuildState where
  arena : Arena
  lineMap : List (Nat × Nat)
  stack : List (Int × Nat)
deriving Repr

/-- Body shared by all four assembly loops in the source: allocate a node
for the item, record its line, attach it under the found parent (or under
the running root when no stack key is below the item's level), drop the
stack keys at or above the item's level and push the new node. -/
def buildStep (root : Nat) (st : BuildState) (item : Int × List Char × Nat) : BuildState :=
  let (level, text, lineNum) := item
  let (a1, newId) := newNode st.arena text
  let m1 := mapInsert st.lineMap lineNum newId
  let a2 :=
    match find_parent level st.stack with
    | some p => Node.add_child a1 p newId
    | none => Node.add_child a1 root newId
  ⟨a2, m1, (st.stack.filter fun q => q.1 < level) ++ [(level, newId)]⟩

/-- Text of the synthesized virtual root node. -/
def vrootText : List Char := "__virtual_root__".toList

/-- `MarkdownParser._build_tree_from_list`: with several minimum-level items
a virtual root is synthesized at stack level `-1` and all items are walked
with levels shifted down by the minimum; with at most one, the first item
becomes the root and the rest are walked. -/
def build_tree_from_list (items : List (Int × List Char × Nat)) :
    Option (Nat × Arena × List (Nat × Nat)) :=
  match items with
  | [] => none
  | (l0, t0, n0) :: restItems =>
    let minLevel := restItems.foldl (fun m q => min m q.1) l0
    let tops := items.filter fun q => q.1 = minLevel
    if 1 < tops.length then
      let (a0, root) := newNode [] vrootText
      let adjusted := items.map fun q => (q.1 - minLevel, q.2.1, q.2.2)
      let final := adjusted.foldl (buildStep root) ⟨a0, [], [(-1, root)]⟩
      some (root, final.arena, final.lineMap)
    else
      let (a0, root) := newNode [] t0
      let final := restItems.foldl (buildStep root) ⟨a0, mapInsert [] n0 root, [(l0, root)]⟩
      some (root, final.arena, final.lineMap)

/-- `MarkdownParser._build_tree` (heading dialect): identical shape, with the
virtual root seeded at stack level `0` and heading levels shifted to
`level - minLevel + 1`. -/
def build_tree (headings : List (Int × List Char × Nat)) :
    Option (Nat × Arena × List (Nat × Nat)) :=
  match headings with
  | [] => none
  | (l0, t0, n0) :: restItems =>
    let minLevel := restItems.foldl (fun m q => min m q.1) l0
    let tops := headings.filter fun q => q.1 = minLevel
    if 1 < tops.length then
      let (a0, root) := newNode [] vrootText
      let adjusted := headings.map fun q => (q.1 - minLevel + 1, q.2.1, q.2.2)
      let final := adjusted.foldl (buildStep root) ⟨a0, [], [(0, root)]⟩
      some (root, final.arena, final.lineMap)
    else
      let (a0, root) := newNode [] t0
      let final := restItems.foldl (buildStep root) ⟨a0, mapInsert [] n0 root, [(l0, root)]⟩
      some (root, final.arena, final.lineMap)

/-- Result of one `parse` call: root (if any), heap, line-to-node dict. -/
structure ParseResult where
  root : Option Nat
  arena : Arena
  lineMap : List (Nat × Nat)
deriving Repr

/-- `MarkdownParser.parse`: clear the line map (the previous map `oldMap` is
discarded), return nothing for blank text, otherwise prefer the list
dialect and fall back to headings. -/
def parse (oldMap : List (Nat × Nat)) (text : List Char) : ParseResult :=
  let _ := oldMap
  if pyStrip text = [] then ⟨none, [], []⟩
  else
    let items := extract_list_items text
    if items.isEmpty then
      let headings := extract_headings text
      if headings.isEmpty then ⟨none, [], []⟩
      else
        match build_tree headings with
        | some (r, a, m) => ⟨some r, a, m⟩
        | none => ⟨none, [], []⟩
    else
      match build_tree_from_list items with
      | some (r, a, m) => ⟨some r, a, m⟩
      | none => ⟨none, [], []⟩

/-- `MarkdownParser.get_node_by_line`: dict lookup by line number. -/
def get_node_by_line (m : List (Nat × Nat)) (line : Nat) : Option Nat :=
  (m.find? fun p => p.1 = line).map fun p => p.2

/-- `MarkdownParser.get_line_by_node`: first entry (dict iteration order)
whose node is the given one. -/
def get_line_by_node (m : List (Nat × Nat)) (node : Nat) : Option Nat :=
  (m.find? fun p => p.2 = node).map fun p => p.1

end MarkdownParser

namespace TreeToMarkdownConverter

/-- `TreeToMarkdownConverter._convert_node`: emit the node's line at the
given depth and recurse into the children in order.  The Python recursion
runs over the heap, so the embedding carries fuel; every call made by
`convert` passes enough fuel for the trees the program builds. -/
def convert_node (a : Arena) : Nat → Nat → Nat → List (List Char)
  | 0, _, _ => []
  | fuel + 1, id, depth =>
    (List.replicate (2 * depth) ' ' ++ '-' :: ' ' :: (getNode a id).text) ::
      (getNode a id).children.flatMap fun c => convert_node a fuel c (depth + 1)

/-- `TreeToMarkdownConverter.convert`: empty text for a missing root; a root
whose text is the virtual-root marker contributes no line of its own and its
children are rendered at depth `0`; any other root is rendered at depth `0`. -/
def convert (a : Arena) (root : Option Nat) : List Char :=
  match root with
  | none => []
  | some r =>
    if (getNode a r).text = MarkdownParser.vrootText then
      joinNl ((getNode a r).children.flatMap fun c => convert_node a a.length c 0)
    else
      joinNl (convert_node a a.length r 0)

end TreeToMarkdownConverter

namespace NodeItem

/-- Recursive body of `NodeItem._is_descendant`
(`src/presentation/node_item.py`): the candidate equals the current node or
is a descendant of one of its children.  The heap recursion carries fuel;
any fuel above the length of the longest child path decides the question. -/
def checkRecursive (a : Arena) : Nat → Nat → Nat → Bool
  | 0, _, _ => false
  | fuel + 1, current, node =>
    current = node || (getNode a current).children.any fun c => checkRecursive a fuel c node

/-- `NodeItem._is_descendant`: is `node` inside the subtree of `selfNode`?
Consulted by `_update_hover_target` before any drop target is accepted. -/
def is_descendant (a : Arena) (selfNode node : Nat) : Bool :=
  checkRecursive a a.length selfNode node

end NodeItem

namespace MindMapView

/-- Mutating part of `MindMapView._on_node_dropped`
(`src/presentation/mindmap_view.py` lines 542-559): detach the dropped node
from its parent, then `add_child` it to the target.  No error is signalled
and no cycle check is made here. -/
def on_node_dropped (a : Arena) (dropped target : Nat) : Arena :=
  let a1 :=
    match (getNode a dropped).parent with
    | some p => Node.remove_child a p dropped
    | none => a
  Node.add_child a1 target dropped

end MindMapView

namespace MainWindow

/-- State touched by the two synchronization handlers of `MainWindow`: the
suppression flag `_updating_from_drag`, the mindmap model (root and title),
the heap, the parser's line map, what the view last displayed, the editor
content and the unsaved-changes mark. -/
structure MainWindowState where
  updatingFromDrag : Bool
  hasUnsavedChanges : Bool
  mindmapRoot : Option Nat
  mindmapTitle : List Char
  arena : Arena
  lineMap : List (Nat × Nat)
  viewRoot : Option Nat
  editorText : List Char
deriving Repr, DecidableEq

/-- `MainWindow._on_text_changed`: ignored outright while
`_updating_from_drag` is set; otherwise parse, set the mindmap root and
title, redisplay the tree, and mark unsaved changes. -/
def on_text_changed (st : MainWindowState) (text : List Char) : MainWindowState :=
  if st.updatingFromDrag then st
  else
    let pr := MarkdownParser.parse st.lineMap text
    { st with
      arena := pr.arena
      lineMap := pr.lineMap
      mindmapRoot := pr.root
      mindmapTitle :=
        match pr.root with
        | some r => (getNode pr.arena r).text
        | none => st.mindmapTitle
      viewRoot := pr.root
      hasUnsavedChanges := true }

/-- `MainWindow._on_node_reparented`: set the flag, serialize the tree, push
the text to the editor — whose change notification fires synchronously and
is handled by `_on_text_changed` while the flag is still set — then clear
the flag.  The dropped and target node arguments are only used for
centering the view and do not affect this state. -/
def on_node_reparented (st : MainWindowState) : MainWindowState :=
  let st1 := { st with updatingFromDrag := true }
  let text := TreeToMarkdownConverter.convert st1.arena st1.mindmapRoot
  let st2 := on_text_changed { st1 with editorText := text } text
  { st2 with updatingFromDrag := false }

end MainWindow

/-! Verification infrastructure: pure rose trees abstracting the heap, the
open rightmost spine that describes the assembly loops, and invariants. -/

/-- Pure unordered-outline tree: a label and the ordered children. -/
inductive Rose where
  | mk (label : List Char) (kids : List Rose)

/-- Label of the root of a pure tree. -/
def Rose.label : Rose → List Char
  | .mk l _ => l

/-- Children of the root of a pure tree. -/
def Rose.kids : Rose → List Rose
  | .mk _ k => k

mutual

/-- Node count of a pure tree. -/
def Rose.size : Rose → Nat
  | .mk _ kids => 1 + sizeF kids

/-- Node count of a forest. -/
def sizeF : List Rose → Nat
  | [] => 0
  | t :: ts => t.size + sizeF ts

end

mutual

/-- All labels of a pure tree, preorder. -/
def Rose.labels : Rose → List (List Char)
  | .mk lab kids => lab :: labelsF kids

/-- All labels of a forest, preorder. -/
def labelsF : List Rose → List (List Char)
  | [] => []
  | t :: ts => t.labels ++ labelsF ts

end

mutual

/-- Preorder (depth, label) items of a pure tree rooted at depth `d`. -/
def Rose.flatten : Nat → Rose → List (Nat × List Char)
  | d, .mk lab kids => (d, lab) :: flattenF (d + 1) kids

/-- Preorder (depth, label) items of a forest whose roots sit at depth `d`. -/
def flattenF : Nat → List Rose → List (Nat × List Char)
  | _, [] => []
  | d, t :: ts => t.flatten d ++ flattenF d ts

end

/-- Canonical serializer line for a label at a depth: two spaces per depth
level, the dash marker, one space, the label. -/
def mkLine (p : Nat × List Char) : List Char :=
  List.replicate (2 * p.1) ' ' ++ '-' :: ' ' :: p.2

/-- The serializer's output, computed on the pure tree: the virtual-root
marker label suppresses the root line and renders the children at depth 0. -/
def pureConvert (t : Rose) : List Char :=
  if t.label = MarkdownParser.vrootText then joinNl ((flattenF 0 t.kids).map mkLine)
  else joinNl ((t.flatten 0).map mkLine)

/-- Pure tree carrying the heap id of every node, so that heap states can be
described exactly while ids are still erasable for structural comparison. -/
inductive RTree where
  | mk (id : Nat) (label : List Char) (kids : List RTree)

/-- Heap id of the root. -/
def RTree.id : RTree → Nat
  | .mk i _ _ => i

/-- Label of the root. -/
def RTree.label : RTree → List Char
  | .mk _ l _ => l

mutual

/-- Erase the ids, keeping shape, labels and child order. -/
def RTree.shape : RTree → Rose
  | .mk _ lab kids => .mk lab (shapeF kids)

/-- Erase the ids of a forest. -/
def shapeF : List RTree → List Rose
  | [] => []
  | t :: ts => t.shape :: shapeF ts

end

mutual

/-- Node count of an id-carrying tree. -/
def RTree.sizeR : RTree → Nat
  | .mk _ _ kids => 1 + sizeRF kids

/-- Node count of an id-carrying forest. -/
def sizeRF : List RTree → Nat
  | [] => 0
  | t :: ts => t.sizeR + sizeRF ts

end

mutual

/-- All heap ids of a tree, preorder. -/
def treeIds : RTree → List Nat
  | .mk i _ kids => i :: treeIdsF kids

/-- All heap ids of a forest, preorder. -/
def treeIdsF : List RTree → List Nat
  | [] => []
  | t :: ts => treeIds t ++ treeIdsF ts

end

mutual

/-- Decorate a pure tree with preorder-consecutive ids starting at `n`. -/
def assignT : Nat → Rose → RTree
  | n, .mk lab kids => .mk n lab (assignF (n + 1) kids)

/-- Decorate a forest with preorder-consecutive ids starting at `n`. -/
def assignF : Nat → List Rose → List RTree
  | _, [] => []
  | n, t :: ts => assignT n t :: assignF (n + t.size) ts

end

/-- Ids of the roots of a forest. -/
def kidsIds (ts : List RTree) : List Nat := ts.map RTree.id

/-- The heap realizes an id-carrying tree: each node's cell holds the
tree's label and exactly the children ids of the tree, recursively.  Parent
pointers are deliberately unconstrained; no claim about the parser reads
them back. -/
inductive Represents (a : Arena) : RTree → Prop
  | mk (id : Nat) (label : List Char) (ts : List RTree) :
      (getNode a id).text = label →
      (getNode a id).children = kidsIds ts →
      (∀ t ∈ ts, Represents a t) →
      Represents a (RTree.mk id label ts)

/-- One open node of the rightmost spine during assembly: its stack key, its
heap id, its label, and its already-finished child subtrees. -/
structure OpenNode where
  key : Int
  id : Nat
  label : List Char
  kids : List RTree

/-- Close a nonempty chain of open nodes, each the last child of the one
below, into the finished subtree. -/
def closeChain : OpenNode → List OpenNode → RTree
  | e, [] => .mk e.id e.label e.kids
  | e, f :: rest => .mk e.id e.label (e.kids ++ [closeChain f rest])

/-- Close a whole nonempty spine into the finished tree (empty spines do not
occur; they close to a dummy leaf). -/
def closeSpine : List OpenNode → RTree
  | [] => .mk 0 [] []
  | e :: rest => closeChain e rest

/-- One spine entry's cell: its label is stored, its children are the ids
of the finished kids followed by an optional open continuation (the id of
the entry above on the spine, or of the node just pushed), and the finished
kids are realized in the heap. -/
def entryOk (a : Arena) (e : OpenNode) (next : Option Nat) : Prop :=
  (getNode a e.id).text = e.label ∧
  (getNode a e.id).children =
    kidsIds e.kids ++ (match next with | some x => [x] | none => []) ∧
  ∀ t ∈ e.kids, Represents a t

/-- The heap cells along a spine segment: each entry continues into the
next one's id, and the last entry continues into `nx` (nothing for the top
of the whole spine). -/
def SpineLinkTo (a : Arena) (nx : Option Nat) : List OpenNode → Prop
  | [] => True
  | [e] => entryOk a e nx
  | e :: f :: rest => entryOk a e (some f.id) ∧ SpineLinkTo a nx (f :: rest)

/-- The heap cells along the whole spine. -/
def SpineLink (a : Arena) (sp : List OpenNode) : Prop := SpineLinkTo a none sp

/-- Every id mentioned by one open node. -/
def entryIds (e : OpenNode) : List Nat := e.id :: treeIdsF e.kids

/-- Every id mentioned by a spine. -/
def spineIds (sp : List OpenNode) : List Nat := sp.flatMap entryIds

mutual

/-- All labels of an id-carrying tree, preorder. -/
def treeLabels : RTree → List (List Char)
  | .mk _ lab kids => lab :: treeLabelsF kids

/-- All labels of an id-carrying forest. -/
def treeLabelsF : List RTree → List (List Char)
  | [] => []
  | t :: ts => treeLabels t ++ treeLabelsF ts

end

/-- Every label mentioned by a spine. -/
def spineLabels (sp : List OpenNode) : List (List Char) :=
  sp.flatMap fun e => e.label :: treeLabelsF e.kids

/-- Pure-side state: the open spine (bottom first) and the next fresh id,
mirroring the heap allocation counter. -/
structure PState where
  spine : List OpenNode
  next : Nat

/-- Rewrite the last element of a list. -/
def updLast (f : OpenNode → OpenNode) : List OpenNode → List OpenNode
  | [] => []
  | [e] => [f e]
  | e :: f2 :: rest => e :: updLast f (f2 :: rest)

/-- Pure image of one assembly-loop step: keep the bottom (the running root)
and the tail entries strictly below the item's level, close the dropped
suffix into a finished subtree attached as last child of the deepest kept
entry, and push the new item as the new open top. -/
def pureStep (ps : PState) (item : Int × List Char) : PState :=
  match ps.spine with
  | [] => ps
  | bottom :: tail =>
    let keep := tail.takeWhile fun e => e.key < item.1
    let dropped := tail.dropWhile fun e => e.key < item.1
    let newOpen : OpenNode := ⟨item.1, ps.next, item.2, []⟩
    match dropped with
    | [] => ⟨bottom :: keep ++ [newOpen], ps.next + 1⟩
    | d :: ds =>
      ⟨updLast (fun e => { e with kids := e.kids ++ [closeChain d ds] }) (bottom :: keep)
        ++ [newOpen], ps.next + 1⟩

/-- Forget an item's source line, leaving what the pure fold consumes. -/
def proj (item : Int × List Char × Nat) : Int × List Char := (item.1, item.2.1)

/-- Stack contents corresponding to a spine: the bottom's key is present
exactly while it is live (`b`), the tail keys always are. -/
def stackOf (b : Bool) (bottom : OpenNode) (tail : List OpenNode) : List (Int × Nat) :=
  (if b then [(bottom.key, bottom.id)] else []) ++ tail.map fun e => (e.key, e.id)

/-- Simulation relation between an assembly-loop state and a pure state:
the spine is nonempty with the running root at the bottom, the heap realizes
the spine, the allocation counters agree, all mentioned ids are distinct and
allocated, and the level stack lists the live spine keys in ascending
order. -/
def Rel (root : Nat) (st : MarkdownParser.BuildState) (ps : PState) : Prop :=
  ∃ bottom tail b,
    ps.spine = bottom :: tail ∧
    bottom.id = root ∧
    SpineLink st.arena ps.spine ∧
    ps.next = st.arena.length ∧
    (spineIds ps.spine).Nodup ∧
    (∀ i ∈ spineIds ps.spine, i < st.arena.length) ∧
    st.stack = stackOf b bottom tail ∧
    List.Chain' (· < ·) (st.stack.map Prod.fst)

/-- The open rightmost spine of a pure tree, rooted at depth `d` with ids
assigned from `n` in preorder: each node on the rightmost path is open, its
last child continuing the spine, all other children finished. -/
def openSpine (d n : Nat) (t : Rose) : List OpenNode :=
  match t with
  | .mk lab kids =>
    match h : kids.getLast? with
    | none => [⟨(d : Int), n, lab, []⟩]
    | some last =>
      ⟨(d : Int), n, lab, assignF (n + 1) kids.dropLast⟩ ::
        openSpine (d + 1) (n + 1 + sizeF kids.dropLast) last
termination_by sizeOf t
decreasing_by
  rename_i kids
  have h1 : last ∈ kids := by
    obtain ⟨hne, h2⟩ := List.mem_getLast?_eq_getLast h
    rw [h2]
    exact List.getLast_mem hne
  have := List.sizeOf_lt_of_mem h1
  simp at *
  omega

/-- Reachability in `k` child steps: `ReachK a n t k` holds when `t` is `n`
itself (`k = 0`) or a `k`-step descendant of `n` through children lists. -/
inductive ReachK (a : Arena) : Nat → Nat → Nat → Prop
  | refl (n : Nat) : ReachK a n n 0
  | step (n c t k : Nat) : c ∈ (getNode a n).children → ReachK a c t k →
      ReachK a n t (k + 1)

/-- The parent/child agreement invariant of the spec, read literally: a
recorded parent is allocated and lists the node among its children, and a
listed child is allocated and records the owner as its parent. -/
def Agree (a : Arena) : Prop :=
  (∀ i, i < a.length → ∀ p, (getNode a i).parent = some p →
    p < a.length ∧ i ∈ (getNode a p).children) ∧
  (∀ p, p < a.length → ∀ c ∈ (getNode a p).children,
    c < a.length ∧ (getNode a c).parent = some p)

/-- Duplicate-freeness of every children list. -/
def ChildrenNodup (a : Arena) : Prop :=
  ∀ i, i < a.length → (getNode a i).children.Nodup

/-- Read back the tree under a node from the heap; fuel-bounded exactly like
the serializer's walk, and any fuel at least the subtree's node count gives
the true tree. -/
def extractTree (a : Arena) : Nat → Nat → Rose
  | 0, _ => .mk [] []
  | fuel + 1, id =>
    .mk (getNode a id).text ((getNode a id).children.map fun c => extractTree a fuel c)

/-- Items whose level is not undercut by any earlier item (running minimum
`m` of the earlier levels, `none` at the start): exactly the items the
virtual-root loop attaches directly to the virtual root. -/
def anchors : Option Int → List (Int × List Char × Nat) → List (Int × List Char × Nat)
  | _, [] => []
  | m, (l, t, n) :: rest =>
    match m with
    | none => (l, t, n) :: anchors (some l) rest
    | some mv =>
      if l ≤ mv then (l, t, n) :: anchors (some (min mv l)) rest
      else anchors (some (min mv l)) rest

/-- A label as the parser creates it: already stripped and newline-free. -/
def goodLabel (l : List Char) : Prop := pyStrip l = l ∧ '\n' ∉ l

/-- Line-map entries produced by walking items with fresh ids from `n`: each
item's source line is mapped to the id allocated for it. -/
def lineEntries : Nat → List (Int × List Char × Nat) → List (Nat × Nat)
  | _, [] => []
  | n, item :: rest => (item.2.2, n) :: lineEntries (n + 1) rest

/-- Turn (depth, label) pairs into extractor items: the depth as the level,
consecutive source line numbers from `k`. -/
def attachLines : Nat → List (Nat × List Char) → List (Int × List Char × Nat)
  | _, [] => []
  | k, p :: rest => ((p.1 : Int), p.2, k) :: attachLines (k + 1) rest

/-- A pure tree within the parser's image, up to the two flagged defects:
every label is nonempty, stripped and newline-free, and a root carrying the
virtual-root marker label has at least two children (as the synthesized
virtual root always does). -/
def GoodRose (t : Rose) : Prop :=
  (∀ l ∈ t.labels, l ≠ [] ∧ pyStrip l = l ∧ '\n' ∉ l) ∧
  (t.label = MarkdownParser.vrootText → 2 ≤ t.kids.length)

/-- Node ids handed to the items the loop attaches directly to the running
root: an item is kept exactly when its level is at most every earlier level
(running minimum `m`), and ids are allocated consecutively from `n`. -/
def anchorIds : Option Int → Nat → List (Int × List Char × Nat) → List Nat
  | _, _, [] => []
  | m, n, (l, _, _) :: rest =>
    match m with
    | none => n :: anchorIds (some l) (n + 1) rest
    | some mv =>
      if l ≤ mv then n :: anchorIds (some (min mv l)) (n + 1) rest
      else anchorIds (some (min mv l)) (n + 1) rest

/-! Heap access lemmas. -/

theorem length_setNode (a : Arena) (i : Nat) (d : NodeData) :
    (setNode a i d).length = a.length := by
  simp [setNode]

theorem getNode_setNode_self (a : Arena) (i : Nat) (d : NodeData) (h : i < a.length) :
    getNode (setNode a i d) i = d := by
  simp [getNode, setNode, List.getD]
  rw [List.getElem?_set_eq_of_lt _ h]
  rfl

theorem getNode_setNode_ne (a : Arena) {i j : Nat} (d : NodeData) (h : i ≠ j) :
    getNode (setNode a i d) j = getNode a j := by
  simp [getNode, setNode, List.getD]
  rw [List.getElem?_set_ne h]

theorem getNode_append_lt (a b : Arena) (i : Nat) (h : i < a.length) :
    getNode (a ++ b) i = getNode a i := by
  simp [getNode, List.getD]
  rw [List.getElem?_append, if_pos h]

theorem getNode_append_self (a : Arena) (d : NodeData) :
    getNode (a ++ [d]) a.length = d := by
  simp [getNode, List.getD]

theorem setNode_append_lt (a : Arena) (b : Arena) (i : Nat) (d : NodeData)
    (h : i < a.length) : setNode (a ++ b) i d = setNode a i d ++ b := by
  simp [setNode, List.set_append, h]

theorem setNode_append_self (a : Arena) (c d : NodeData) :
    setNode (a ++ [c]) a.length d = a ++ [d] := by
  simp [setNode, List.set_append]

/-- C9: a text-change event delivered while `_updating_from_drag` is set is
ignored: no re-parse happens and the whole window state (tree, line index,
view included) is unchanged.  `_on_node_reparented` sets the flag before
pushing the serializer's text to the editor and clears it afterwards, so
the synchronous change notification of that push is ignored and the handler
only rewrites the editor text and leaves the flag cleared. -/
theorem spec_c9 (st : MainWindow.MainWindowState) (text : List Char) :
    (st.updatingFromDrag = true → MainWindow.on_text_changed st text = st) ∧
    MainWindow.on_node_reparented st =
      { st with
        editorText := TreeToMarkdownConverter.convert st.arena st.mindmapRoot
        updatingFromDrag := false } := by
  refine ⟨fun h => ?_, ?_⟩
  · simp [MainWindow.on_text_changed, h]
  · simp [MainWindow.on_node_reparented, MainWindow.on_text_changed]

/-- Witness for C9 at a concrete window state with the flag set. -/
theorem spec_c9_witness :
    MainWindow.on_text_changed ⟨true, false, none, [], [], [], none, []⟩ ['a'] =
      ⟨true, false, none, [], [], [], none, []⟩ :=
  (spec_c9 ⟨true, false, none, [], [], [], none, []⟩ ['a']).1 rfl

/-- C10: the serializer recognizes the virtual root purely by label
equality: any root whose text is the marker string contributes no line and
has its children rendered at depth 0 — including a real parsed root that
came from the input line for source line 0 of
`- __virtual_root__` with an indented child, whose own label is then absent
from the serialized output. -/
theorem spec_c10 :
    (∀ (a : Arena) (r : Nat), (getNode a r).text = MarkdownParser.vrootText →
      TreeToMarkdownConverter.convert a (some r) =
        joinNl ((getNode a r).children.flatMap fun c =>
          TreeToMarkdownConverter.convert_node a a.length c 0)) ∧
    ((MarkdownParser.parse [] "- __virtual_root__\n  - x".toList).root = some 0 ∧
      (getNode (MarkdownParser.parse [] "- __virtual_root__\n  - x".toList).arena 0).text =
        MarkdownParser.vrootText ∧
      MarkdownParser.get_node_by_line
        (MarkdownParser.parse [] "- __virtual_root__\n  - x".toList).lineMap 0 = some 0 ∧
      TreeToMarkdownConverter.convert
        (MarkdownParser.parse [] "- __virtual_root__\n  - x".toList).arena (some 0) =
        "- x".toList) := by
  refine ⟨fun a r h => ?_, rfl, rfl, rfl, rfl⟩
  simp [TreeToMarkdownConverter.convert, h]

/-- Witness for C10 at a one-cell heap holding only a virtual root. -/
theorem spec_c10_witness :
    TreeToMarkdownConverter.convert [⟨MarkdownParser.vrootText, none, []⟩] (some 0) =
      joinNl ((getNode [(⟨MarkdownParser.vrootText, none, []⟩ : NodeData)] 0).children.flatMap
        fun c => TreeToMarkdownConverter.convert_node
          [(⟨MarkdownParser.vrootText, none, []⟩ : NodeData)] 1 c 0) :=
  spec_c10.1 [⟨MarkdownParser.vrootText, none, []⟩] 0 rfl

/-! Lines, joining and stripping. -/

theorem splitNl_ne_nil (l : List Char) : splitNl l ≠ [] := by
  induction l with
  | nil => simp [splitNl]
  | cons c cs ih =>
    simp only [splitNl]
    split
    · simp
    · cases h : splitNl cs with
      | nil => simp
      | cons l' ls' => simp

theorem joinNl_cons_cons (l l2 : List Char) (ls : List (List Char)) :
    joinNl (l :: l2 :: ls) = l ++ '\n' :: joinNl (l2 :: ls) := rfl

theorem joinNl_splitNl (l : List Char) : joinNl (splitNl l) = l := by
  induction l with
  | nil => rfl
  | cons c cs ih =>
    obtain ⟨l', ls', h⟩ := List.exists_cons_of_ne_nil (splitNl_ne_nil cs)
    by_cases hc : c = '\n'
    · subst hc
      have e1 : splitNl ('\n' :: cs) = [] :: splitNl cs := by simp [splitNl]
      rw [e1, h, joinNl_cons_cons, ← h, ih]
      simp
    · have e1 : splitNl (c :: cs) = (c :: l') :: ls' := by
        simp only [splitNl, if_neg hc, h]
      rw [e1]
      have e2 : joinNl ((c :: l') :: ls') = c :: joinNl (l' :: ls') := by
        cases ls' <;> simp [joinNl]
      rw [e2, ← h, ih]

theorem mem_joinNl {c : Char} {l : List Char} {ls : List (List Char)}
    (h1 : l ∈ ls) (h2 : c ∈ l) : c ∈ joinNl ls := by
  induction ls with
  | nil => cases h1
  | cons x xs ih =>
    rw [List.mem_cons] at h1
    cases xs with
    | nil =>
      rcases h1 with h1 | h1
      · subst h1; simpa [joinNl] using h2
      · cases h1
    | cons y ys =>
      rw [joinNl_cons_cons, List.mem_append, List.mem_cons]
      rcases h1 with h1 | h1
      · exact Or.inl (h1 ▸ h2)
      · exact Or.inr (Or.inr (ih h1))

theorem mem_of_mem_splitNl {c : Char} {l : List Char} {text : List Char}
    (h1 : l ∈ splitNl text) (h2 : c ∈ l) : c ∈ text := by
  have := mem_joinNl h1 h2
  rwa [joinNl_splitNl] at this

theorem pyStrip_ne_nil {l : List Char} {c : Char} (h1 : c ∈ l)
    (h2 : isPySpace c = false) : pyStrip l ≠ [] := by
  intro hstrip
  unfold pyStrip at hstrip
  rw [List.reverse_eq_nil_iff, List.dropWhile_eq_nil_iff] at hstrip
  have hall : ∀ x ∈ l.dropWhile isPySpace, isPySpace x := by
    intro x hx
    exact hstrip x (by simpa using hx)
  have : ∀ x ∈ l, isPySpace x := by
    intro x hx
    rw [← List.takeWhile_append_dropWhile isPySpace l, List.mem_append] at hx
    rcases hx with hx | hx
    · exact List.mem_takeWhile_imp hx
    · exact hall x hx
  rw [this c h1] at h2
  cases h2

theorem listMatch_nonspace {line : List Char} {lv : Int} {t : List Char}
    (h : MarkdownParser.listMatch line = some (lv, t)) :
    ∃ c ∈ line, isPySpace c = false := by
  unfold MarkdownParser.listMatch at h
  cases hrest : line.dropWhile isPySpace with
  | nil => rw [hrest] at h; cases h
  | cons m rest2 =>
    rw [hrest] at h
    simp only at h
    split at h
    · rename_i hcond
      refine ⟨m, (List.dropWhile_suffix isPySpace).mem (hrest ▸ List.mem_cons_self m rest2), ?_⟩
      rcases hcond.1 with hm | hm <;> subst hm <;> decide
    · cases h

theorem headingMatch_nonspace {line : List Char} {lv : Int} {t : List Char}
    (h : MarkdownParser.headingMatch line = some (lv, t)) :
    ∃ c ∈ line, isPySpace c = false := by
  unfold MarkdownParser.headingMatch at h
  split at h
  · rename_i hcond
    cases htake : line.takeWhile (· = '#') with
    | nil => rw [htake] at hcond; simp at hcond
    | cons c0 cs0 =>
      have hc0 : c0 = '#' := by
        have := List.mem_takeWhile_imp (htake ▸ List.mem_cons_self c0 cs0)
        simpa using this
      have hmem : c0 ∈ line := ( List.takeWhile_prefix (· = '#')).mem
        (htake ▸ List.mem_cons_self c0 cs0)
      exact ⟨c0, hmem, by rw [hc0]; decide⟩
  · cases h

theorem extract_nonempty_strip {text : List Char}
    (f : List Char → Option (Int × List Char))
    (hf : ∀ line lv t, f line = some (lv, t) → ∃ c ∈ line, isPySpace c = false) :
    ∀ k lines, MarkdownParser.extractAux f k lines ≠ [] →
      (∀ l ∈ lines, l ∈ splitNl text) → pyStrip text ≠ [] := by
  intro k lines hne hsub
  induction lines generalizing k with
  | nil => simp [MarkdownParser.extractAux] at hne
  | cons line rest ih =>
    cases hm : f line with
    | some lt =>
      obtain ⟨c, hc, hcs⟩ := hf line lt.1 lt.2 (by rw [hm])
      exact pyStrip_ne_nil (mem_of_mem_splitNl (hsub line (by simp)) hc) hcs
    | none =>
      rw [MarkdownParser.extractAux, hm] at hne
      exact ih (k + 1) hne fun l hl => hsub l (by simp [hl])

/-- C5: when at least one line matches the list-marker syntax the parse is
computed from the extracted list items exclusively (heading lines cannot
influence the result), and heading lines are consulted only when no list
line exists. -/
theorem spec_c5 (text : List Char) (oldMap : List (Nat × Nat)) :
    (MarkdownParser.extract_list_items text ≠ [] →
      MarkdownParser.parse oldMap text =
        match MarkdownParser.build_tree_from_list (MarkdownParser.extract_list_items text) with
        | some (r, a, m) => ⟨some r, a, m⟩
        | none => ⟨none, [], []⟩) ∧
    (MarkdownParser.extract_list_items text = [] →
      MarkdownParser.extract_headings text ≠ [] →
      MarkdownParser.parse oldMap text =
        match MarkdownParser.build_tree (MarkdownParser.extract_headings text) with
        | some (r, a, m) => ⟨some r, a, m⟩
        | none => ⟨none, [], []⟩) := by
  constructor
  · intro hne
    have hstrip : pyStrip text ≠ [] :=
      extract_nonempty_strip MarkdownParser.listMatch
        (fun line lv t h => listMatch_nonspace h) 0 (splitNl text) hne (fun l hl => hl)
    rw [MarkdownParser.parse]
    rw [if_neg hstrip, if_neg (by simpa [List.isEmpty_iff] using hne)]
  · intro hemp hne
    have hstrip : pyStrip text ≠ [] :=
      extract_nonempty_strip MarkdownParser.headingMatch
        (fun line lv t h => headingMatch_nonspace h) 0 (splitNl text) hne (fun l hl => hl)
    rw [MarkdownParser.parse]
    rw [if_neg hstrip, if_pos (by simpa [List.isEmpty_iff] using hemp),
      if_neg (by simpa [List.isEmpty_iff] using hne)]

/-- Witness for C5: a list-dialect document and a heading-dialect document. -/
theorem spec_c5_witness :
    (MarkdownParser.parse [] "# h\n- a".toList =
      match MarkdownParser.build_tree_from_list
        (MarkdownParser.extract_list_items "# h\n- a".toList) with
      | some (r, a, m) => ⟨some r, a, m⟩
      | none => ⟨none, [], []⟩) ∧
    (MarkdownParser.parse [] "# h".toList =
      match MarkdownParser.build_tree (MarkdownParser.extract_headings "# h".toList) with
      | some (r, a, m) => ⟨some r, a, m⟩
      | none => ⟨none, [], []⟩) :=
  ⟨(spec_c5 "# h\n- a".toList []).1 (by decide),
    (spec_c5 "# h".toList []).2 (by decide) (by decide)⟩

/-! Reachability and the drop guard. -/

theorem checkRecursive_of_reachK {a : Arena} {n t k : Nat} (h : ReachK a n t k) :
    ∀ fuel, k < fuel → NodeItem.checkRecursive a fuel n t = true := by
  induction h with
  | refl n =>
    intro fuel hf
    cases fuel with
    | zero => omega
    | succ f => simp [NodeItem.checkRecursive]
  | step n c t k hc hr ih =>
    intro fuel hf
    cases fuel with
    | zero => omega
    | succ f =>
      simp only [NodeItem.checkRecursive, Bool.or_eq_true, List.any_eq_true]
      exact Or.inr ⟨c, hc, ih f (by omega)⟩

/-- C1 (amended): the source has no `InvalidReparentError`; the cycle guard
lives in the drag gesture instead.  `NodeItem._is_descendant` answers true
for the dragged node itself and for every node reachable through children
lists from it, so `_update_hover_target` never accepts such a node as a
drop target, no reparent is invoked, and the tree stays unchanged.  The
drop handler itself, invoked directly with such a target, mutates the tree
without signalling (see the counterexample). -/
theorem spec_c1 (a : Arena) (n t k : Nat) (h : ReachK a n t k) (hk : k < a.length) :
    NodeItem.is_descendant a n t = true :=
  checkRecursive_of_reachK h a.length hk

/-- Witness for C1: in the two-cell heap `R → C`, the node `C` is reachable
from `R`, and the guard flags it. -/
theorem spec_c1_witness :
    NodeItem.is_descendant [⟨['R'], none, [1]⟩, ⟨['C'], some 0, []⟩] 0 1 = true :=
  spec_c1 [⟨['R'], none, [1]⟩, ⟨['C'], some 0, []⟩] 0 1 1
    (.step 0 1 1 0 (by decide) (.refl 1)) (by decide)

/-- Counterexample for C1 as stated: dropping the root `R` onto its own
child `C` goes through `_on_node_dropped` without any `InvalidReparentError`
(the operation is total in the source) and does not leave the tree
unchanged — it rewires it into a cycle. -/
theorem spec_c1_counterexample :
    ReachK [⟨['R'], none, [1]⟩, ⟨['C'], some 0, []⟩] 0 1 1 ∧
    MindMapView.on_node_dropped [⟨['R'], none, [1]⟩, ⟨['C'], some 0, []⟩] 0 1 ≠
      [⟨['R'], none, [1]⟩, ⟨['C'], some 0, []⟩] :=
  ⟨.step 0 1 1 0 (by decide) (.refl 1), by decide⟩

/-! The mutation API and the parent/child agreement invariant. -/

theorem getNode_setNode (a : Arena) (i j : Nat) (d : NodeData) (hi : i < a.length) :
    getNode (setNode a i d) j = if j = i then d else getNode a j := by
  by_cases h : j = i
  · subst h; rw [getNode_setNode_self a j d hi, if_pos rfl]
  · rw [getNode_setNode_ne a d fun e => h e.symm, if_neg h]

theorem length_add_child (a : Arena) (s c : Nat) :
    (Node.add_child a s c).length = a.length := by
  unfold Node.add_child
  cases (getNode a c).parent <;> simp only [] <;> split <;> simp [length_setNode]

theorem length_remove_child (a : Arena) (s c : Nat) :
    (Node.remove_child a s c).length = a.length := by
  unfold Node.remove_child
  split <;> simp [length_setNode]

/-- Per-cell description of `add_child` on a heap satisfying agreement and
duplicate-freeness: the child's parent becomes `self`, `self`'s children end
with the child exactly once, every other children list drops any stale
occurrence of the child (a no-op unless that node was the old parent). -/
theorem add_child_spec (a : Arena) (s c : Nat) (hs : s < a.length) (hc : c < a.length)
    (hA : Agree a) (hN : ChildrenNodup a) (j : Nat) (hj : j < a.length) :
    getNode (Node.add_child a s c) j =
      ⟨(getNode a j).text,
        if j = c then some s else (getNode a j).parent,
        if j = s then (getNode a j).children.erase c ++ [c]
        else (getNode a j).children.erase c⟩ := by
  unfold Node.add_child
  cases hp : (getNode a c).parent with
  | none =>
    have hnotmem : ∀ q, q < a.length → c ∉ (getNode a q).children := by
      intro q hq hmemq
      have h2 := (hA.2 q hq c hmemq).2
      rw [hp] at h2
      cases h2
    simp only []
    rw [if_neg (hnotmem s hs)]
    rw [getNode_setNode _ _ _ _ (by rw [length_setNode]; exact hc)]
    rw [getNode_setNode _ _ _ _ hs]
    have he : ∀ q, q < a.length → (getNode a q).children.erase c = (getNode a q).children :=
      fun q hq => List.erase_of_not_mem (hnotmem q hq)
    by_cases hjc : j = c
    · rw [if_pos hjc]
      by_cases hjs : j = s
      · have hcs : c = s := hjc.symm.trans hjs
        rw [if_pos hcs, if_pos hjc, if_pos hjs]
        simp [hjs, he s hs]
      · have hcs : ¬ c = s := fun h => hjs (hjc.trans h)
        rw [if_neg hcs, if_pos hjc, if_neg hjs]
        simp [hjc, he c hc]
    · rw [if_neg hjc, if_neg hjc, getNode_setNode _ _ _ _ hs]
      by_cases hjs : j = s
      · rw [if_pos hjs, if_pos hjs]
        simp [hjs, he s hs]
      · rw [if_neg hjs, if_neg hjs]
        simp [he j hj]
  | some p =>
    obtain ⟨hplt, hcp⟩ := hA.1 c hc p hp
    have honly : ∀ q, q < a.length → q ≠ p → c ∉ (getNode a q).children := by
      intro q hq hqp hmemq
      have h2 := (hA.2 q hq c hmemq).2
      rw [hp] at h2
      exact hqp (Option.some_injective _ h2).symm
    have he2 : ∀ q, q < a.length → q ≠ p →
        (getNode a q).children.erase c = (getNode a q).children :=
      fun q hq hqp => List.erase_of_not_mem (honly q hq hqp)
    simp only []
    rw [getNode_setNode _ _ _ _ hplt]
    by_cases hsp : s = p
    · -- the old parent is the new parent: erase, then re-append
      rw [if_pos hsp]
      have hnomem : c ∉ ((getNode a p).children.erase c) :=
        fun hmem => (((hN p hplt).mem_erase_iff).1 hmem).1 rfl
      rw [if_neg hnomem]
      simp only [getNode_setNode, length_setNode, hs, hc, hplt]
      by_cases hjc : j = c
      · by_cases hjs : j = s
        · have hcs : c = s := hjc.symm.trans hjs
          simp only [if_pos hjc, if_pos hjs, if_pos hcs]
          simp [hjs, hsp]
        · have hcs : ¬ c = s := fun h => hjs (hjc.trans h)
          have hcp2 : ¬ c = p := fun h => hcs (h.trans hsp.symm)
          simp only [if_pos hjc, if_neg hjs, if_neg hcs, if_neg hcp2]
          simp [hjc, he2 c hc hcp2]
      · by_cases hjs : j = s
        · simp only [if_neg hjc, if_pos hjs]
          simp [hjs, hsp]
        · have hjp : ¬ j = p := fun h => hjs (h.trans hsp.symm)
          simp only [if_neg hjc, if_neg hjs, if_neg hjp]
          simp [he2 j hj hjp]
    · -- distinct old and new parents
      rw [if_neg hsp, if_neg (honly s hs hsp)]
      simp only [getNode_setNode, length_setNode, hs, hc, hplt]
      by_cases hjc : j = c
      · by_cases hjs : j = s
        · have hcs : c = s := hjc.symm.trans hjs
          simp only [if_pos hjc, if_pos hjs, if_pos hcs]
          simp [hjs, hjc, he2 s hs hsp]
        · have hcs : ¬ c = s := fun h => hjs (hjc.trans h)
          simp only [if_pos hjc, if_neg hjs, if_neg hcs]
          by_cases hcp2 : c = p
          · simp only [if_pos hcp2]
            simp [hjc, hcp2]
          · simp only [if_neg hcp2]
            simp [hjc, he2 c hc hcp2]
      · by_cases hjs : j = s
        · simp only [if_neg hjc, if_pos hjs]
          simp [hjs, he2 s hs hsp]
        · simp only [if_neg hjc, if_neg hjs]
          by_cases hjp : j = p
          · simp only [if_pos hjp]
            simp [hjp]
          · simp only [if_neg hjp]
            simp [he2 j hj hjp]

/-- Per-cell description of `remove_child` under the same invariants: when
the child really is in `self`'s list it is erased there and orphaned;
otherwise nothing changes (the erase is then a no-op on every cell). -/
theorem remove_child_spec (a : Arena) (s c : Nat) (hs : s < a.length) (hc : c < a.length)
    (hA : Agree a) (hN : ChildrenNodup a) (j : Nat) (hj : j < a.length) :
    getNode (Node.remove_child a s c) j =
      ⟨(getNode a j).text,
        if j = c ∧ c ∈ (getNode a s).children then none else (getNode a j).parent,
        if j = s then (getNode a j).children.erase c else (getNode a j).children⟩ := by
  unfold Node.remove_child
  by_cases hmem : c ∈ (getNode a s).children
  · rw [if_pos hmem]
    rw [getNode_setNode _ _ _ _ (by rw [length_setNode]; exact hc)]
    by_cases hjc : j = c
    · subst hjc
      rw [if_pos rfl, if_pos ⟨rfl, hmem⟩, getNode_setNode _ _ _ _ hs]
      by_cases hjs : j = s
      · subst hjs; rw [if_pos rfl, if_pos rfl]
      · rw [if_neg hjs, if_neg hjs]
    · rw [if_neg hjc, if_neg (fun h => hjc h.1), getNode_setNode _ _ _ _ hs]
      by_cases hjs : j = s
      · subst hjs; rw [if_pos rfl, if_pos rfl]
      · rw [if_neg hjs, if_neg hjs]
  · rw [if_neg hmem, if_neg (fun h => hmem h.2)]
    by_cases hjs : j = s
    · subst hjs; rw [if_pos rfl, List.erase_of_not_mem hmem]
    · rw [if_neg hjs]

/-- C7 (amended): on a heap whose children lists are in addition
duplicate-free, both `add_child` and `remove_child` preserveParent/child
agreement together with that duplicate-freeness; in particular `add_child`
first detaches the child from any previous parent. -/
theorem spec_c7 (a : Arena) (s c : Nat) (hs : s < a.length) (hc : c < a.length)
    (hA : Agree a) (hN : ChildrenNodup a) :
    (Agree (Node.add_child a s c) ∧ ChildrenNodup (Node.add_child a s c)) ∧
    (Agree (Node.remove_child a s c) ∧ ChildrenNodup (Node.remove_child a s c)) := by
  have hLa := length_add_child a s c
  have hLr := length_remove_child a s c
  refine ⟨⟨⟨?_, ?_⟩, ?_⟩, ⟨?_, ?_⟩, ?_⟩
  · -- add_child, recorded parents are listed
    intro i hi p hp
    rw [hLa] at hi
    rw [add_child_spec a s c hs hc hA hN i hi] at hp
    by_cases hic : i = c
    · rw [if_pos hic] at hp
      cases hp
      rw [hLa, add_child_spec a s c hs hc hA hN s hs]
      refine ⟨hs, ?_⟩
      simp [hic]
    · rw [if_neg hic] at hp
      obtain ⟨hplt, hmem⟩ := hA.1 i hi p hp
      rw [hLa, add_child_spec a s c hs hc hA hN p hplt]
      refine ⟨hplt, ?_⟩
      have hmem2 : i ∈ (getNode a p).children.erase c :=
        (List.mem_erase_of_ne hic).2 hmem
      by_cases hps : p = s
      · rw [if_pos hps]
        exact List.mem_append_left _ hmem2
      · rw [if_neg hps]
        exact hmem2
  · -- add_child, listed children record the owner
    intro p hp i hi
    rw [hLa] at hp
    rw [add_child_spec a s c hs hc hA hN p hp] at hi
    simp only [] at hi
    by_cases hps : p = s
    · rw [if_pos hps, List.mem_append] at hi
      rcases hi with hi | hi
      · obtain ⟨hine, himem⟩ := ((hN p hp).mem_erase_iff).1 hi
        obtain ⟨hilt, hipar⟩ := hA.2 p hp i himem
        rw [hLa, add_child_spec a s c hs hc hA hN i hilt, if_neg hine]
        exact ⟨hilt, hipar⟩
      · rw [List.mem_singleton] at hi
        rw [hLa, hi, add_child_spec a s c hs hc hA hN c hc, if_pos rfl, hps]
        exact ⟨hc, rfl⟩
    · rw [if_neg hps] at hi
      obtain ⟨hine, himem⟩ := ((hN p hp).mem_erase_iff).1 hi
      obtain ⟨hilt, hipar⟩ := hA.2 p hp i himem
      rw [hLa, add_child_spec a s c hs hc hA hN i hilt, if_neg hine]
      exact ⟨hilt, hipar⟩
  · -- add_child keeps children lists duplicate-free
    intro i hi
    rw [hLa] at hi
    rw [add_child_spec a s c hs hc hA hN i hi]
    simp only []
    by_cases his : i = s
    · subst his
      rw [if_pos rfl, List.nodup_append]
      refine ⟨(hN i hi).erase c, List.nodup_singleton c, ?_⟩
      intro x hx hx2
      rw [List.mem_singleton] at hx2
      subst hx2
      exact (((hN i hi).mem_erase_iff).1 hx).1 rfl
    · rw [if_neg his]
      exact (hN i hi).erase c
  · -- remove_child, recorded parents are listed
    intro i hi p hp
    rw [hLr] at hi
    rw [remove_child_spec a s c hs hc hA hN i hi] at hp
    simp only [] at hp
    by_cases hcond : i = c ∧ c ∈ (getNode a s).children
    · rw [if_pos hcond] at hp; cases hp
    · rw [if_neg hcond] at hp
      obtain ⟨hplt, himem⟩ := hA.1 i hi p hp
      rw [hLr, remove_child_spec a s c hs hc hA hN p hplt]
      refine ⟨hplt, ?_⟩
      simp only []
      by_cases hps : p = s
      · rw [if_pos hps]
        have hine : i ≠ c := by
          intro he
          apply hcond
          refine ⟨he, ?_⟩
          rw [← he, ← hps]
          exact himem
        exact (List.mem_erase_of_ne hine).2 himem
      · rw [if_neg hps]; exact himem
  · -- remove_child, listed children record the owner
    intro p hp i hi
    rw [hLr] at hp
    rw [remove_child_spec a s c hs hc hA hN p hp] at hi
    simp only [] at hi
    by_cases hps : p = s
    · rw [if_pos hps] at hi
      obtain ⟨hine, himem⟩ := ((hN p hp).mem_erase_iff).1 hi
      obtain ⟨hilt, hipar⟩ := hA.2 p hp i himem
      rw [hLr, remove_child_spec a s c hs hc hA hN i hilt,
        if_neg fun h => hine h.1]
      exact ⟨hilt, hipar⟩
    · rw [if_neg hps] at hi
      obtain ⟨hilt, hipar⟩ := hA.2 p hp i hi
      rw [hLr, remove_child_spec a s c hs hc hA hN i hilt]
      refine ⟨hilt, ?_⟩
      simp only []
      have hcond : ¬(i = c ∧ c ∈ (getNode a s).children) := by
        rintro ⟨he, hmem⟩
        have h3 := (hA.2 s hs c hmem).2
        rw [← he, hipar] at h3
        exact hps (Option.some_injective _ h3)
      rw [if_neg hcond]
      exact hipar
  · -- remove_child keeps children lists duplicate-free
    intro i hi
    rw [hLr] at hi
    rw [remove_child_spec a s c hs hc hA hN i hi]
    simp only []
    by_cases his : i = s
    · subst his; rw [if_pos rfl]; exact (hN i hi).erase c
    · rw [if_neg his]; exact hN i hi

/-- Witness for C7 on the two-cell heap where node 1 owns node 0. -/
theorem spec_c7_witness :
    (Agree (Node.add_child [⟨['a'], some 1, []⟩, ⟨['b'], none, [0]⟩] 0 1) ∧
      ChildrenNodup (Node.add_child [⟨['a'], some 1, []⟩, ⟨['b'], none, [0]⟩] 0 1)) ∧
    (Agree (Node.remove_child [⟨['a'], some 1, []⟩, ⟨['b'], none, [0]⟩] 0 1) ∧
      ChildrenNodup (Node.remove_child [⟨['a'], some 1, []⟩, ⟨['b'], none, [0]⟩] 0 1)) := by
  refine spec_c7 [⟨['a'], some 1, []⟩, ⟨['b'], none, [0]⟩] 0 1 (by decide) (by decide) ⟨?_, ?_⟩ ?_
  · intro i hi p hp
    simp only [List.length_cons, List.length_nil] at hi
    interval_cases i
    · cases hp
      exact ⟨by decide, by decide⟩
    · cases hp
  · intro p hp i hi
    simp only [List.length_cons, List.length_nil] at hp
    interval_cases p
    · simp [getNode] at hi
    · have hi2 : i = 0 := by simpa [getNode] using hi
      rw [hi2]
      exact ⟨by decide, rfl⟩
  · intro i hi
    simp only [List.length_cons, List.length_nil] at hi
    interval_cases i <;> decide

/-- Counterexample for C7 as stated: the literal agreement invariant also
holds of a heap where node 1 lists node 0 twice; there `add_child` removes
only the first stale occurrence, so after moving node 0 under node 2 it is
still listed by node 1, which no longer is its recorded parent. -/
theorem spec_c7_counterexample :
    Agree [⟨['a'], some 1, []⟩, ⟨['b'], none, [0, 0]⟩, ⟨['q'], none, []⟩] ∧
    ¬ Agree (Node.add_child [⟨['a'], some 1, []⟩, ⟨['b'], none, [0, 0]⟩, ⟨['q'], none, []⟩] 2 0) := by
  constructor
  · constructor
    · intro i hi p hp
      simp only [List.length_cons, List.length_nil] at hi
      interval_cases i
      · cases hp
        exact ⟨by decide, by decide⟩
      · cases hp
      · cases hp
    · intro p hp i hi
      simp only [List.length_cons, List.length_nil] at hp
      interval_cases p
      · simp [getNode] at hi
      · have hi2 : i = 0 := by simpa [getNode] using hi
        rw [hi2]
        exact ⟨by decide, rfl⟩
      · simp [getNode] at hi
  · intro hA
    have hres : Node.add_child [⟨['a'], some 1, []⟩, ⟨['b'], none, [0, 0]⟩, ⟨['q'], none, []⟩] 2 0 =
        [⟨['a'], some 2, []⟩, ⟨['b'], none, [0]⟩, ⟨['q'], none, [0]⟩] := by decide
    rw [hres] at hA
    have h2 := (hA.2 1 (by decide) 0 (by decide)).2
    have : (some 2 : Option Nat) = some 1 := h2
    cases this

/-! Parent lookup and the assembly step. -/

theorem getNode_append_len (b : Arena) (d : NodeData) (n : Nat) (h : n = b.length) :
    getNode (b ++ [d]) n = d := by
  subst h; exact getNode_append_self b d

theorem setNode_append_len (b : Arena) (c d : NodeData) (n : Nat) (h : n = b.length) :
    setNode (b ++ [c]) n d = b ++ [d] := by
  subst h; exact setNode_append_self b c d

theorem foldl_pick_max (p : Int × Nat) (rest : List (Int × Nat)) :
    (rest.foldl (fun b q => if b.1 < q.1 then q else b) p) ∈ p :: rest ∧
      ∀ q ∈ p :: rest, q.1 ≤ (rest.foldl (fun b q => if b.1 < q.1 then q else b) p).1 := by
  induction rest generalizing p with
  | nil =>
    refine ⟨List.mem_cons_self _ _, ?_⟩
    intro q hq
    rw [List.mem_cons] at hq
    rcases hq with hq | hq
    · simp [hq]
    · cases hq
  | cons x xs ih =>
    obtain ⟨ihmem, ihbound⟩ := ih (if p.1 < x.1 then x else p)
    constructor
    · rw [List.foldl_cons]
      rw [List.mem_cons] at ihmem
      rcases ihmem with hm | hm
      · rw [hm]
        split
        · exact List.mem_cons_of_mem _ (List.mem_cons_self _ _)
        · exact List.mem_cons_self _ _
      · exact List.mem_cons_of_mem _ (List.mem_cons_of_mem _ hm)
    · intro q hq
      rw [List.foldl_cons]
      rw [List.mem_cons, List.mem_cons] at hq
      have hif : p.1 ≤ (if p.1 < x.1 then x else p).1 ∧ x.1 ≤ (if p.1 < x.1 then x else p).1 := by
        split
        · rename_i hlt
          exact ⟨le_of_lt hlt, le_refl _⟩
        · rename_i hnlt
          exact ⟨le_refl _, le_of_not_lt hnlt⟩
      rcases hq with hq | hq | hq
      · exact le_trans (hq ▸ hif.1) (ihbound _ (List.mem_cons_self _ _))
      · exact le_trans (hq ▸ hif.2) (ihbound _ (List.mem_cons_self _ _))
      · exact ihbound q (List.mem_cons_of_mem _ hq)

theorem find_parent_none_iff (level : Int) (stack : List (Int × Nat)) :
    MarkdownParser.find_parent level stack = none ↔ ∀ q ∈ stack, ¬ q.1 < level := by
  unfold MarkdownParser.find_parent
  cases hf : stack.filter fun p => p.1 < level with
  | nil =>
    simp only []
    constructor
    · intro _ q hq hlt
      have : q ∈ stack.filter fun p => p.1 < level := by
        rw [List.mem_filter]
        exact ⟨hq, by simpa using hlt⟩
      rw [hf] at this
      cases this
    · intro _; trivial
  | cons p rest =>
    simp only []
    constructor
    · intro h; cases h
    · intro hall
      have : p ∈ stack.filter fun q => q.1 < level := by rw [hf]; exact List.mem_cons_self _ _
      rw [List.mem_filter] at this
      exact absurd (by simpa using this.2) (hall p this.1)

theorem find_parent_some_max {level : Int} {stack : List (Int × Nat)} {n : Nat}
    (h : MarkdownParser.find_parent level stack = some n) :
    ∃ k, (k, n) ∈ stack ∧ k < level ∧ ∀ q ∈ stack, q.1 < level → q.1 ≤ k := by
  unfold MarkdownParser.find_parent at h
  cases hf : stack.filter fun p => p.1 < level with
  | nil => rw [hf] at h; cases h
  | cons p rest =>
    rw [hf] at h
    simp only [Option.some_inj] at h
    obtain ⟨hmem, hbound⟩ := foldl_pick_max p rest
    rw [← hf] at hmem
    rw [List.mem_filter] at hmem
    refine ⟨(rest.foldl (fun b q => if b.1 < q.1 then q else b) p).1, ?_, by simpa using hmem.2, ?_⟩
    · rw [← h]
      exact hmem.1
    · intro q hq hqlt
      apply hbound
      rw [← hf, List.mem_filter]
      exact ⟨hq, by simpa using hqlt⟩

/-- Attaching a freshly allocated node: `add_child` called on the heap just
extended with an orphan cell appends the new id as the last child of the
target and records the target as its parent, leaving all other cells be. -/
theorem add_child_fresh (a : Arena) (p : Nat) (d : NodeData) (hp : p < a.length)
    (hbound : ∀ x ∈ (getNode a p).children, x < a.length) (hdpar : d.parent = none) :
    Node.add_child (a ++ [d]) p a.length =
      setNode a p { getNode a p with children := (getNode a p).children ++ [a.length] } ++
        [⟨d.text, some p, d.children⟩] := by
  unfold Node.add_child
  rw [getNode_append_self, hdpar]
  simp only []
  rw [getNode_append_lt _ _ _ hp]
  rw [if_neg fun hmem => absurd (hbound _ hmem) (lt_irrefl a.length)]
  rw [setNode_append_lt _ _ _ _ hp]
  have hlen2 : a.length = (setNode a p
      { getNode a p with children := (getNode a p).children ++ [a.length] }).length := by
    rw [length_setNode]
  rw [getNode_append_len _ _ _ hlen2, setNode_append_len _ _ _ _ hlen2]

/-- C4: `_find_parent` selects the stack entry with the greatest key
strictly below the new depth (and answers nothing exactly when no key is
below it); each assembly step then attaches the freshly created node as the
last child either of that entry's node or, failing that, of the running
root; consequently a level skip nests the deep entry directly under its
nearest shallower ancestor: `# A` followed by `### B` parses to `A` with
`B` as its direct child, under no phantom intermediate node. -/
theorem spec_c4 :
    (∀ (level : Int) (stack : List (Int × Nat)),
      MarkdownParser.find_parent level stack = none ↔ ∀ q ∈ stack, ¬ q.1 < level) ∧
    (∀ (level : Int) (stack : List (Int × Nat)) (n : Nat),
      MarkdownParser.find_parent level stack = some n →
      ∃ k, (k, n) ∈ stack ∧ k < level ∧ ∀ q ∈ stack, q.1 < level → q.1 ≤ k) ∧
    (∀ (root : Nat) (st : MarkdownParser.BuildState) (item : Int × List Char × Nat),
      root < st.arena.length →
      (∀ q ∈ st.stack, q.2 < st.arena.length) →
      (∀ i, i < st.arena.length → ∀ x ∈ (getNode st.arena i).children, x < st.arena.length) →
      (MarkdownParser.buildStep root st item).arena =
        setNode st.arena ((MarkdownParser.find_parent item.1 st.stack).getD root)
          { getNode st.arena ((MarkdownParser.find_parent item.1 st.stack).getD root) with
            children := (getNode st.arena
              ((MarkdownParser.find_parent item.1 st.stack).getD root)).children ++
              [st.arena.length] } ++
          [⟨item.2.1, some ((MarkdownParser.find_parent item.1 st.stack).getD root), []⟩]) ∧
    MarkdownParser.parse [] "# A\n### B".toList =
      ⟨some 0, [⟨['A'], none, [1]⟩, ⟨['B'], some 0, []⟩], [(0, 0), (1, 1)]⟩ := by
  refine ⟨find_parent_none_iff, fun level stack n h => find_parent_some_max h, ?_, rfl⟩
  intro root st item hroot hstack hwf
  obtain ⟨level, text, lineNum⟩ := item
  unfold MarkdownParser.buildStep
  simp only [newNode]
  cases hfp : MarkdownParser.find_parent level st.stack with
  | none =>
    simp only [Option.getD]
    exact add_child_fresh st.arena root _ hroot (hwf root hroot) rfl
  | some p =>
    obtain ⟨k, hkmem, _, _⟩ := find_parent_some_max hfp
    have hplt : p < st.arena.length := hstack (k, p) hkmem
    simp only [Option.getD]
    exact add_child_fresh st.arena p _ hplt (hwf p hplt) rfl

/-- Witness for C4: the parent of a level-3 node over the stack holding the
level-1 node `5` is node `5`. -/
theorem spec_c4_witness :
    ∃ k, (k, 5) ∈ [((1 : Int), 5)] ∧ k < 3 ∧ ∀ q ∈ [((1 : Int), 5)], q.1 < 3 → q.1 ≤ k :=
  spec_c4.2.1 3 [(1, 5)] 5 rfl

/-! The line-to-node map. -/

theorem buildStep_arena_length (root : Nat) (st : MarkdownParser.BuildState)
    (item : Int × List Char × Nat) :
    (MarkdownParser.buildStep root st item).arena.length = st.arena.length + 1 := by
  obtain ⟨level, text, lineNum⟩ := item
  unfold MarkdownParser.buildStep
  simp only [newNode]
  cases hfp : MarkdownParser.find_parent level st.stack <;>
    simp [hfp, length_add_child]

theorem fold_build_arena_length (root : Nat) (items : List (Int × List Char × Nat)) :
    ∀ st, ((items.foldl (MarkdownParser.buildStep root) st).arena.length =
      st.arena.length + items.length) := by
  induction items with
  | nil => intro st; simp
  | cons it rest ih =>
    intro st
    rw [List.foldl_cons, ih, buildStep_arena_length, List.length_cons]
    omega

theorem buildStep_lineMap (root : Nat) (st : MarkdownParser.BuildState)
    (item : Int × List Char × Nat) :
    (MarkdownParser.buildStep root st item).lineMap =
      MarkdownParser.mapInsert st.lineMap item.2.2 st.arena.length := by
  obtain ⟨l, t, ln⟩ := item
  rfl

theorem mapInsert_fresh (m : List (Nat × Nat)) (k v : Nat) (h : ∀ q ∈ m, q.1 ≠ k) :
    MarkdownParser.mapInsert m k v = m ++ [(k, v)] := by
  unfold MarkdownParser.mapInsert
  rw [if_neg]
  intro hany
  rw [List.any_eq_true] at hany
  obtain ⟨x, hx, he⟩ := hany
  exact h x hx (by simpa using he)

theorem fold_build_lineMap (root : Nat) (items : List (Int × List Char × Nat)) :
    ∀ st, (∀ item ∈ items, ∀ q ∈ st.lineMap, q.1 ≠ item.2.2) →
    List.Pairwise (fun x y => x.2.2 < y.2.2) items →
    (items.foldl (MarkdownParser.buildStep root) st).lineMap =
      st.lineMap ++ lineEntries st.arena.length items := by
  induction items with
  | nil => intro st _ _; simp [lineEntries]
  | cons it rest ih =>
    intro st hfresh hsorted
    rw [List.foldl_cons]
    rw [List.pairwise_cons] at hsorted
    have h1 : (MarkdownParser.buildStep root st it).lineMap =
        st.lineMap ++ [(it.2.2, st.arena.length)] := by
      rw [buildStep_lineMap, mapInsert_fresh]
      exact fun q hq => hfresh it (List.mem_cons_self _ _) q hq
    have hfresh2 : ∀ item ∈ rest, ∀ q ∈ (MarkdownParser.buildStep root st it).lineMap,
        q.1 ≠ item.2.2 := by
      intro item hitem q hq
      rw [h1, List.mem_append] at hq
      rcases hq with hq | hq
      · exact hfresh item (List.mem_cons_of_mem _ hitem) q hq
      · rw [List.mem_singleton] at hq
        rw [hq]
        exact ne_of_lt (hsorted.1 item hitem)
    rw [ih _ hfresh2 hsorted.2, h1, buildStep_arena_length, List.append_assoc]
    rfl

theorem extractAux_line_ge (f : List Char → Option (Int × List Char)) :
    ∀ (lines : List (List Char)) (k : Nat),
      ∀ item ∈ MarkdownParser.extractAux f k lines, k ≤ item.2.2 := by
  intro lines
  induction lines with
  | nil => intro k item h; cases h
  | cons line rest ih =>
    intro k item h
    rw [MarkdownParser.extractAux] at h
    cases hm : f line with
    | some lt =>
      rw [hm] at h
      rcases List.mem_cons.1 h with h | h
      · rw [h]
      · exact le_trans (Nat.le_succ k) (ih (k + 1) item h)
    | none =>
      rw [hm] at h
      exact le_trans (Nat.le_succ k) (ih (k + 1) item h)

theorem extractAux_sorted (f : List Char → Option (Int × List Char)) :
    ∀ (lines : List (List Char)) (k : Nat),
      List.Pairwise (fun x y => x.2.2 < y.2.2) (MarkdownParser.extractAux f k lines) := by
  intro lines
  induction lines with
  | nil => intro k; exact List.Pairwise.nil
  | cons line rest ih =>
    intro k
    rw [MarkdownParser.extractAux]
    cases hm : f line with
    | some lt =>
      rw [List.pairwise_cons]
      refine ⟨fun y hy => ?_, ih (k + 1)⟩
      exact lt_of_lt_of_le (Nat.lt_succ_self k) (extractAux_line_ge f rest (k + 1) y hy)
    | none => exact ih (k + 1)

theorem get_node_by_line_mem : ∀ {m : List (Nat × Nat)}, (m.map Prod.fst).Nodup →
    ∀ {l n : Nat}, (l, n) ∈ m → MarkdownParser.get_node_by_line m l = some n := by
  intro m
  induction m with
  | nil => intro _ l n h; cases h
  | cons q rest ih =>
    intro hk l n h
    rw [List.map_cons, List.nodup_cons] at hk
    rw [List.mem_cons] at h
    unfold MarkdownParser.get_node_by_line
    by_cases hq : q.1 = l
    · rw [List.find?_cons_of_pos _ (by simpa using hq)]
      rcases h with h | h
      · rw [← h]; rfl
      · exact absurd (hq ▸ List.mem_map_of_mem Prod.fst h :
          q.1 ∈ rest.map Prod.fst) hk.1
    · rw [List.find?_cons_of_neg _ (by simpa using hq)]
      rcases h with h | h
      · exact absurd (by rw [← h]) hq
      · exact ih hk.2 h

theorem get_line_by_node_mem : ∀ {m : List (Nat × Nat)}, (m.map Prod.snd).Nodup →
    ∀ {l n : Nat}, (l, n) ∈ m → MarkdownParser.get_line_by_node m n = some l := by
  intro m
  induction m with
  | nil => intro _ l n h; cases h
  | cons q rest ih =>
    intro hk l n h
    rw [List.map_cons, List.nodup_cons] at hk
    rw [List.mem_cons] at h
    unfold MarkdownParser.get_line_by_node
    by_cases hq : q.2 = n
    · rw [List.find?_cons_of_pos _ (by simpa using hq)]
      rcases h with h | h
      · rw [← h]; rfl
      · exact absurd (hq ▸ List.mem_map_of_mem Prod.snd h :
          q.2 ∈ rest.map Prod.snd) hk.1
    · rw [List.find?_cons_of_neg _ (by simpa using hq)]
      rcases h with h | h
      · exact absurd (by rw [← h]) hq
      · exact ih hk.2 h

theorem get_node_by_line_not_mem {m : List (Nat × Nat)} {l : Nat}
    (h : ∀ q ∈ m, q.1 ≠ l) : MarkdownParser.get_node_by_line m l = none := by
  unfold MarkdownParser.get_node_by_line
  have hfind : m.find? (fun p => p.1 = l) = none :=
    List.find?_eq_none.2 fun x hx => by simpa using h x hx
  rw [hfind]
  rfl

theorem lineEntries_keys : ∀ (items : List (Int × List Char × Nat)) (n : Nat),
    (lineEntries n items).map Prod.fst = items.map fun q => q.2.2 := by
  intro items
  induction items with
  | nil => intro n; rfl
  | cons it rest ih => intro n; simp [lineEntries, ih]

theorem lineEntries_value_ge : ∀ (items : List (Int × List Char × Nat)) (n : Nat),
    ∀ q ∈ lineEntries n items, n ≤ q.2 := by
  intro items
  induction items with
  | nil => intro n q h; cases h
  | cons it rest ih =>
    intro n q h
    rcases List.mem_cons.1 h with h | h
    · rw [h]
    · exact le_trans (Nat.le_succ n) (ih (n + 1) q h)

theorem lineEntries_values_sorted : ∀ (items : List (Int × List Char × Nat)) (n : Nat),
    List.Pairwise (· < ·) ((lineEntries n items).map Prod.snd) := by
  intro items
  induction items with
  | nil => intro n; exact List.Pairwise.nil
  | cons it rest ih =>
    intro n
    rw [lineEntries, List.map_cons, List.pairwise_cons]
    refine ⟨fun v hv => ?_, ih (n + 1)⟩
    obtain ⟨q, hq, rfl⟩ := List.mem_map.1 hv
    exact lt_of_lt_of_le (Nat.lt_succ_self n) (lineEntries_value_ge rest (n + 1) q hq)

theorem fold_lineMap_char (root : Nat) (items : List (Int × List Char × Nat))
    (st : MarkdownParser.BuildState) (hmap : st.lineMap = [])
    (hsorted : List.Pairwise (fun x y => x.2.2 < y.2.2) items) :
    (items.foldl (MarkdownParser.buildStep root) st).lineMap.map Prod.fst =
      items.map (fun q => q.2.2) ∧
    List.Pairwise (· < ·)
      ((items.foldl (MarkdownParser.buildStep root) st).lineMap.map Prod.snd) := by
  rw [fold_build_lineMap root items st (by rw [hmap]; intro item _ q hq; cases hq) hsorted,
    hmap, List.nil_append]
  exact ⟨lineEntries_keys items _, lineEntries_values_sorted items _⟩

theorem fold_lineMap_char_seeded (root : Nat) (items : List (Int × List Char × Nat))
    (st : MarkdownParser.BuildState) (n0 : Nat) (hmap : st.lineMap = [(n0, 0)])
    (hlen : 1 ≤ st.arena.length)
    (hsorted : List.Pairwise (fun x y => x.2.2 < y.2.2) items)
    (hgt : ∀ item ∈ items, n0 < item.2.2) :
    (items.foldl (MarkdownParser.buildStep root) st).lineMap.map Prod.fst =
      n0 :: items.map (fun q => q.2.2) ∧
    List.Pairwise (· < ·)
      ((items.foldl (MarkdownParser.buildStep root) st).lineMap.map Prod.snd) := by
  rw [fold_build_lineMap root items st
    (by rw [hmap]; intro item hitem q hq; rw [List.mem_singleton] at hq; rw [hq];
        exact ne_of_lt (hgt item hitem)) hsorted, hmap]
  constructor
  · rw [List.map_append, lineEntries_keys]
    rfl
  · rw [List.map_append, List.pairwise_append]
    refine ⟨List.pairwise_singleton _ _, lineEntries_values_sorted _ _, ?_⟩
    intro v hv w hw
    rw [List.mem_map] at hw
    obtain ⟨q, hq, rfl⟩ := hw
    simp only [List.map_cons, List.map_nil, List.mem_singleton] at hv
    rw [hv]
    exact lt_of_lt_of_le hlen (lineEntries_value_ge _ _ q hq)

theorem build_from_list_lineMap {items : List (Int × List Char × Nat)}
    (hsorted : List.Pairwise (fun x y => x.2.2 < y.2.2) items)
    {r : Nat} {a : Arena} {m : List (Nat × Nat)}
    (h : MarkdownParser.build_tree_from_list items = some (r, a, m)) :
    m.map Prod.fst = items.map (fun q => q.2.2) ∧
      List.Pairwise (· < ·) (m.map Prod.snd) := by
  cases items with
  | nil => rw [MarkdownParser.build_tree_from_list] at h; cases h
  | cons hd restItems =>
    obtain ⟨l0, t0, n0⟩ := hd
    rw [MarkdownParser.build_tree_from_list] at h
    simp only [] at h
    split at h
    · rw [Option.some_inj] at h
      have h3 : _ = m := congrArg (fun x => x.2.2) h
      subst h3
      obtain ⟨hk, hv⟩ := fold_lineMap_char (newNode [] MarkdownParser.vrootText).2
        (((l0, t0, n0) :: restItems).map fun q =>
          (q.1 - List.foldl (fun m2 q2 => min m2 q2.1) l0 restItems, q.2.1, q.2.2))
        ⟨(newNode [] MarkdownParser.vrootText).1, [],
          [(-1, (newNode [] MarkdownParser.vrootText).2)]⟩ rfl
        ((List.pairwise_map).2 hsorted)
      refine ⟨?_, hv⟩
      rw [hk, List.map_map]
      rfl
    · rw [Option.some_inj] at h
      have h3 : _ = m := congrArg (fun x => x.2.2) h
      subst h3
      rw [List.pairwise_cons] at hsorted
      obtain ⟨hk, hv⟩ := fold_lineMap_char_seeded (newNode ([] : Arena) t0).2 restItems
        ⟨(newNode ([] : Arena) t0).1,
          MarkdownParser.mapInsert [] n0 (newNode ([] : Arena) t0).2,
          [(l0, (newNode ([] : Arena) t0).2)]⟩ n0 rfl (le_refl 1) hsorted.2 hsorted.1
      exact ⟨hk, hv⟩

theorem build_tree_lineMap {items : List (Int × List Char × Nat)}
    (hsorted : List.Pairwise (fun x y => x.2.2 < y.2.2) items)
    {r : Nat} {a : Arena} {m : List (Nat × Nat)}
    (h : MarkdownParser.build_tree items = some (r, a, m)) :
    m.map Prod.fst = items.map (fun q => q.2.2) ∧
      List.Pairwise (· < ·) (m.map Prod.snd) := by
  cases items with
  | nil => rw [MarkdownParser.build_tree] at h; cases h
  | cons hd restItems =>
    obtain ⟨l0, t0, n0⟩ := hd
    rw [MarkdownParser.build_tree] at h
    simp only [] at h
    split at h
    · rw [Option.some_inj] at h
      have h3 : _ = m := congrArg (fun x => x.2.2) h
      subst h3
      obtain ⟨hk, hv⟩ := fold_lineMap_char (newNode [] MarkdownParser.vrootText).2
        (((l0, t0, n0) :: restItems).map fun q =>
          (q.1 - List.foldl (fun m2 q2 => min m2 q2.1) l0 restItems + 1, q.2.1, q.2.2))
        ⟨(newNode [] MarkdownParser.vrootText).1, [],
          [(0, (newNode [] MarkdownParser.vrootText).2)]⟩ rfl
        ((List.pairwise_map).2 hsorted)
      refine ⟨?_, hv⟩
      rw [hk, List.map_map]
      rfl
    · rw [Option.some_inj] at h
      have h3 : _ = m := congrArg (fun x => x.2.2) h
      subst h3
      rw [List.pairwise_cons] at hsorted
      obtain ⟨hk, hv⟩ := fold_lineMap_char_seeded (newNode ([] : Arena) t0).2 restItems
        ⟨(newNode ([] : Arena) t0).1,
          MarkdownParser.mapInsert [] n0 (newNode ([] : Arena) t0).2,
          [(l0, (newNode ([] : Arena) t0).2)]⟩ n0 rfl (le_refl 1) hsorted.2 hsorted.1
      exact ⟨hk, hv⟩

/-- Keys and values of the line map of any parse: the keys are exactly the
source lines of the matched items in order, and the values (the node ids)
are strictly increasing, hence both are duplicate-free. -/
theorem parse_lineMap_char (text : List Char) :
    (MarkdownParser.parse [] text).lineMap.map Prod.fst =
      (if (MarkdownParser.extract_list_items text).isEmpty
        then MarkdownParser.extract_headings text
        else MarkdownParser.extract_list_items text).map (fun q => q.2.2) ∧
    List.Pairwise (· < ·) ((MarkdownParser.parse [] text).lineMap.map Prod.snd) := by
  have hlsort := extractAux_sorted MarkdownParser.listMatch (splitNl text) 0
  have hhsort := extractAux_sorted MarkdownParser.headingMatch (splitNl text) 0
  rw [MarkdownParser.parse]
  by_cases hblank : pyStrip text = []
  · rw [if_pos hblank]
    have hli : MarkdownParser.extract_list_items text = [] := by
      by_contra hne
      exact extract_nonempty_strip MarkdownParser.listMatch
        (fun line lv t h => listMatch_nonspace h) 0 (splitNl text) hne (fun l hl => hl) hblank
    have hhi : MarkdownParser.extract_headings text = [] := by
      by_contra hne
      exact extract_nonempty_strip MarkdownParser.headingMatch
        (fun line lv t h => headingMatch_nonspace h) 0 (splitNl text) hne (fun l hl => hl) hblank
    simp [hli, hhi]
  · rw [if_neg hblank]
    by_cases hli : (MarkdownParser.extract_list_items text).isEmpty
    · rw [if_pos hli, if_pos hli]
      by_cases hhi : (MarkdownParser.extract_headings text).isEmpty
      · rw [if_pos hhi]
        rw [List.isEmpty_iff] at hhi
        simp [hhi]
      · rw [if_neg hhi]
        cases hb : MarkdownParser.build_tree (MarkdownParser.extract_headings text) with
        | none =>
          rw [List.isEmpty_iff] at hhi
          obtain ⟨hd2, rest2, he⟩ := List.exists_cons_of_ne_nil hhi
          rw [he, MarkdownParser.build_tree] at hb
          simp only [] at hb
          obtain ⟨ll, tt, nn⟩ := hd2
          split at hb <;> cases hb
        | some ram =>
          obtain ⟨r, a, m⟩ := ram
          exact build_tree_lineMap hhsort hb
    · rw [if_neg hli, if_neg hli]
      cases hb : MarkdownParser.build_tree_from_list (MarkdownParser.extract_list_items text) with
      | none =>
        rw [List.isEmpty_iff] at hli
        obtain ⟨hd2, rest2, he⟩ := List.exists_cons_of_ne_nil hli
        rw [he, MarkdownParser.build_tree_from_list] at hb
        simp only [] at hb
        obtain ⟨ll, tt, nn⟩ := hd2
        split at hb <;> cases hb
      | some ram =>
        obtain ⟨r, a, m⟩ := ram
        exact build_from_list_lineMap hlsort hb

/-- C8: the line map of a parse is exactly one entry per matched source
line, in order (conjunct two); looking up a recorded line yields the node
created for it and looking up that node yields the line back (conjunct
three); any other line yields nothing (conjunct four); and the map is
rebuilt from scratch, so the previous map of the same parser never leaks
into the result (conjunct one). -/
theorem spec_c8 (oldMap : List (Nat × Nat)) (text : List Char) :
    MarkdownParser.parse oldMap text = MarkdownParser.parse [] text ∧
    (MarkdownParser.parse [] text).lineMap.map Prod.fst =
      (if (MarkdownParser.extract_list_items text).isEmpty
        then MarkdownParser.extract_headings text
        else MarkdownParser.extract_list_items text).map (fun q => q.2.2) ∧
    (∀ l n, (l, n) ∈ (MarkdownParser.parse [] text).lineMap →
      MarkdownParser.get_node_by_line (MarkdownParser.parse [] text).lineMap l = some n ∧
      MarkdownParser.get_line_by_node (MarkdownParser.parse [] text).lineMap n = some l) ∧
    (∀ l, (∀ n, (l, n) ∉ (MarkdownParser.parse [] text).lineMap) →
      MarkdownParser.get_node_by_line (MarkdownParser.parse [] text).lineMap l = none) := by
  obtain ⟨hkeys, hvals⟩ := parse_lineMap_char text
  have hknodup : ((MarkdownParser.parse [] text).lineMap.map Prod.fst).Nodup := by
    rw [hkeys]
    split
    · exact ((List.pairwise_map).2
        (extractAux_sorted MarkdownParser.headingMatch (splitNl text) 0)).imp Nat.ne_of_lt
    · exact ((List.pairwise_map).2
        (extractAux_sorted MarkdownParser.listMatch (splitNl text) 0)).imp Nat.ne_of_lt
  have hvnodup : ((MarkdownParser.parse [] text).lineMap.map Prod.snd).Nodup :=
    hvals.imp Nat.ne_of_lt
  refine ⟨rfl, hkeys, ?_, ?_⟩
  · intro l n hmem
    exact ⟨get_node_by_line_mem hknodup hmem, get_line_by_node_mem hvnodup hmem⟩
  · intro l hno
    apply get_node_by_line_not_mem
    intro q hq he
    exact hno q.2 (by rw [← he]; exact hq)

/-- Witness for C8 on the two-line list document. -/
theorem spec_c8_witness :
    MarkdownParser.get_node_by_line
      (MarkdownParser.parse [] "- Root\n  - Child".toList).lineMap 1 = some 1 ∧
    MarkdownParser.get_line_by_node
      (MarkdownParser.parse [] "- Root\n  - Child".toList).lineMap 1 = some 1 :=
  (spec_c8 [] "- Root\n  - Child".toList).2.2.1 1 1 (by decide)

/-! Pure tree lemmas. -/

theorem size_mk (lab : List Char) (kids : List Rose) :
    Rose.size (.mk lab kids) = 1 + sizeF kids := by
  rw [Rose.size]

theorem sizeF_cons (t : Rose) (ts : List Rose) : sizeF (t :: ts) = t.size + sizeF ts := by
  rw [sizeF]

theorem sizeF_nil : sizeF [] = 0 := by rw [sizeF]

theorem size_le_sizeF_of_mem {t : Rose} {ts : List Rose} (h : t ∈ ts) : t.size ≤ sizeF ts := by
  induction ts with
  | nil => cases h
  | cons x xs ih =>
    rw [sizeF_cons]
    rcases List.mem_cons.1 h with h | h
    · rw [h]; omega
    · have := ih h; omega

theorem rose_strong_ind (P : Rose → Prop)
    (h : ∀ lab kids, (∀ t ∈ kids, P t) → P (.mk lab kids)) : ∀ t, P t := by
  have key : ∀ n t, Rose.size t ≤ n → P t := by
    intro n
    induction n with
    | zero => intro t ht; cases t with | mk lab kids => rw [size_mk] at ht; omega
    | succ n ih =>
      intro t ht
      cases t with
      | mk lab kids =>
        refine h lab kids fun x hx => ih x ?_
        rw [size_mk] at ht
        have := size_le_sizeF_of_mem hx
        omega
  exact fun t => key t.size t le_rfl

theorem sizeR_mk (i : Nat) (lab : List Char) (kids : List RTree) :
    RTree.sizeR (.mk i lab kids) = 1 + sizeRF kids := by
  rw [RTree.sizeR]

theorem sizeRF_cons (t : RTree) (ts : List RTree) :
    sizeRF (t :: ts) = t.sizeR + sizeRF ts := by
  rw [sizeRF]

theorem sizeR_le_sizeRF_of_mem {t : RTree} {ts : List RTree} (h : t ∈ ts) :
    t.sizeR ≤ sizeRF ts := by
  induction ts with
  | nil => cases h
  | cons x xs ih =>
    rw [sizeRF_cons]
    rcases List.mem_cons.1 h with h | h
    · rw [h]; omega
    · have := ih h; omega

theorem sizeR_pos (t : RTree) : 0 < t.sizeR := by
  cases t with | mk i lab kids => rw [sizeR_mk]; omega

theorem shapeF_eq_map (ts : List RTree) : shapeF ts = ts.map RTree.shape := by
  induction ts with
  | nil => rw [shapeF]; rfl
  | cons t rest ih => rw [shapeF, ih]; rfl

theorem shape_mk (i : Nat) (lab : List Char) (kids : List RTree) :
    RTree.shape (.mk i lab kids) = .mk lab (shapeF kids) := by
  rw [RTree.shape]

theorem treeIds_mk (i : Nat) (lab : List Char) (kids : List RTree) :
    treeIds (.mk i lab kids) = i :: treeIdsF kids := by
  rw [treeIds]

theorem treeIdsF_cons (t : RTree) (ts : List RTree) :
    treeIdsF (t :: ts) = treeIds t ++ treeIdsF ts := by
  rw [treeIdsF]

theorem treeIdsF_append (ts us : List RTree) :
    treeIdsF (ts ++ us) = treeIdsF ts ++ treeIdsF us := by
  induction ts with
  | nil => rw [treeIdsF]; rfl
  | cons t rest ih =>
    rw [List.cons_append, treeIdsF_cons, treeIdsF_cons, ih, List.append_assoc]

theorem id_mem_treeIds (t : RTree) : t.id ∈ treeIds t := by
  cases t with | mk i lab kids => rw [treeIds]; exact List.mem_cons_self _ _

theorem mem_treeIdsF_of_mem {t : RTree} {ts : List RTree} (h : t ∈ ts) {x : Nat}
    (hx : x ∈ treeIds t) : x ∈ treeIdsF ts := by
  induction ts with
  | nil => cases h
  | cons u us ih =>
    rw [treeIdsF_cons, List.mem_append]
    rcases List.mem_cons.1 h with h | h
    · exact Or.inl (h ▸ hx)
    · exact Or.inr (ih h)

theorem kidsIds_sub_treeIdsF (ts : List RTree) : ∀ x ∈ kidsIds ts, x ∈ treeIdsF ts := by
  intro x hx
  rw [kidsIds, List.mem_map] at hx
  obtain ⟨t, ht, rfl⟩ := hx
  exact mem_treeIdsF_of_mem ht (id_mem_treeIds t)

theorem kidsIds_append (ts us : List RTree) :
    kidsIds (ts ++ us) = kidsIds ts ++ kidsIds us := by
  rw [kidsIds, kidsIds, kidsIds, List.map_append]

theorem treeLabels_mk (i : Nat) (lab : List Char) (kids : List RTree) :
    treeLabels (.mk i lab kids) = lab :: treeLabelsF kids := by
  rw [treeLabels]

theorem treeLabelsF_cons (t : RTree) (ts : List RTree) :
    treeLabelsF (t :: ts) = treeLabels t ++ treeLabelsF ts := by
  rw [treeLabelsF]

theorem treeLabelsF_append (ts us : List RTree) :
    treeLabelsF (ts ++ us) = treeLabelsF ts ++ treeLabelsF us := by
  induction ts with
  | nil => rw [treeLabelsF]; rfl
  | cons t rest ih =>
    rw [List.cons_append, treeLabelsF_cons, treeLabelsF_cons, ih, List.append_assoc]

theorem flatten_mk (d : Nat) (lab : List Char) (kids : List Rose) :
    Rose.flatten d (.mk lab kids) = (d, lab) :: flattenF (d + 1) kids := by
  rw [Rose.flatten]

theorem flattenF_cons (d : Nat) (t : Rose) (ts : List Rose) :
    flattenF d (t :: ts) = t.flatten d ++ flattenF d ts := by
  rw [flattenF]

theorem flattenF_append (d : Nat) (ts us : List Rose) :
    flattenF d (ts ++ us) = flattenF d ts ++ flattenF d us := by
  induction ts with
  | nil => rw [flattenF]; rfl
  | cons t rest ih =>
    rw [List.cons_append, flattenF_cons, flattenF_cons, ih, List.append_assoc]

theorem labelsF_cons (t : Rose) (ts : List Rose) :
    labelsF (t :: ts) = t.labels ++ labelsF ts := by
  rw [labelsF]

theorem labels_mk (lab : List Char) (kids : List Rose) :
    Rose.labels (.mk lab kids) = lab :: labelsF kids := by
  rw [Rose.labels]

theorem labelsF_append (ts us : List Rose) :
    labelsF (ts ++ us) = labelsF ts ++ labelsF us := by
  induction ts with
  | nil => rw [labelsF]; rfl
  | cons t rest ih =>
    rw [List.cons_append, labelsF_cons, labelsF_cons, ih, List.append_assoc]

theorem assignF_cons (n : Nat) (t : Rose) (ts : List Rose) :
    assignF n (t :: ts) = assignT n t :: assignF (n + t.size) ts := by
  rw [assignF]

theorem assignT_mk (n : Nat) (lab : List Char) (kids : List Rose) :
    assignT n (.mk lab kids) = .mk n lab (assignF (n + 1) kids) := by
  rw [assignT]

theorem shape_assignT : ∀ t : Rose, ∀ n, (assignT n t).shape = t := by
  intro t
  induction t using rose_strong_ind with
  | h lab kids ih =>
    intro n
    rw [assignT_mk, shape_mk]
    have key : ∀ (ks : List Rose), (∀ x ∈ ks, ∀ m, (assignT m x).shape = x) →
        ∀ m, shapeF (assignF m ks) = ks := by
      intro ks
      induction ks with
      | nil => intro _ _; rw [assignF]; rw [shapeF]
      | cons x xs ihk =>
        intro hall m
        rw [assignF_cons, shapeF, hall x (List.mem_cons_self _ _) m,
          ihk (fun y hy => hall y (List.mem_cons_of_mem _ hy)) _]
    rw [key kids ih (n + 1)]

theorem shapeF_assignF (ts : List Rose) (n : Nat) : shapeF (assignF n ts) = ts := by
  induction ts generalizing n with
  | nil => rw [assignF]; rw [shapeF]
  | cons x xs ih => rw [assignF_cons, shapeF, shape_assignT, ih]

theorem assignF_append (ts us : List Rose) (n : Nat) :
    assignF n (ts ++ us) = assignF n ts ++ assignF (n + sizeF ts) us := by
  induction ts generalizing n with
  | nil => rw [assignF]; rw [sizeF]; simp
  | cons x xs ih =>
    rw [List.cons_append, assignF_cons, assignF_cons, ih, sizeF_cons]
    rw [List.cons_append]
    have : n + x.size + sizeF xs = n + (x.size + sizeF xs) := by omega
    rw [this]

/-! Heap realization lemmas. -/

theorem represents_congr {a a2 : Arena} {t : RTree} (h : Represents a t)
    (hsame : ∀ i ∈ treeIds t, getNode a2 i = getNode a i) : Represents a2 t := by
  induction h with
  | mk id label ts h1 h2 h3 ih =>
    have hid : id ∈ treeIds (RTree.mk id label ts) := by
      rw [treeIds_mk]; exact List.mem_cons_self _ _
    refine Represents.mk id label ts ?_ ?_ ?_
    · rw [hsame id hid]; exact h1
    · rw [hsame id hid]; exact h2
    · intro t2 ht2
      refine ih t2 ht2 fun i hi => hsame i ?_
      rw [treeIds_mk]
      exact List.mem_cons_of_mem _ (mem_treeIdsF_of_mem ht2 hi)

theorem represents_extract {a : Arena} {t : RTree} (h : Represents a t) :
    ∀ fuel, t.sizeR ≤ fuel → extractTree a fuel t.id = t.shape := by
  induction h with
  | mk id label ts h1 h2 h3 ih =>
    intro fuel hfuel
    rw [sizeR_mk] at hfuel
    cases fuel with
    | zero => omega
    | succ f =>
      rw [extractTree]
      simp only [RTree.id]
      rw [h1, h2, shape_mk, kidsIds, List.map_map, shapeF_eq_map]
      congr 1
      refine List.map_congr_left fun t2 ht2 => ?_
      have := sizeR_le_sizeRF_of_mem ht2
      exact ih t2 ht2 f (by omega)

theorem flattenF_shapeF (d : Nat) (ts : List RTree) :
    flattenF d (shapeF ts) = ts.flatMap fun t2 => Rose.flatten d t2.shape := by
  induction ts with
  | nil => rw [shapeF]; rw [flattenF]; rfl
  | cons t rest ih => rw [shapeF, flattenF_cons, List.flatMap_cons, ih]

theorem flatMap_congr_mem {α β : Type} {l : List α} {f g : α → List β}
    (h : ∀ x ∈ l, f x = g x) : l.flatMap f = l.flatMap g := by
  induction l with
  | nil => rfl
  | cons x xs ih =>
    rw [List.flatMap_cons, List.flatMap_cons, h x (List.mem_cons_self _ _),
      ih fun y hy => h y (List.mem_cons_of_mem _ hy)]

theorem represents_convert_node {a : Arena} {t : RTree} (h : Represents a t) :
    ∀ fuel, t.sizeR ≤ fuel → ∀ d, TreeToMarkdownConverter.convert_node a fuel t.id d =
      (Rose.flatten d t.shape).map mkLine := by
  induction h with
  | mk id label ts h1 h2 h3 ih =>
    intro fuel hfuel d
    rw [sizeR_mk] at hfuel
    cases fuel with
    | zero => omega
    | succ f =>
      rw [TreeToMarkdownConverter.convert_node]
      simp only [RTree.id]
      rw [h1, h2, shape_mk, flatten_mk, List.map_cons]
      congr 1
      rw [kidsIds, List.flatMap_map, flattenF_shapeF, List.map_flatMap]
      apply flatMap_congr_mem
      intro t2 ht2
      have hsz := sizeR_le_sizeRF_of_mem ht2
      exact ih t2 ht2 f (by omega) (d + 1)

/-! Spine lemmas. -/

theorem closeChain_id (e : OpenNode) (es : List OpenNode) : (closeChain e es).id = e.id := by
  cases es <;> rfl

theorem spineIds_nil : spineIds [] = [] := rfl

theorem spineIds_cons (e : OpenNode) (sp : List OpenNode) :
    spineIds (e :: sp) = entryIds e ++ spineIds sp := by
  rw [spineIds, List.flatMap_cons]
  rfl

theorem spineIds_append (xs ys : List OpenNode) :
    spineIds (xs ++ ys) = spineIds xs ++ spineIds ys := by
  rw [spineIds, spineIds, spineIds, List.flatMap_append]

theorem treeIds_closeChain : ∀ (es : List OpenNode) (e : OpenNode),
    treeIds (closeChain e es) = spineIds (e :: es) := by
  intro es
  induction es with
  | nil =>
    intro e
    simp [closeChain, treeIds_mk, spineIds_cons, spineIds_nil, entryIds]
  | cons f rest ih =>
    intro e
    simp [closeChain, treeIds_mk, treeIdsF_append, treeIdsF_cons, treeIdsF, ih f,
      spineIds_cons, entryIds]

theorem spineLabels_nil : spineLabels [] = [] := rfl

theorem spineLabels_cons (e : OpenNode) (sp : List OpenNode) :
    spineLabels (e :: sp) = (e.label :: treeLabelsF e.kids) ++ spineLabels sp := by
  rw [spineLabels, List.flatMap_cons]
  rfl

theorem spineLabels_append (xs ys : List OpenNode) :
    spineLabels (xs ++ ys) = spineLabels xs ++ spineLabels ys := by
  rw [spineLabels, spineLabels, spineLabels, List.flatMap_append]

theorem treeLabels_closeChain : ∀ (es : List OpenNode) (e : OpenNode),
    treeLabels (closeChain e es) = spineLabels (e :: es) := by
  intro es
  induction es with
  | nil =>
    intro e
    simp [closeChain, treeLabels_mk, spineLabels_cons, spineLabels_nil]
  | cons f rest ih =>
    intro e
    simp [closeChain, treeLabels_mk, treeLabelsF_append, treeLabelsF_cons, treeLabelsF, ih f,
      spineLabels_cons]

theorem spineLinkTo_split (a : Arena) (nx : Option Nat) :
    ∀ (xs : List OpenNode) (y : OpenNode) (ys : List OpenNode),
    SpineLinkTo a nx (xs ++ y :: ys) ↔
      SpineLinkTo a (some y.id) xs ∧ SpineLinkTo a nx (y :: ys) := by
  intro xs
  induction xs with
  | nil =>
    intro y ys
    rw [List.nil_append]
    exact ⟨fun h => ⟨trivial, h⟩, fun h => h.2⟩
  | cons x xs2 ih =>
    intro y ys
    cases xs2 with
    | nil => exact Iff.rfl
    | cons x2 xs3 =>
      exact ⟨fun h => ⟨⟨h.1, ((ih y ys).1 h.2).1⟩, ((ih y ys).1 h.2).2⟩,
        fun h => ⟨h.1.1, (ih y ys).2 ⟨h.1.2, h.2⟩⟩⟩

theorem represents_closeChain {a : Arena} : ∀ (es : List OpenNode) (e : OpenNode),
    SpineLinkTo a none (e :: es) → Represents a (closeChain e es) := by
  intro es
  induction es with
  | nil =>
    intro e h
    obtain ⟨h1, h2, h3⟩ := h
    rw [List.append_nil] at h2
    exact Represents.mk e.id e.label e.kids h1 h2 h3
  | cons f rest ih =>
    intro e h
    obtain ⟨⟨h1, h2, h3⟩, hrest⟩ := h
    rw [closeChain]
    refine Represents.mk e.id e.label (e.kids ++ [closeChain f rest]) h1 ?_ ?_
    · rw [kidsIds_append, h2]
      congr 1
      rw [kidsIds, List.map_cons, List.map_nil, closeChain_id]
    · intro t ht
      rcases List.mem_append.1 ht with ht | ht
      · exact h3 t ht
      · rw [List.mem_singleton] at ht
        rw [ht]
        exact ih f hrest

theorem entryOk_congr {a a2 : Arena} {e : OpenNode} {nx : Option Nat} (h : entryOk a e nx)
    (hsame : ∀ i ∈ entryIds e, getNode a2 i = getNode a i) : entryOk a2 e nx := by
  have hid : e.id ∈ entryIds e := by rw [entryIds]; exact List.mem_cons_self _ _
  refine ⟨by rw [hsame e.id hid]; exact h.1, by rw [hsame e.id hid]; exact h.2.1, ?_⟩
  intro t ht
  refine represents_congr (h.2.2 t ht) fun i hi => hsame i ?_
  rw [entryIds]
  exact List.mem_cons_of_mem _ (mem_treeIdsF_of_mem ht hi)

theorem spineLinkTo_congr {a a2 : Arena} {nx : Option Nat} : ∀ {sp : List OpenNode},
    SpineLinkTo a nx sp → (∀ i ∈ spineIds sp, getNode a2 i = getNode a i) →
    SpineLinkTo a2 nx sp := by
  intro sp
  induction sp with
  | nil => intro h _; trivial
  | cons e rest ih =>
    intro h hsame
    have hsameE : ∀ i ∈ entryIds e, getNode a2 i = getNode a i := by
      intro i hi
      exact hsame i (by rw [spineIds_cons, List.mem_append]; exact Or.inl hi)
    have hsameRest : ∀ i ∈ spineIds rest, getNode a2 i = getNode a i := by
      intro i hi
      exact hsame i (by rw [spineIds_cons, List.mem_append]; exact Or.inr hi)
    cases rest with
    | nil => exact entryOk_congr h hsameE
    | cons f rest2 => exact ⟨entryOk_congr h.1 hsameE, ih h.2 hsameRest⟩

theorem updLast_eq (g : OpenNode → OpenNode) : ∀ (sp : List OpenNode) (h : sp ≠ []),
    updLast g sp = sp.dropLast ++ [g (sp.getLast h)] := by
  intro sp
  induction sp with
  | nil => intro h; cases h rfl
  | cons e rest ih =>
    intro h
    cases rest with
    | nil => rfl
    | cons f rest2 =>
      rw [updLast, ih (by simp), List.dropLast_cons₂, List.cons_append]
      simp [List.getLast_cons]

theorem updLast_map_keyid (g : OpenNode → OpenNode)
    (hg : ∀ e, (g e).key = e.key ∧ (g e).id = e.id) :
    ∀ (sp : List OpenNode), (updLast g sp).map (fun e => (e.key, e.id)) =
      sp.map fun e => (e.key, e.id) := by
  intro sp
  induction sp with
  | nil => rfl
  | cons e rest ih =>
    cases rest with
    | nil =>
      rw [updLast, List.map_cons, List.map_cons, (hg e).1, (hg e).2]
    | cons f rest2 =>
      rw [updLast, List.map_cons, List.map_cons, ih]

/-! Sorted-stack lemmas: on a strictly ascending stack the filter of
`_find_parent` is a prefix-take and the fold picks the last survivor. -/

theorem filter_eq_takeWhile_pw {l : Int} : ∀ {s : List (Int × Nat)},
    List.Pairwise (fun p q : Int × Nat => p.1 < q.1) s →
    (s.filter fun q => q.1 < l) = s.takeWhile fun q => q.1 < l := by
  intro s
  induction s with
  | nil => intro _; rfl
  | cons q rest ih =>
    intro hp
    rw [List.pairwise_cons] at hp
    by_cases hq : q.1 < l
    · rw [List.filter_cons_of_pos (by simpa using hq),
        List.takeWhile_cons_of_pos (by simpa using hq), ih hp.2]
    · rw [List.filter_cons_of_neg (by simpa using hq),
        List.takeWhile_cons_of_neg (by simpa using hq)]
      rw [List.filter_eq_nil_iff]
      intro x hx hxl
      exact hq (lt_trans (hp.1 x hx) (by simpa using hxl))

theorem foldl_pick_of_sorted : ∀ (rest : List (Int × Nat)) (p : Int × Nat),
    (∀ x ∈ rest, p.1 < x.1) → List.Pairwise (fun a b : Int × Nat => a.1 < b.1) rest →
    rest.foldl (fun b q => if b.1 < q.1 then q else b) p =
      (p :: rest).getLast (List.cons_ne_nil _ _) := by
  intro rest
  induction rest with
  | nil => intro p _ _; rfl
  | cons x xs ih =>
    intro p hgt hp
    rw [List.pairwise_cons] at hp
    rw [List.foldl_cons, if_pos (hgt x (List.mem_cons_self _ _)), ih x hp.1 hp.2,
      List.getLast_cons (List.cons_ne_nil _ _)]

theorem find_parent_eq_getLast {l : Int} {s : List (Int × Nat)}
    (hpw : List.Pairwise (fun p q : Int × Nat => p.1 < q.1) s) :
    MarkdownParser.find_parent l s =
      ((s.takeWhile fun q => q.1 < l).getLast?).map Prod.snd := by
  unfold MarkdownParser.find_parent
  rw [filter_eq_takeWhile_pw hpw]
  cases htw : s.takeWhile fun q => q.1 < l with
  | nil => rfl
  | cons p rest =>
    have hsub : List.Pairwise (fun a b : Int × Nat => a.1 < b.1) (p :: rest) := by
      rw [← htw]
      exact List.Pairwise.sublist (List.takeWhile_sublist _) hpw
    rw [List.pairwise_cons] at hsub
    simp only []
    rw [foldl_pick_of_sorted rest p hsub.1 hsub.2,
      List.getLast?_eq_getLast (p :: rest) (List.cons_ne_nil _ _)]
    rfl

theorem takeWhile_pair (l : Int) : ∀ (tail : List OpenNode),
    ((tail.map fun e => (e.key, e.id)).takeWhile fun q => q.1 < l) =
      (tail.takeWhile fun e => e.key < l).map fun e => (e.key, e.id) := by
  intro tail
  induction tail with
  | nil => rfl
  | cons e rest ih =>
    by_cases h : e.key < l
    · rw [List.map_cons, List.takeWhile_cons_of_pos (by simpa using h),
        List.takeWhile_cons_of_pos (by simpa using h), List.map_cons, ih]
    · rw [List.map_cons, List.takeWhile_cons_of_neg (by simpa using h),
        List.takeWhile_cons_of_neg (by simpa using h)]
      rfl

theorem filter_pair (l : Int) : ∀ (tail : List OpenNode),
    ((tail.map fun e => (e.key, e.id)).filter fun q => q.1 < l) =
      (tail.filter fun e => e.key < l).map fun e => (e.key, e.id) := by
  intro tail
  induction tail with
  | nil => rfl
  | cons e rest ih =>
    by_cases h : e.key < l
    · rw [List.map_cons, List.filter_cons_of_pos (by simpa using h),
        List.filter_cons_of_pos (by simpa using h), List.map_cons, ih]
    · rw [List.map_cons, List.filter_cons_of_neg (by simpa using h),
        List.filter_cons_of_neg (by simpa using h), ih]

/-- On a sorted stack of the shape the loops maintain, the attach target
(found parent or running root) is exactly the deepest spine entry that the
item's level keeps open. -/
theorem find_parent_stackOf (l : Int) (b : Bool) (bottom : OpenNode) (tail : List OpenNode)
    (hpw : List.Pairwise (fun p q : Int × Nat => p.1 < q.1) (stackOf b bottom tail)) :
    (MarkdownParser.find_parent l (stackOf b bottom tail)).getD bottom.id =
      ((bottom :: tail.takeWhile fun e => e.key < l).getLast (List.cons_ne_nil _ _)).id := by
  rw [find_parent_eq_getLast hpw]
  cases b with
  | true =>
    have hsof : stackOf true bottom tail =
        (bottom.key, bottom.id) :: tail.map fun e => (e.key, e.id) := rfl
    rw [hsof] at hpw ⊢
    by_cases hbl : bottom.key < l
    · rw [List.takeWhile_cons_of_pos (by simpa using hbl), takeWhile_pair]
      cases hk : tail.takeWhile fun e => e.key < l with
      | nil => rfl
      | cons k ks =>
        rw [List.map_cons, List.getLast?_cons_cons]
        have hgl := List.getLast?_map (fun e : OpenNode => (e.key, e.id)) (k :: ks)
        rw [List.map_cons] at hgl
        rw [hgl, List.getLast?_eq_getLast (k :: ks) (List.cons_ne_nil _ _),
          List.getLast_cons (List.cons_ne_nil _ _)]
        rfl
    · rw [List.takeWhile_cons_of_neg (by simpa using hbl)]
      have hkeep : (tail.takeWhile fun e => e.key < l) = [] := by
        cases tail with
        | nil => rfl
        | cons k ks =>
          rw [List.pairwise_cons] at hpw
          have hbk : bottom.key < k.key := by
            simpa using hpw.1 (k.key, k.id) (by rw [List.map_cons]; exact List.mem_cons_self _ _)
          rw [List.takeWhile_cons_of_neg]
          simp only [decide_eq_true_eq]
          intro hkl
          exact hbl (lt_trans hbk hkl)
      rw [hkeep]
      rfl
  | false =>
    have hsof : stackOf false bottom tail = tail.map fun e => (e.key, e.id) := rfl
    rw [hsof] at hpw ⊢
    rw [takeWhile_pair]
    cases hk : tail.takeWhile fun e => e.key < l with
    | nil => rfl
    | cons k ks =>
      rw [List.map_cons]
      have hgl := List.getLast?_map (fun e : OpenNode => (e.key, e.id)) (k :: ks)
      rw [List.map_cons] at hgl
      rw [hgl, List.getLast?_eq_getLast (k :: ks) (List.cons_ne_nil _ _),
        List.getLast_cons (List.cons_ne_nil _ _)]
      rfl

theorem spineIds_single (e : OpenNode) : spineIds [e] = entryIds e := by
  simp [spineIds]

theorem spineLabels_single (e : OpenNode) :
    spineLabels [e] = e.label :: treeLabelsF e.kids := by
  simp [spineLabels]

/-! Descriptions of one assembly-loop step. -/

theorem buildStep_arena_eq (root : Nat) (st : MarkdownParser.BuildState)
    (item : Int × List Char × Nat) :
    (MarkdownParser.buildStep root st item).arena =
      Node.add_child (st.arena ++ [⟨item.2.1, none, []⟩])
        ((MarkdownParser.find_parent item.1 st.stack).getD root) st.arena.length := by
  obtain ⟨l, t, n⟩ := item
  unfold MarkdownParser.buildStep
  simp only [newNode]
  cases hfp : MarkdownParser.find_parent l st.stack <;> simp [hfp]

theorem buildStep_stack_eq (root : Nat) (st : MarkdownParser.BuildState)
    (item : Int × List Char × Nat) :
    (MarkdownParser.buildStep root st item).stack =
      (st.stack.filter fun q => q.1 < item.1) ++ [(item.1, st.arena.length)] := by
  obtain ⟨l, t, n⟩ := item
  unfold MarkdownParser.buildStep
  simp only [newNode]

theorem spineLinkTo_attach {a a2 : Arena} {pre : List OpenNode}
    {lastId : Nat} {last2 new : OpenNode}
    (hpre : SpineLinkTo a (some lastId) pre)
    (hsame : ∀ i ∈ spineIds pre, getNode a2 i = getNode a i)
    (hid : last2.id = lastId)
    (hlast : entryOk a2 last2 (some new.id))
    (hnew : entryOk a2 new none) :
    SpineLinkTo a2 none (pre ++ [last2] ++ [new]) := by
  rw [List.append_assoc, List.singleton_append, spineLinkTo_split]
  refine ⟨?_, hlast, hnew⟩
  rw [hid]
  exact spineLinkTo_congr hpre hsame

theorem stackOf_append_entry (b : Bool) (bottom e : OpenNode) (t : List OpenNode) :
    stackOf b bottom (t ++ [e]) = stackOf b bottom t ++ [(e.key, e.id)] := by
  cases b <;> simp [stackOf]

theorem filter_stackOf (l : Int) (b : Bool) (bottom : OpenNode) (tail : List OpenNode)
    (hpw : List.Pairwise (fun p q : Int × Nat => p.1 < q.1) (stackOf b bottom tail)) :
    (stackOf b bottom tail).filter (fun q => q.1 < l) =
      stackOf (b && decide (bottom.key < l)) bottom (tail.takeWhile fun e => e.key < l) := by
  cases b with
  | true =>
    have hsof : stackOf true bottom tail =
        (bottom.key, bottom.id) :: tail.map fun e => (e.key, e.id) := rfl
    rw [hsof] at hpw
    have hpwt := (List.pairwise_cons.1 hpw).2
    have hfilt : ((tail.map fun e => (e.key, e.id)).filter fun q => q.1 < l) =
        (tail.takeWhile fun e => e.key < l).map fun e => (e.key, e.id) := by
      rw [filter_eq_takeWhile_pw hpwt, takeWhile_pair]
    by_cases hbl : bottom.key < l
    · rw [hsof, List.filter_cons_of_pos (by simpa using hbl), hfilt]
      have hb2 : (true && decide (bottom.key < l)) = true := by simp [hbl]
      rw [hb2]
      rfl
    · rw [hsof, List.filter_cons_of_neg (by simpa using hbl), hfilt]
      have hb2 : (true && decide (bottom.key < l)) = false := by simp [hbl]
      rw [hb2]
      rfl
  | false =>
    have hsof : stackOf false bottom tail = tail.map fun e => (e.key, e.id) := rfl
    rw [hsof] at hpw
    rw [hsof, filter_eq_takeWhile_pw hpw, takeWhile_pair]
    have hb2 : (false && decide (bottom.key < l)) = false := by simp
    rw [hb2]
    rfl

theorem chain_stack_new (l : Int) (n : Nat) (s : List (Int × Nat))
    (hchain : List.Chain' (· < ·) (s.map Prod.fst)) :
    List.Chain' (· < ·) (((s.filter fun q => q.1 < l) ++ [(l, n)]).map Prod.fst) := by
  rw [List.chain'_iff_pairwise] at *
  rw [List.map_append, List.pairwise_append]
  refine ⟨?_, by simp, ?_⟩
  · exact List.Pairwise.sublist (List.Sublist.map _ (List.filter_sublist s)) hchain
  · intro x hx y hy
    rw [List.mem_map] at hx
    obtain ⟨q, hq, hqx⟩ := hx
    rw [List.mem_filter] at hq
    have hyl : y = l := by simpa using hy
    rw [hyl, ← hqx]
    simpa using hq.2

/-- One step of the simulation: each assembly-loop iteration (allocate,
record, attach, restack) is mirrored by one pure spine step. -/
theorem rel_step (root : Nat) (st : MarkdownParser.BuildState) (ps : PState)
    (item : Int × List Char × Nat) (hrel : Rel root st ps) :
    Rel root (MarkdownParser.buildStep root st item) (pureStep ps (proj item)) := by
  obtain ⟨bottom, tail, b, hspine, hbid, hlink, hnext, hnodup, hbound, hstack, hchain⟩ := hrel
  have hpw : List.Pairwise (fun p q : Int × Nat => p.1 < q.1) st.stack :=
    List.pairwise_map.1 (List.chain'_iff_pairwise.1 hchain)
  have hpw2 : List.Pairwise (fun p q : Int × Nat => p.1 < q.1) (stackOf b bottom tail) := by
    rw [← hstack]; exact hpw
  have htkd : (tail.takeWhile fun e => e.key < item.1) ++
      (tail.dropWhile fun e => e.key < item.1) = tail :=
    List.takeWhile_append_dropWhile _ _
  have hkne : (bottom :: tail.takeWhile fun e => e.key < item.1) ≠ [] := List.cons_ne_nil _ _
  have hd := List.dropLast_append_getLast hkne
  have htar : (MarkdownParser.find_parent item.1 st.stack).getD root =
      ((bottom :: tail.takeWhile fun e => e.key < item.1).getLast hkne).id := by
    rw [hstack, ← hbid]
    exact find_parent_stackOf item.1 b bottom tail hpw2
  cases hdp : tail.dropWhile fun e => e.key < item.1 with
  | nil =>
    have hkt : (tail.takeWhile fun e => e.key < item.1) = tail := by
      conv_rhs => rw [← htkd, hdp]
      rw [List.append_nil]
    have hps2 : pureStep ps (proj item) =
        ⟨(bottom :: tail.takeWhile fun e => e.key < item.1) ++
          [⟨item.1, ps.next, item.2.1, []⟩], ps.next + 1⟩ := by
      simp only [pureStep, hspine, proj, hdp, List.cons_append]
    have hspl : ps.spine = bottom :: tail.takeWhile fun e => e.key < item.1 := by
      rw [hspine, hkt]
    have hlink2 : SpineLinkTo st.arena none
        ((bottom :: tail.takeWhile fun e => e.key < item.1).dropLast ++
          [(bottom :: tail.takeWhile fun e => e.key < item.1).getLast hkne]) := by
      rw [hd, ← hspl]; exact hlink
    rw [spineLinkTo_split] at hlink2
    obtain ⟨hpreLink, hlastOkS⟩ := hlink2
    have hlastOk : entryOk st.arena
        ((bottom :: tail.takeWhile fun e => e.key < item.1).getLast hkne) none := hlastOkS
    have hidsEq : spineIds ps.spine =
        spineIds (bottom :: tail.takeWhile fun e => e.key < item.1).dropLast ++
          entryIds ((bottom :: tail.takeWhile fun e => e.key < item.1).getLast hkne) := by
      conv_lhs => rw [hspl, ← hd]
      rw [spineIds_append, spineIds_single]
    have hlastIdMem : ((bottom :: tail.takeWhile fun e => e.key < item.1).getLast hkne).id ∈
        spineIds ps.spine := by
      rw [hidsEq]
      exact List.mem_append_right _ (by rw [entryIds]; exact List.mem_cons_self _ _)
    have hlastLt : ((bottom :: tail.takeWhile fun e => e.key < item.1).getLast hkne).id <
        st.arena.length := hbound _ hlastIdMem
    have hch : (getNode st.arena
        ((bottom :: tail.takeWhile fun e => e.key < item.1).getLast hkne).id).children =
        kidsIds ((bottom :: tail.takeWhile fun e => e.key < item.1).getLast hkne).kids := by
      rw [hlastOk.2.1]; simp
    have hchildSub : ∀ x ∈ (getNode st.arena
        ((bottom :: tail.takeWhile fun e => e.key < item.1).getLast hkne).id).children,
        x ∈ entryIds ((bottom :: tail.takeWhile fun e => e.key < item.1).getLast hkne) := by
      intro x hx
      rw [hch] at hx
      rw [entryIds]
      exact List.mem_cons_of_mem _ (kidsIds_sub_treeIdsF _ _ hx)
    have hchildLt : ∀ x ∈ (getNode st.arena
        ((bottom :: tail.takeWhile fun e => e.key < item.1).getLast hkne).id).children,
        x < st.arena.length := fun x hx =>
      hbound x (by rw [hidsEq]; exact List.mem_append_right _ (hchildSub x hx))
    have harena : (MarkdownParser.buildStep root st item).arena =
        setNode st.arena ((bottom :: tail.takeWhile fun e => e.key < item.1).getLast hkne).id
          { getNode st.arena
              ((bottom :: tail.takeWhile fun e => e.key < item.1).getLast hkne).id with
            children := (getNode st.arena
              ((bottom :: tail.takeWhile fun e => e.key < item.1).getLast hkne).id).children ++
              [st.arena.length] } ++
          [⟨item.2.1, some ((bottom :: tail.takeWhile fun e => e.key < item.1).getLast hkne).id,
            []⟩] := by
      rw [buildStep_arena_eq, htar]
      exact add_child_fresh st.arena _ ⟨item.2.1, none, []⟩ hlastLt hchildLt rfl
    have hlen2 : (MarkdownParser.buildStep root st item).arena.length = st.arena.length + 1 := by
      rw [harena]
      simp [length_setNode]
    have hreadT : getNode (MarkdownParser.buildStep root st item).arena
        ((bottom :: tail.takeWhile fun e => e.key < item.1).getLast hkne).id =
        { getNode st.arena
            ((bottom :: tail.takeWhile fun e => e.key < item.1).getLast hkne).id with
          children := (getNode st.arena
            ((bottom :: tail.takeWhile fun e => e.key < item.1).getLast hkne).id).children ++
            [st.arena.length] } := by
      rw [harena, getNode_append_lt _ _ _ (by rw [length_setNode]; exact hlastLt),
        getNode_setNode_self _ _ _ hlastLt]
    have hreadNew : getNode (MarkdownParser.buildStep root st item).arena st.arena.length =
        ⟨item.2.1, some ((bottom :: tail.takeWhile fun e => e.key < item.1).getLast hkne).id,
          []⟩ := by
      rw [harena]
      exact getNode_append_len _ _ _ (by rw [length_setNode])
    have hreadNe : ∀ i, i < st.arena.length →
        i ≠ ((bottom :: tail.takeWhile fun e => e.key < item.1).getLast hkne).id →
        getNode (MarkdownParser.buildStep root st item).arena i = getNode st.arena i := by
      intro i hi hne
      rw [harena, getNode_append_lt _ _ _ (by rw [length_setNode]; exact hi),
        getNode_setNode_ne _ _ (Ne.symm hne)]
    have hnodup2 := hnodup
    rw [hidsEq, List.nodup_append] at hnodup2
    have hpreNe : ∀ i ∈ spineIds (bottom :: tail.takeWhile fun e => e.key < item.1).dropLast,
        i ≠ ((bottom :: tail.takeWhile fun e => e.key < item.1).getLast hkne).id := by
      intro i hi heq
      exact hnodup2.2.2 hi (by rw [heq, entryIds]; exact List.mem_cons_self _ _)
    have hpreSame : ∀ i ∈ spineIds (bottom :: tail.takeWhile fun e => e.key < item.1).dropLast,
        getNode (MarkdownParser.buildStep root st item).arena i = getNode st.arena i := by
      intro i hi
      exact hreadNe i (hbound i (by rw [hidsEq]; exact List.mem_append_left _ hi)) (hpreNe i hi)
    have hkidNe : ∀ x ∈ treeIdsF ((bottom :: tail.takeWhile fun e => e.key < item.1).getLast
        hkne).kids, x ≠ ((bottom :: tail.takeWhile fun e => e.key < item.1).getLast hkne).id := by
      intro x hx heq
      have hln := hnodup2.2.1
      rw [entryIds, List.nodup_cons] at hln
      exact hln.1 (heq ▸ hx)
    have hlastOk2 : entryOk (MarkdownParser.buildStep root st item).arena
        ((bottom :: tail.takeWhile fun e => e.key < item.1).getLast hkne)
        (some (⟨item.1, ps.next, item.2.1, []⟩ : OpenNode).id) := by
      refine ⟨?_, ?_, ?_⟩
      · rw [hreadT]
        exact hlastOk.1
      · rw [hreadT]
        show (getNode st.arena
            ((bottom :: tail.takeWhile fun e => e.key < item.1).getLast hkne).id).children ++
            [st.arena.length] =
          kidsIds ((bottom :: tail.takeWhile fun e => e.key < item.1).getLast hkne).kids ++
            [ps.next]
        rw [hch, hnext]
      · intro t ht
        refine represents_congr (hlastOk.2.2 t ht) fun i hi => ?_
        have himem : i ∈ treeIdsF
            ((bottom :: tail.takeWhile fun e => e.key < item.1).getLast hkne).kids :=
          mem_treeIdsF_of_mem ht hi
        refine hreadNe i (hbound i ?_) (hkidNe i himem)
        rw [hidsEq]
        exact List.mem_append_right _ (by rw [entryIds]; exact List.mem_cons_of_mem _ himem)
    have hnewOk : entryOk (MarkdownParser.buildStep root st item).arena
        (⟨item.1, ps.next, item.2.1, []⟩ : OpenNode) none := by
      refine ⟨?_, ?_, ?_⟩
      · show (getNode (MarkdownParser.buildStep root st item).arena ps.next).text = item.2.1
        rw [hnext, hreadNew]
      · show (getNode (MarkdownParser.buildStep root st item).arena ps.next).children =
          kidsIds [] ++ []
        rw [hnext, hreadNew]
        rfl
      · intro t ht
        cases ht
    have hlink3 := spineLinkTo_attach hpreLink hpreSame rfl hlastOk2 hnewOk
    rw [hd] at hlink3
    have hidsNew : spineIds ((bottom :: tail.takeWhile fun e => e.key < item.1) ++
        [⟨item.1, ps.next, item.2.1, []⟩]) = spineIds ps.spine ++ [ps.next] := by
      rw [spineIds_append, spineIds_single, ← hspl]
      rfl
    refine ⟨bottom, (tail.takeWhile fun e => e.key < item.1) ++
      [⟨item.1, ps.next, item.2.1, []⟩], b && decide (bottom.key < item.1), ?_, hbid, ?_, ?_,
      ?_, ?_, ?_, ?_⟩
    · rw [hps2, List.cons_append]
    · rw [hps2]
      exact hlink3
    · rw [hps2, hlen2, hnext]
    · rw [hps2]
      show (spineIds ((bottom :: tail.takeWhile fun e => e.key < item.1) ++
        [⟨item.1, ps.next, item.2.1, []⟩])).Nodup
      rw [hidsNew, List.nodup_append]
      refine ⟨hnodup, by simp, ?_⟩
      intro x hx hx2
      have hlt := hbound x hx
      have hxeq : x = ps.next := by simpa using hx2
      rw [hxeq, hnext] at hlt
      exact absurd hlt (lt_irrefl _)
    · rw [hps2]
      show ∀ i ∈ spineIds ((bottom :: tail.takeWhile fun e => e.key < item.1) ++
        [⟨item.1, ps.next, item.2.1, []⟩]), i < (MarkdownParser.buildStep root st item).arena.length
      rw [hidsNew, hlen2]
      intro i hi
      rcases List.mem_append.1 hi with hi | hi
      · exact Nat.lt_succ_of_lt (hbound i hi)
      · have : i = ps.next := by simpa using hi
        rw [this, hnext]
        exact Nat.lt_succ_self _
    · rw [buildStep_stack_eq, hstack, filter_stackOf item.1 b bottom tail hpw2,
        stackOf_append_entry, ← hnext]
    · rw [buildStep_stack_eq]
      exact chain_stack_new item.1 st.arena.length st.stack hchain
  | cons d ds =>
    have hps2 : pureStep ps (proj item) =
        ⟨updLast (fun e => { e with kids := e.kids ++ [closeChain d ds] })
            (bottom :: tail.takeWhile fun e => e.key < item.1) ++
          [⟨item.1, ps.next, item.2.1, []⟩], ps.next + 1⟩ := by
      simp only [pureStep, hspine, proj, hdp, List.cons_append]
    have hsp2 : ps.spine = (bottom :: tail.takeWhile fun e => e.key < item.1) ++ d :: ds := by
      rw [hspine, List.cons_append, ← hdp, htkd]
    have hlinkA : SpineLinkTo st.arena none
        ((bottom :: tail.takeWhile fun e => e.key < item.1) ++ d :: ds) := by
      rw [← hsp2]; exact hlink
    rw [spineLinkTo_split] at hlinkA
    obtain ⟨hkeepLink, hdsLink⟩ := hlinkA
    have hkeepLink2 : SpineLinkTo st.arena (some d.id)
        ((bottom :: tail.takeWhile fun e => e.key < item.1).dropLast ++
          [(bottom :: tail.takeWhile fun e => e.key < item.1).getLast hkne]) := by
      rw [hd]; exact hkeepLink
    rw [spineLinkTo_split] at hkeepLink2
    obtain ⟨hpreLink, hlastOkS⟩ := hkeepLink2
    have hlastOk : entryOk st.arena
        ((bottom :: tail.takeWhile fun e => e.key < item.1).getLast hkne) (some d.id) := hlastOkS
    have hidsEq : spineIds ps.spine =
        (spineIds (bottom :: tail.takeWhile fun e => e.key < item.1).dropLast ++
          entryIds ((bottom :: tail.takeWhile fun e => e.key < item.1).getLast hkne)) ++
          spineIds (d :: ds) := by
      conv_lhs => rw [hsp2, ← hd]
      rw [spineIds_append, spineIds_append, spineIds_single]
    have hlastIdMem : ((bottom :: tail.takeWhile fun e => e.key < item.1).getLast hkne).id ∈
        spineIds ps.spine := by
      rw [hidsEq]
      exact List.mem_append_left _ (List.mem_append_right _
        (by rw [entryIds]; exact List.mem_cons_self _ _))
    have hlastLt : ((bottom :: tail.takeWhile fun e => e.key < item.1).getLast hkne).id <
        st.arena.length := hbound _ hlastIdMem
    have hch : (getNode st.arena
        ((bottom :: tail.takeWhile fun e => e.key < item.1).getLast hkne).id).children =
        kidsIds ((bottom :: tail.takeWhile fun e => e.key < item.1).getLast hkne).kids ++
          [d.id] := hlastOk.2.1
    have hdIdMem : d.id ∈ spineIds ps.spine := by
      rw [hidsEq]
      refine List.mem_append_right _ ?_
      rw [spineIds_cons]
      exact List.mem_append_left _ (by rw [entryIds]; exact List.mem_cons_self _ _)
    have hchildLt : ∀ x ∈ (getNode st.arena
        ((bottom :: tail.takeWhile fun e => e.key < item.1).getLast hkne).id).children,
        x < st.arena.length := by
      intro x hx
      rw [hch] at hx
      rcases List.mem_append.1 hx with hx | hx
      · refine hbound x ?_
        rw [hidsEq]
        exact List.mem_append_left _ (List.mem_append_right _
          (by rw [entryIds]; exact List.mem_cons_of_mem _ (kidsIds_sub_treeIdsF _ _ hx)))
      · have hxd : x = d.id := by simpa using hx
        rw [hxd]
        exact hbound _ hdIdMem
    have harena : (MarkdownParser.buildStep root st item).arena =
        setNode st.arena ((bottom :: tail.takeWhile fun e => e.key < item.1).getLast hkne).id
          { getNode st.arena
              ((bottom :: tail.takeWhile fun e => e.key < item.1).getLast hkne).id with
            children := (getNode st.arena
              ((bottom :: tail.takeWhile fun e => e.key < item.1).getLast hkne).id).children ++
              [st.arena.length] } ++
          [⟨item.2.1, some ((bottom :: tail.takeWhile fun e => e.key < item.1).getLast hkne).id,
            []⟩] := by
      rw [buildStep_arena_eq, htar]
      exact add_child_fresh st.arena _ ⟨item.2.1, none, []⟩ hlastLt hchildLt rfl
    have hlen2 : (MarkdownParser.buildStep root st item).arena.length = st.arena.length + 1 := by
      rw [harena]
      simp [length_setNode]
    have hreadT : getNode (MarkdownParser.buildStep root st item).arena
        ((bottom :: tail.takeWhile fun e => e.key < item.1).getLast hkne).id =
        { getNode st.arena
            ((bottom :: tail.takeWhile fun e => e.key < item.1).getLast hkne).id with
          children := (getNode st.arena
            ((bottom :: tail.takeWhile fun e => e.key < item.1).getLast hkne).id).children ++
            [st.arena.length] } := by
      rw [harena, getNode_append_lt _ _ _ (by rw [length_setNode]; exact hlastLt),
        getNode_setNode_self _ _ _ hlastLt]
    have hreadNew : getNode (MarkdownParser.buildStep root st item).arena st.arena.length =
        ⟨item.2.1, some ((bottom :: tail.takeWhile fun e => e.key < item.1).getLast hkne).id,
          []⟩ := by
      rw [harena]
      exact getNode_append_len _ _ _ (by rw [length_setNode])
    have hreadNe : ∀ i, i < st.arena.length →
        i ≠ ((bottom :: tail.takeWhile fun e => e.key < item.1).getLast hkne).id →
        getNode (MarkdownParser.buildStep root st item).arena i = getNode st.arena i := by
      intro i hi hne
      rw [harena, getNode_append_lt _ _ _ (by rw [length_setNode]; exact hi),
        getNode_setNode_ne _ _ (Ne.symm hne)]
    have hnodup2 := hnodup
    rw [hidsEq, List.nodup_append] at hnodup2
    have hnodupAB := hnodup2.1
    rw [List.nodup_append] at hnodupAB
    have hpreNe : ∀ i ∈ spineIds (bottom :: tail.takeWhile fun e => e.key < item.1).dropLast,
        i ≠ ((bottom :: tail.takeWhile fun e => e.key < item.1).getLast hkne).id := by
      intro i hi heq
      exact hnodupAB.2.2 hi (by rw [heq, entryIds]; exact List.mem_cons_self _ _)
    have hpreSame : ∀ i ∈ spineIds (bottom :: tail.takeWhile fun e => e.key < item.1).dropLast,
        getNode (MarkdownParser.buildStep root st item).arena i = getNode st.arena i := by
      intro i hi
      refine hreadNe i (hbound i ?_) (hpreNe i hi)
      rw [hidsEq]
      exact List.mem_append_left _ (List.mem_append_left _ hi)
    have hkidNe : ∀ x ∈ treeIdsF ((bottom :: tail.takeWhile fun e => e.key < item.1).getLast
        hkne).kids, x ≠ ((bottom :: tail.takeWhile fun e => e.key < item.1).getLast hkne).id := by
      intro x hx heq
      have hln := hnodupAB.2.1
      rw [entryIds, List.nodup_cons] at hln
      exact hln.1 (heq ▸ hx)
    have hdsNe : ∀ i ∈ spineIds (d :: ds),
        i ≠ ((bottom :: tail.takeWhile fun e => e.key < item.1).getLast hkne).id := by
      intro i hi heq
      exact hnodup2.2.2 (by
        rw [heq]
        exact List.mem_append_right _ (by rw [entryIds]; exact List.mem_cons_self _ _)) hi
    have hdsSame : ∀ i ∈ spineIds (d :: ds),
        getNode (MarkdownParser.buildStep root st item).arena i = getNode st.arena i := by
      intro i hi
      refine hreadNe i (hbound i ?_) (hdsNe i hi)
      rw [hidsEq]
      exact List.mem_append_right _ hi
    have hrepClose : Represents (MarkdownParser.buildStep root st item).arena
        (closeChain d ds) := by
      refine represents_congr (represents_closeChain ds d hdsLink) fun i hi => ?_
      have hi2 : i ∈ spineIds (d :: ds) := by rw [← treeIds_closeChain]; exact hi
      exact hdsSame i hi2
    have hlastOk2 : entryOk (MarkdownParser.buildStep root st item).arena
        ((fun e => { e with kids := e.kids ++ [closeChain d ds] })
          ((bottom :: tail.takeWhile fun e => e.key < item.1).getLast hkne))
        (some (⟨item.1, ps.next, item.2.1, []⟩ : OpenNode).id) := by
      refine ⟨?_, ?_, ?_⟩
      · show (getNode (MarkdownParser.buildStep root st item).arena
            ((bottom :: tail.takeWhile fun e => e.key < item.1).getLast hkne).id).text =
          ((bottom :: tail.takeWhile fun e => e.key < item.1).getLast hkne).label
        rw [hreadT]
        exact hlastOk.1
      · show (getNode (MarkdownParser.buildStep root st item).arena
            ((bottom :: tail.takeWhile fun e => e.key < item.1).getLast hkne).id).children =
          kidsIds (((bottom :: tail.takeWhile fun e => e.key < item.1).getLast hkne).kids ++
            [closeChain d ds]) ++ [ps.next]
        rw [hreadT]
        show (getNode st.arena
            ((bottom :: tail.takeWhile fun e => e.key < item.1).getLast hkne).id).children ++
            [st.arena.length] =
          kidsIds (((bottom :: tail.takeWhile fun e => e.key < item.1).getLast hkne).kids ++
            [closeChain d ds]) ++ [ps.next]
        rw [hch, hnext, kidsIds_append]
        have hk1 : kidsIds [closeChain d ds] = [d.id] := by
          rw [kidsIds, List.map_cons, List.map_nil, closeChain_id]
        rw [hk1]
      · intro t ht
        have ht2 : t ∈ ((bottom :: tail.takeWhile fun e => e.key < item.1).getLast hkne).kids ++
            [closeChain d ds] := ht
        rcases List.mem_append.1 ht2 with ht3 | ht3
        · refine represents_congr (hlastOk.2.2 t ht3) fun i hi => ?_
          have himem := mem_treeIdsF_of_mem ht3 hi
          refine hreadNe i (hbound i ?_) (hkidNe i himem)
          rw [hidsEq]
          exact List.mem_append_left _ (List.mem_append_right _
            (by rw [entryIds]; exact List.mem_cons_of_mem _ himem))
        · have ht4 : t = closeChain d ds := by simpa using ht3
          rw [ht4]
          exact hrepClose
    have hnewOk : entryOk (MarkdownParser.buildStep root st item).arena
        (⟨item.1, ps.next, item.2.1, []⟩ : OpenNode) none := by
      refine ⟨?_, ?_, ?_⟩
      · show (getNode (MarkdownParser.buildStep root st item).arena ps.next).text = item.2.1
        rw [hnext, hreadNew]
      · show (getNode (MarkdownParser.buildStep root st item).arena ps.next).children =
          kidsIds [] ++ []
        rw [hnext, hreadNew]
        rfl
      · intro t ht
        cases ht
    have hupd : updLast (fun e => { e with kids := e.kids ++ [closeChain d ds] })
        (bottom :: tail.takeWhile fun e => e.key < item.1) =
        (bottom :: tail.takeWhile fun e => e.key < item.1).dropLast ++
          [(fun e => { e with kids := e.kids ++ [closeChain d ds] })
            ((bottom :: tail.takeWhile fun e => e.key < item.1).getLast hkne)] :=
      updLast_eq _ _ hkne
    have hlink3 := spineLinkTo_attach hpreLink hpreSame
      (show ((fun e : OpenNode => { e with kids := e.kids ++ [closeChain d ds] })
          ((bottom :: tail.takeWhile fun e => e.key < item.1).getLast hkne)).id =
        ((bottom :: tail.takeWhile fun e => e.key < item.1).getLast hkne).id from rfl)
      hlastOk2 hnewOk
    have hentryG : entryIds ((fun e => { e with kids := e.kids ++ [closeChain d ds] })
        ((bottom :: tail.takeWhile fun e => e.key < item.1).getLast hkne)) =
        entryIds ((bottom :: tail.takeWhile fun e => e.key < item.1).getLast hkne) ++
          spineIds (d :: ds) := by
      rw [entryIds, entryIds]
      show ((bottom :: tail.takeWhile fun e => e.key < item.1).getLast hkne).id ::
          treeIdsF (((bottom :: tail.takeWhile fun e => e.key < item.1).getLast hkne).kids ++
            [closeChain d ds]) = _
      rw [treeIdsF_append, treeIdsF_cons, treeIds_closeChain]
      simp [treeIdsF]
    have hidsNew : spineIds (updLast (fun e => { e with kids := e.kids ++ [closeChain d ds] })
        (bottom :: tail.takeWhile fun e => e.key < item.1) ++
        [⟨item.1, ps.next, item.2.1, []⟩]) = spineIds ps.spine ++ [ps.next] := by
      rw [hupd, spineIds_append, spineIds_append, spineIds_single, spineIds_single, hentryG,
        hidsEq]
      have hen : entryIds (⟨item.1, ps.next, item.2.1, []⟩ : OpenNode) = [ps.next] := rfl
      rw [hen]
      simp [List.append_assoc]
    have hmapU : (updLast (fun e => { e with kids := e.kids ++ [closeChain d ds] })
        (bottom :: tail.takeWhile fun e => e.key < item.1)).map (fun e => (e.key, e.id)) =
        (bottom :: tail.takeWhile fun e => e.key < item.1).map fun e => (e.key, e.id) :=
      updLast_map_keyid (fun e => { e with kids := e.kids ++ [closeChain d ds] })
        (fun e => ⟨rfl, rfl⟩) _
    obtain ⟨bottom2, tail2, hu⟩ : ∃ bottom2 tail2,
        updLast (fun e => { e with kids := e.kids ++ [closeChain d ds] })
          (bottom :: tail.takeWhile fun e => e.key < item.1) = bottom2 :: tail2 := by
      cases hk2 : tail.takeWhile fun e => e.key < item.1 with
      | nil => exact ⟨_, _, rfl⟩
      | cons k ks => exact ⟨_, _, rfl⟩
    rw [hu, List.map_cons, List.map_cons] at hmapU
    injection hmapU with hhead htail2
    have hbkey2 : bottom2.key = bottom.key := congrArg Prod.fst hhead
    have hbid2 : bottom2.id = bottom.id := congrArg Prod.snd hhead
    refine ⟨bottom2, tail2 ++ [⟨item.1, ps.next, item.2.1, []⟩],
      b && decide (bottom.key < item.1), ?_, by rw [hbid2, hbid], ?_, ?_, ?_, ?_, ?_, ?_⟩
    · rw [hps2, hu, List.cons_append]
    · rw [hps2]
      show SpineLink (MarkdownParser.buildStep root st item).arena
        (updLast (fun e => { e with kids := e.kids ++ [closeChain d ds] })
          (bottom :: tail.takeWhile fun e => e.key < item.1) ++
          [⟨item.1, ps.next, item.2.1, []⟩])
      rw [hupd]
      exact hlink3
    · rw [hps2, hlen2, hnext]
    · rw [hps2]
      show (spineIds (updLast (fun e => { e with kids := e.kids ++ [closeChain d ds] })
        (bottom :: tail.takeWhile fun e => e.key < item.1) ++
        [⟨item.1, ps.next, item.2.1, []⟩])).Nodup
      rw [hidsNew, List.nodup_append]
      refine ⟨hnodup, by simp, ?_⟩
      intro x hx hx2
      have hlt := hbound x hx
      have hxeq : x = ps.next := by simpa using hx2
      rw [hxeq, hnext] at hlt
      exact absurd hlt (lt_irrefl _)
    · rw [hps2]
      show ∀ i ∈ spineIds (updLast (fun e => { e with kids := e.kids ++ [closeChain d ds] })
        (bottom :: tail.takeWhile fun e => e.key < item.1) ++
        [⟨item.1, ps.next, item.2.1, []⟩]),
        i < (MarkdownParser.buildStep root st item).arena.length
      rw [hidsNew, hlen2]
      intro i hi
      rcases List.mem_append.1 hi with hi | hi
      · exact Nat.lt_succ_of_lt (hbound i hi)
      · have hieq : i = ps.next := by simpa using hi
        rw [hieq, hnext]
        exact Nat.lt_succ_self _
    · rw [buildStep_stack_eq, hstack, filter_stackOf item.1 b bottom tail hpw2,
        stackOf_append_entry]
      congr 1
      · rw [stackOf, stackOf, hbkey2, hbid2, htail2]
      · rw [← hnext]
    · rw [buildStep_stack_eq]
      exact chain_stack_new item.1 st.arena.length st.stack hchain

/-! The pure fold over a flattened forest rebuilds the forest. -/

theorem rose_size_pos (t : Rose) : 0 < t.size := by
  obtain ⟨lab, kids⟩ := t
  rw [Rose.size]
  omega

theorem openSpine_of_none (d n : Nat) (lab : List Char) (kids : List Rose)
    (h : kids.getLast? = none) :
    openSpine d n (.mk lab kids) = [⟨(d : Int), n, lab, []⟩] := by
  unfold openSpine
  split
  · rfl
  · rename_i last h2
    rw [h] at h2
    cases h2

theorem openSpine_of_some (d n : Nat) (lab : List Char) (kids : List Rose) (last : Rose)
    (h : kids.getLast? = some last) :
    openSpine d n (.mk lab kids) =
      ⟨(d : Int), n, lab, assignF (n + 1) kids.dropLast⟩ ::
        openSpine (d + 1) (n + 1 + sizeF kids.dropLast) last := by
  conv_lhs => unfold openSpine
  split
  · rename_i h2
    rw [h] at h2
    cases h2
  · rename_i last2 h2
    rw [h] at h2
    injection h2 with h3
    rw [h3]

theorem openSpine_shape (d n : Nat) (t : Rose) :
    ∃ ks es, openSpine d n t = ⟨(d : Int), n, t.label, ks⟩ :: es := by
  obtain ⟨lab, kids⟩ := t
  cases h : kids.getLast? with
  | none =>
    refine ⟨[], [], ?_⟩
    rw [openSpine_of_none d n lab kids h]
    rfl
  | some last =>
    refine ⟨assignF (n + 1) kids.dropLast,
      openSpine (d + 1) (n + 1 + sizeF kids.dropLast) last, ?_⟩
    rw [openSpine_of_some d n lab kids last h]
    rfl

theorem takeWhile_append_fail {α : Type} {p : α → Bool} {y : α} :
    ∀ {xs : List α} (ys : List α), (∀ x ∈ xs, p x) → ¬ p y →
    (xs ++ y :: ys).takeWhile p = xs := by
  intro xs
  induction xs with
  | nil =>
    intro ys _ hy
    rw [List.nil_append, List.takeWhile_cons_of_neg hy]
  | cons x xs2 ih =>
    intro ys hall hy
    rw [List.cons_append, List.takeWhile_cons_of_pos (hall x (List.mem_cons_self _ _)),
      ih ys (fun z hz => hall z (List.mem_cons_of_mem _ hz)) hy]

theorem dropWhile_append_fail {α : Type} {p : α → Bool} {y : α} :
    ∀ {xs : List α} (ys : List α), (∀ x ∈ xs, p x) → ¬ p y →
    (xs ++ y :: ys).dropWhile p = y :: ys := by
  intro xs
  induction xs with
  | nil =>
    intro ys _ hy
    rw [List.nil_append, List.dropWhile_cons_of_neg hy]
  | cons x xs2 ih =>
    intro ys hall hy
    rw [List.cons_append, List.dropWhile_cons_of_pos (hall x (List.mem_cons_self _ _)),
      ih ys (fun z hz => hall z (List.mem_cons_of_mem _ hz)) hy]

theorem updLast_append_one (g : OpenNode → OpenNode) : ∀ (xs : List OpenNode) (e : OpenNode),
    updLast g (xs ++ [e]) = xs ++ [g e] := by
  intro xs
  induction xs with
  | nil => intro e; rfl
  | cons x xs2 ih =>
    intro e
    cases xs2 with
    | nil => rfl
    | cons x2 xs3 =>
      have hstep : updLast g ((x :: x2 :: xs3) ++ [e]) =
          x :: updLast g ((x2 :: xs3) ++ [e]) := rfl
      rw [hstep, ih e]
      simp

theorem updLast_congr {g g2 : OpenNode → OpenNode} (h : ∀ e, g e = g2 e) :
    ∀ sp : List OpenNode, updLast g sp = updLast g2 sp := by
  intro sp
  induction sp with
  | nil => rfl
  | cons e rest ih =>
    cases rest with
    | nil =>
      show [g e] = [g2 e]
      rw [h]
    | cons f rest2 =>
      show e :: updLast g (f :: rest2) = e :: updLast g2 (f :: rest2)
      rw [ih]

theorem updLast_id (g : OpenNode → OpenNode) (h : ∀ e, g e = e) :
    ∀ sp : List OpenNode, updLast g sp = sp := by
  intro sp
  induction sp with
  | nil => rfl
  | cons e rest ih =>
    cases rest with
    | nil =>
      show [g e] = [e]
      rw [h]
    | cons f rest2 =>
      show e :: updLast g (f :: rest2) = e :: (f :: rest2)
      rw [ih]

theorem updLast_comp (g1 g2 : OpenNode → OpenNode) : ∀ sp : List OpenNode,
    updLast g2 (updLast g1 sp) = updLast (fun e => g2 (g1 e)) sp := by
  intro sp
  cases sp with
  | nil => rfl
  | cons e rest =>
    rw [updLast_eq g1 (e :: rest) (List.cons_ne_nil _ _), updLast_append_one,
      updLast_eq (fun e => g2 (g1 e)) (e :: rest) (List.cons_ne_nil _ _)]

theorem appendNilKid_id (e : OpenNode) : ({ e with kids := e.kids ++ [] } : OpenNode) = e := by
  cases e
  simp

/-- Closing the open rightmost spine of a tree yields exactly the tree with
preorder-consecutive ids. -/
theorem closeChain_openSpine : ∀ (N : Nat) (t : Rose), t.size ≤ N → ∀ (d n : Nat)
    (e : OpenNode) (es : List OpenNode), openSpine d n t = e :: es →
    closeChain e es = assignT n t := by
  intro N
  induction N with
  | zero =>
    intro t hsz
    have := rose_size_pos t
    omega
  | succ N ih =>
    intro t hsz d n e es hsp
    obtain ⟨lab, kids⟩ := t
    cases h : kids.getLast? with
    | none =>
      rw [openSpine_of_none d n lab kids h] at hsp
      injection hsp with h1 h2
      rw [← h1, h2.symm]
      have hknil : kids = [] := by
        cases kids with
        | nil => rfl
        | cons k ks => rw [List.getLast?_eq_getLast _ (List.cons_ne_nil _ _)] at h; cases h
      rw [hknil, closeChain, assignT]
      rfl
    | some last =>
      obtain ⟨hkne, hlast⟩ := List.mem_getLast?_eq_getLast h
      rw [openSpine_of_some d n lab kids last h] at hsp
      obtain ⟨ks2, es2, hsp2⟩ := openSpine_shape (d + 1) (n + 1 + sizeF kids.dropLast) last
      rw [hsp2] at hsp
      injection hsp with h1 h2
      rw [← h1, ← h2, closeChain]
      have hszlast : last.size ≤ N := by
        have h3 : last.size ≤ sizeF kids := by
          rw [hlast]
          exact size_le_sizeF_of_mem (List.getLast_mem hkne)
        have h4 : (Rose.mk lab kids).size = 1 + sizeF kids := by rw [Rose.size]
        omega
      rw [ih last hszlast (d + 1) (n + 1 + sizeF kids.dropLast) _ es2 hsp2]
      rw [assignT]
      have hks : kids.dropLast ++ [last] = kids := by
        rw [hlast]
        exact List.dropLast_append_getLast hkne
      conv_rhs => rw [← hks]
      rw [assignF_append]
      rfl

/-- A pure step on an item at a depth above every open key just pushes. -/
theorem pureStep_push (bottom : OpenNode) (tl : List OpenNode) (m : Nat) (d : Int)
    (lab : List Char) (hkeys : ∀ e ∈ tl, e.key < d) :
    pureStep ⟨bottom :: tl, m⟩ (d, lab) = ⟨(bottom :: tl) ++ [⟨d, m, lab, []⟩], m + 1⟩ := by
  have htw : (tl.takeWhile fun e => e.key < d) = tl :=
    List.takeWhile_eq_self_iff.2 fun x hx => by simpa using hkeys x hx
  have hdw : (tl.dropWhile fun e => e.key < d) = [] :=
    List.dropWhile_eq_nil_iff.2 fun x hx => by simpa using hkeys x hx
  simp only [pureStep, htw, hdw, List.cons_append]

/-- A pure step on an item at a depth undercutting the open extension closes
the extension onto the last kept entry and pushes. -/
theorem pureStep_close (bottom : OpenNode) (tl : List OpenNode) (o : OpenNode)
    (os : List OpenNode) (m : Nat) (d : Int) (lab : List Char)
    (hkeys : ∀ e ∈ tl, e.key < d) (ho : ¬ o.key < d) :
    pureStep ⟨(bottom :: tl) ++ o :: os, m⟩ (d, lab) =
      ⟨updLast (fun e => { e with kids := e.kids ++ [closeChain o os] }) (bottom :: tl) ++
        [⟨d, m, lab, []⟩], m + 1⟩ := by
  have hbool : ∀ x ∈ tl, (fun e : OpenNode => decide (e.key < d)) x = true :=
    fun x hx => by simpa using hkeys x hx
  have hob : ¬ (fun e : OpenNode => decide (e.key < d)) o = true := by simpa using ho
  have htw : ((tl ++ o :: os).takeWhile fun e => e.key < d) = tl :=
    takeWhile_append_fail os hbool hob
  have hdw : ((tl ++ o :: os).dropWhile fun e => e.key < d) = o :: os :=
    dropWhile_append_fail os hbool hob
  have hsp : ((bottom :: tl) ++ o :: os) = bottom :: (tl ++ o :: os) := by
    rw [List.cons_append]
  simp only [hsp, pureStep, htw, hdw]

theorem flattenF_nil (d : Nat) : flattenF d [] = [] := by rw [flattenF]

theorem assignF_nil (n : Nat) : assignF n [] = [] := by rw [assignF]

theorem updLast_cons_shape (g : OpenNode → OpenNode)
    (hg : ∀ e, (g e).key = e.key ∧ (g e).id = e.id) (bottom : OpenNode) (tl : List OpenNode) :
    ∃ b2 t2, updLast g (bottom :: tl) = b2 :: t2 ∧
      (b2 :: t2).map (fun e => (e.key, e.id)) =
        (bottom :: tl).map fun e => (e.key, e.id) := by
  obtain ⟨b2, t2, hu⟩ : ∃ b2 t2, updLast g (bottom :: tl) = b2 :: t2 := by
    cases tl with
    | nil => exact ⟨_, _, rfl⟩
    | cons x xs => exact ⟨_, _, rfl⟩
  exact ⟨b2, t2, hu, by rw [← hu]; exact updLast_map_keyid g hg _⟩

theorem fold_combined : ∀ N : Nat,
    (∀ (lab : List Char) (kids : List Rose), sizeF kids + 1 ≤ N →
      ∀ (d m : Nat) (bottom : OpenNode) (tl : List OpenNode),
      (∀ e ∈ tl, e.key < (d : Int)) →
      ((flattenF (d + 1) kids).map fun p => ((p.1 : Int), p.2)).foldl pureStep
          ⟨(bottom :: tl) ++ [⟨(d : Int), m, lab, []⟩], m + 1⟩ =
        ⟨(bottom :: tl) ++ openSpine d m (.mk lab kids), m + 1 + sizeF kids⟩) ∧
    (∀ (F : List Rose) (t : Rose), t.size + sizeF F ≤ N →
      ∀ (d m : Nat) (bottom : OpenNode) (tl : List OpenNode),
      (∀ e ∈ tl, e.key < (d : Int)) →
      ((flattenF d F).map fun p => ((p.1 : Int), p.2)).foldl pureStep
          ⟨(bottom :: tl) ++ openSpine d m t, m + t.size⟩ =
        ⟨updLast (fun e => { e with kids := e.kids ++ assignF m (t :: F).dropLast })
            (bottom :: tl) ++
          openSpine d (m + sizeF (t :: F).dropLast) ((t :: F).getLast (List.cons_ne_nil _ _)),
          m + t.size + sizeF F⟩) ∧
    (∀ (F : List Rose) (hne : F ≠ []), sizeF F ≤ N →
      ∀ (d m : Nat) (bottom : OpenNode) (tl : List OpenNode),
      (∀ e ∈ tl, e.key < (d : Int)) →
      ((flattenF d F).map fun p => ((p.1 : Int), p.2)).foldl pureStep ⟨bottom :: tl, m⟩ =
        ⟨updLast (fun e => { e with kids := e.kids ++ assignF m F.dropLast }) (bottom :: tl) ++
          openSpine d (m + sizeF F.dropLast) (F.getLast hne), m + sizeF F⟩) := by
  intro N
  induction N with
  | zero =>
    refine ⟨fun lab kids h => by omega, fun F t h => ?_, fun F hne h => ?_⟩
    · have := rose_size_pos t
      omega
    · cases F with
      | nil => exact absurd rfl hne
      | cons f fs =>
        rw [sizeF_cons] at h
        have := rose_size_pos f
        omega
  | succ N ih =>
    obtain ⟨ihU, ihB, ihA⟩ := ih
    have hU : ∀ (lab : List Char) (kids : List Rose), sizeF kids + 1 ≤ N + 1 →
        ∀ (d m : Nat) (bottom : OpenNode) (tl : List OpenNode),
        (∀ e ∈ tl, e.key < (d : Int)) →
        ((flattenF (d + 1) kids).map fun p => ((p.1 : Int), p.2)).foldl pureStep
            ⟨(bottom :: tl) ++ [⟨(d : Int), m, lab, []⟩], m + 1⟩ =
          ⟨(bottom :: tl) ++ openSpine d m (.mk lab kids), m + 1 + sizeF kids⟩ := by
      intro lab kids hsz d m bottom tl hkeys
      cases kids with
      | nil =>
        rw [flattenF_nil, List.map_nil, List.foldl_nil, openSpine_of_none d m lab [] rfl]
        rw [PState.mk.injEq]
        refine ⟨rfl, by rw [sizeF_nil]⟩
      | cons k ks =>
        have hszA : sizeF (k :: ks) ≤ N := by omega
        have hc : ((d + 1 : Nat) : Int) = (d : Int) + 1 := by push_cast; ring
        have hkeys2 : ∀ e ∈ tl ++ [⟨(d : Int), m, lab, []⟩], e.key < ((d + 1 : Nat) : Int) := by
          intro e he
          rw [hc]
          rcases List.mem_append.1 he with he | he
          · have := hkeys e he
            omega
          · have heq : e = ⟨(d : Int), m, lab, []⟩ := by simpa using he
            rw [heq]
            show (d : Int) < (d : Int) + 1
            omega
        have hcons : (bottom :: tl) ++ [(⟨(d : Int), m, lab, []⟩ : OpenNode)] =
            bottom :: (tl ++ [⟨(d : Int), m, lab, []⟩]) := by
          rw [List.cons_append]
        have hmid := ihA (k :: ks) (List.cons_ne_nil _ _) hszA (d + 1) (m + 1) bottom
          (tl ++ [(⟨(d : Int), m, lab, []⟩ : OpenNode)]) hkeys2
        rw [hcons, hmid]
        rw [PState.mk.injEq]
        constructor
        · have hcons2 : bottom :: (tl ++ [(⟨(d : Int), m, lab, []⟩ : OpenNode)]) =
              (bottom :: tl) ++ [⟨(d : Int), m, lab, []⟩] := by
            rw [List.cons_append]
          rw [hcons2, updLast_append_one]
          rw [openSpine_of_some d m lab (k :: ks) ((k :: ks).getLast (List.cons_ne_nil _ _))
            (List.getLast?_eq_getLast _ (List.cons_ne_nil _ _))]
          simp [List.append_assoc]
        · rw [sizeF_cons]
    have hB : ∀ (F : List Rose) (t : Rose), t.size + sizeF F ≤ N + 1 →
        ∀ (d m : Nat) (bottom : OpenNode) (tl : List OpenNode),
        (∀ e ∈ tl, e.key < (d : Int)) →
        ((flattenF d F).map fun p => ((p.1 : Int), p.2)).foldl pureStep
            ⟨(bottom :: tl) ++ openSpine d m t, m + t.size⟩ =
          ⟨updLast (fun e => { e with kids := e.kids ++ assignF m (t :: F).dropLast })
              (bottom :: tl) ++
            openSpine d (m + sizeF (t :: F).dropLast) ((t :: F).getLast (List.cons_ne_nil _ _)),
            m + t.size + sizeF F⟩ := by
      intro F t hsz d m bottom tl hkeys
      cases F with
      | nil =>
        rw [flattenF_nil, List.map_nil, List.foldl_nil]
        rw [PState.mk.injEq]
        constructor
        · have hdl : (t :: ([] : List Rose)).dropLast = [] := rfl
          rw [hdl, assignF_nil, sizeF_nil]
          rw [updLast_id _ (fun e => by exact appendNilKid_id e)]
          have hgl : (t :: ([] : List Rose)).getLast (List.cons_ne_nil _ _) = t := rfl
          rw [hgl, Nat.add_zero]
        · rw [sizeF_nil]
          rfl
      | cons f fs =>
        obtain ⟨flab, fkids⟩ := f
        rw [flattenF_cons, flatten_mk, List.map_append, List.foldl_append, List.map_cons,
          List.foldl_cons]
        obtain ⟨ks0, es0, hos⟩ := openSpine_shape d m t
        rw [hos, pureStep_close bottom tl _ es0 (m + t.size) (d : Int) flab hkeys (by simp)]
        have hclose : closeChain ⟨(d : Int), m, t.label, ks0⟩ es0 = assignT m t :=
          closeChain_openSpine t.size t (le_refl _) d m _ es0 hos
        rw [hclose]
        obtain ⟨b2, t2, hu, hpairs⟩ := updLast_cons_shape
          (fun e => { e with kids := e.kids ++ [assignT m t] }) (fun e => ⟨rfl, rfl⟩) bottom tl
        rw [hu]
        have hpairs2 : t2.map (fun e => (e.key, e.id)) = tl.map fun e => (e.key, e.id) := by
          rw [List.map_cons, List.map_cons] at hpairs
          injection hpairs
        have hkeys2 : ∀ e ∈ t2, e.key < (d : Int) := by
          intro e he
          have hp : (e.key, e.id) ∈ t2.map fun e => (e.key, e.id) :=
            List.mem_map_of_mem _ he
          rw [hpairs2, List.mem_map] at hp
          obtain ⟨e0, he0, hpe⟩ := hp
          have hk : e0.key = e.key := congrArg Prod.fst hpe
          rw [← hk]
          exact hkeys e0 he0
        have hszU : sizeF fkids + 1 ≤ N := by
          rw [sizeF_cons, Rose.size] at hsz
          have := rose_size_pos t
          omega
        rw [hU flab fkids (by omega) d (m + t.size) b2 t2 hkeys2]
        have hszB : (Rose.mk flab fkids).size + sizeF fs ≤ N := by
          rw [sizeF_cons] at hsz
          have := rose_size_pos t
          omega
        have hcount : m + t.size + 1 + sizeF fkids =
            m + t.size + (Rose.mk flab fkids).size := by
          rw [Rose.size]
          omega
        rw [hcount, ihB fs (Rose.mk flab fkids) hszB d (m + t.size) b2 t2 hkeys2]
        rw [PState.mk.injEq]
        constructor
        · rw [← hu, updLast_comp]
          have hfun : ∀ e : OpenNode, ((fun e : OpenNode => { e with kids := e.kids ++ assignF (m + t.size) ((Rose.mk flab fkids) :: fs).dropLast }) ((fun e : OpenNode => { e with kids := e.kids ++ [assignT m t] }) e)) = ({ e with kids := e.kids ++ assignF m ((t :: Rose.mk flab fkids :: fs).dropLast) } : OpenNode) := by
            intro e
            obtain ⟨ek, ei, el, eks⟩ := e
            simp [List.dropLast_cons₂, assignF_cons, List.append_assoc]
          rw [updLast_congr hfun]
          have hgl2 : ((Rose.mk flab fkids) :: fs).getLast (List.cons_ne_nil _ _) =
              (t :: Rose.mk flab fkids :: fs).getLast (List.cons_ne_nil _ _) := by
            rw [List.getLast_cons_cons]
          have hsz2 : m + t.size + sizeF ((Rose.mk flab fkids) :: fs).dropLast =
              m + sizeF ((t :: Rose.mk flab fkids :: fs).dropLast) := by
            rw [List.dropLast_cons₂, sizeF_cons]
            omega
          rw [hgl2, hsz2]
        · rw [sizeF_cons, Rose.size]
          omega
    have hA : ∀ (F : List Rose) (hne : F ≠ []), sizeF F ≤ N + 1 →
        ∀ (d m : Nat) (bottom : OpenNode) (tl : List OpenNode),
        (∀ e ∈ tl, e.key < (d : Int)) →
        ((flattenF d F).map fun p => ((p.1 : Int), p.2)).foldl pureStep ⟨bottom :: tl, m⟩ =
          ⟨updLast (fun e => { e with kids := e.kids ++ assignF m F.dropLast }) (bottom :: tl) ++
            openSpine d (m + sizeF F.dropLast) (F.getLast hne), m + sizeF F⟩ := by
      intro F hne hsz d m bottom tl hkeys
      cases F with
      | nil => exact absurd rfl hne
      | cons t ts =>
        obtain ⟨lab, kids⟩ := t
        rw [flattenF_cons, flatten_mk, List.map_append, List.foldl_append, List.map_cons,
          List.foldl_cons]
        rw [pureStep_push bottom tl m (d : Int) lab hkeys]
        have hszU : sizeF kids + 1 ≤ N + 1 := by
          rw [sizeF_cons, Rose.size] at hsz
          omega
        rw [hU lab kids hszU d m bottom tl hkeys]
        have hszB : (Rose.mk lab kids).size + sizeF ts ≤ N + 1 := by
          rw [sizeF_cons] at hsz
          omega
        have hcount : m + 1 + sizeF kids = m + (Rose.mk lab kids).size := by
          rw [Rose.size]
          omega
        rw [hcount, hB ts (Rose.mk lab kids) hszB d m bottom tl hkeys]
        rw [PState.mk.injEq]
        refine ⟨rfl, ?_⟩
        rw [sizeF_cons]
        omega
    exact ⟨hU, hB, hA⟩

/-- The simulation transported along a whole item list. -/
theorem rel_fold (root : Nat) : ∀ (items : List (Int × List Char × Nat))
    (st : MarkdownParser.BuildState) (ps : PState), Rel root st ps →
    Rel root (items.foldl (MarkdownParser.buildStep root) st)
      ((items.map proj).foldl pureStep ps) := by
  intro items
  induction items with
  | nil => intro st ps h; exact h
  | cons it rest ih =>
    intro st ps h
    rw [List.foldl_cons, List.map_cons, List.foldl_cons]
    exact ih _ _ (rel_step root st ps it h)

/-- The simulation holds at every seed state the four assembly loops start
from: a one-cell heap holding the root, any line map, the root's stack key. -/
theorem rel_init (t0 : List Char) (k : Int) (m0 : List (Nat × Nat)) :
    Rel 0 ⟨[⟨t0, none, []⟩], m0, [(k, 0)]⟩ ⟨[⟨k, 0, t0, []⟩], 1⟩ := by
  refine ⟨⟨k, 0, t0, []⟩, [], true, rfl, rfl, ?_, rfl, ?_, ?_, rfl, ?_⟩
  · exact ⟨rfl, rfl, fun t ht => absurd ht (List.not_mem_nil t)⟩
  · simp [spineIds, entryIds, treeIdsF]
  · intro i hi
    simp [spineIds, entryIds, treeIdsF] at hi
    simp [hi]
  · simp

/-! Canonical serializer lines: splitting the joined lines recovers them, and
the list regex accepts every canonical line, returning its depth and label. -/

theorem splitNl_no_newline : ∀ {l : List Char}, '\n' ∉ l → splitNl l = [l] := by
  intro l
  induction l with
  | nil => intro _; rfl
  | cons c cs ih =>
    intro h
    have hcne : ¬ c = '\n' := fun hc => h (hc ▸ List.mem_cons_self c cs)
    rw [splitNl, if_neg hcne, ih fun hc => h (List.mem_cons_of_mem _ hc)]

theorem splitNl_append_newline : ∀ {l : List Char} (r : List Char), '\n' ∉ l →
    splitNl (l ++ '\n' :: r) = l :: splitNl r := by
  intro l
  induction l with
  | nil =>
    intro r _
    rw [List.nil_append, splitNl, if_pos rfl]
  | cons c cs ih =>
    intro r h
    have hcne : ¬ c = '\n' := fun hc => h (hc ▸ List.mem_cons_self c cs)
    rw [List.cons_append, splitNl, if_neg hcne, ih r fun hc => h (List.mem_cons_of_mem _ hc)]

theorem splitNl_joinNl : ∀ {ls : List (List Char)}, ls ≠ [] →
    (∀ l ∈ ls, '\n' ∉ l) → splitNl (joinNl ls) = ls := by
  intro ls
  induction ls with
  | nil => intro h _; cases h rfl
  | cons l rest ih =>
    intro _ hall
    cases rest with
    | nil => exact splitNl_no_newline (hall l (List.mem_cons_self _ _))
    | cons l2 rest2 =>
      rw [joinNl_cons_cons, splitNl_append_newline _ (hall l (List.mem_cons_self _ _)),
        ih (List.cons_ne_nil _ _) fun x hx => hall x (List.mem_cons_of_mem _ hx)]

theorem mkLine_no_newline (p : Nat × List Char) (h : '\n' ∉ p.2) : '\n' ∉ mkLine p := by
  intro hmem
  rw [mkLine, List.mem_append, List.mem_cons, List.mem_cons] at hmem
  rcases hmem with hmem | h1 | h2 | hmem
  · exact absurd (List.eq_of_mem_replicate hmem) (by decide)
  · exact absurd h1 (by decide)
  · exact absurd h2 (by decide)
  · exact h hmem

theorem dropWhile_isPySpace_of_stripped {l : List Char} (hs : pyStrip l = l) :
    l.dropWhile isPySpace = l := by
  have h1 : (pyStrip l).length ≤ (l.dropWhile isPySpace).length := by
    rw [pyStrip, List.length_reverse]
    calc ((l.dropWhile isPySpace).reverse.dropWhile isPySpace).length
        ≤ (l.dropWhile isPySpace).reverse.length :=
          (List.dropWhile_sublist _).length_le
      _ = (l.dropWhile isPySpace).length := List.length_reverse _
  rw [hs] at h1
  have h2 : (l.dropWhile isPySpace).length ≤ l.length := (List.dropWhile_sublist _).length_le
  exact (List.dropWhile_suffix isPySpace).sublist.eq_of_length (le_antisymm h2 h1)

/-- The list regex accepts every canonical line of a stripped nonempty
label, giving back exactly the depth and the label. -/
theorem listMatch_mkLine (d : Nat) (lab : List Char) (hne : lab ≠ [])
    (hs : pyStrip lab = lab) :
    MarkdownParser.listMatch (mkLine (d, lab)) = some ((d : Int), lab) := by
  have hdrop : (mkLine (d, lab)).dropWhile isPySpace = '-' :: ' ' :: lab := by
    rw [mkLine]
    refine dropWhile_append_fail _ ?_ (by decide)
    intro x hx
    rw [List.eq_of_mem_replicate hx]
    decide
  have htake : (mkLine (d, lab)).takeWhile isPySpace = List.replicate (2 * d) ' ' := by
    rw [mkLine]
    refine takeWhile_append_fail _ ?_ (by decide)
    intro x hx
    rw [List.eq_of_mem_replicate hx]
    decide
  have hlabpos : 0 < lab.length := List.length_pos.2 hne
  simp only [MarkdownParser.listMatch, hdrop]
  rw [if_pos (⟨Or.inl trivial, by rw [List.length_cons]; omega, rfl⟩ :
    (True ∨ '-' = '*') ∧ 2 ≤ (' ' :: lab).length ∧
      isPySpace ((' ' :: lab).headD ' ') = true), Option.some_inj, Prod.mk.injEq]
  constructor
  · rw [htake, List.map_replicate]
    have hsp : (if (' ' : Char) = '\t' then 2 else 1) = 1 := by decide
    rw [hsp, List.sum_replicate, smul_eq_mul, mul_one]
    have hdd : 2 * d / 2 = d := by omega
    rw [hdd]
  · rw [List.dropWhile_cons_of_pos (by decide), dropWhile_isPySpace_of_stripped hs, hs]

/-! Extraction of canonical lines and counting lemmas. -/

theorem extract_attach : ∀ (ps : List (Nat × List Char)) (k : Nat),
    (∀ p ∈ ps, MarkdownParser.listMatch (mkLine p) = some ((p.1 : Int), p.2)) →
    MarkdownParser.extractAux MarkdownParser.listMatch k (ps.map mkLine) = attachLines k ps := by
  intro ps
  induction ps with
  | nil => intro k _; rfl
  | cons p rest ih =>
    intro k hall
    rw [List.map_cons, MarkdownParser.extractAux, hall p (List.mem_cons_self _ _),
      ih (k + 1) fun q hq => hall q (List.mem_cons_of_mem _ hq)]
    rfl

theorem attachLines_map_proj : ∀ (ps : List (Nat × List Char)) (k : Nat),
    (attachLines k ps).map proj = ps.map fun p => ((p.1 : Int), p.2) := by
  intro ps
  induction ps with
  | nil => intro k; rfl
  | cons p rest ih =>
    intro k
    rw [attachLines, List.map_cons, List.map_cons, ih (k + 1)]
    rfl

theorem attachLines_mem_level : ∀ (ps : List (Nat × List Char)) (k : Nat),
    ∀ q ∈ attachLines k ps, ∃ p ∈ ps, q.1 = (p.1 : Int) := by
  intro ps
  induction ps with
  | nil => intro k q hq; cases hq
  | cons p rest ih =>
    intro k q hq
    rw [attachLines] at hq
    rcases List.mem_cons.1 hq with hq | hq
    · exact ⟨p, List.mem_cons_self _ _, by rw [hq]⟩
    · obtain ⟨p2, hp2, hl⟩ := ih (k + 1) q hq
      exact ⟨p2, List.mem_cons_of_mem _ hp2, hl⟩

theorem attachLines_length : ∀ (ps : List (Nat × List Char)) (k : Nat),
    (attachLines k ps).length = ps.length := by
  intro ps
  induction ps with
  | nil => intro k; rfl
  | cons p rest ih =>
    intro k
    rw [attachLines, List.length_cons, List.length_cons, ih (k + 1)]

theorem attachLines_countP (v : Int) : ∀ (ps : List (Nat × List Char)) (k : Nat),
    ((attachLines k ps).countP fun q => q.1 = v) = ps.countP fun p => (p.1 : Int) = v := by
  intro ps
  induction ps with
  | nil => intro k; rfl
  | cons p rest ih =>
    intro k
    rw [attachLines, List.countP_cons, List.countP_cons, ih (k + 1)]

theorem foldl_min_const (l0 : Int) : ∀ (rest : List (Int × List Char × Nat)),
    (∀ q ∈ rest, l0 ≤ q.1) → rest.foldl (fun m q => min m q.1) l0 = l0 := by
  intro rest
  induction rest with
  | nil => intro _; rfl
  | cons q rs ih =>
    intro h
    rw [List.foldl_cons, min_eq_left (h q (List.mem_cons_self _ _))]
    exact ih fun r hr => h r (List.mem_cons_of_mem _ hr)

theorem flattenF_level_ge : ∀ (N : Nat) (F : List Rose), sizeF F ≤ N →
    ∀ (d : Nat) (p : Nat × List Char), p ∈ flattenF d F → d ≤ p.1 := by
  intro N
  induction N with
  | zero =>
    intro F hsz d p hp
    cases F with
    | nil => rw [flattenF_nil] at hp; cases hp
    | cons t ts =>
      rw [sizeF_cons] at hsz
      have := rose_size_pos t
      omega
  | succ N ih =>
    intro F hsz d p hp
    cases F with
    | nil => rw [flattenF_nil] at hp; cases hp
    | cons t ts =>
      obtain ⟨lab, kids⟩ := t
      rw [flattenF_cons, flatten_mk] at hp
      rw [sizeF_cons, Rose.size] at hsz
      rcases List.mem_append.1 hp with hp | hp
      · rcases List.mem_cons.1 hp with hp | hp
        · rw [hp]
        · have := ih kids (by omega) (d + 1) p hp
          omega
      · exact ih ts (by omega) d p hp

theorem flattenF_length : ∀ (N : Nat) (F : List Rose), sizeF F ≤ N →
    ∀ d, (flattenF d F).length = sizeF F := by
  intro N
  induction N with
  | zero =>
    intro F hsz d
    cases F with
    | nil => rw [flattenF_nil, sizeF_nil]; rfl
    | cons t ts =>
      rw [sizeF_cons] at hsz
      have := rose_size_pos t
      omega
  | succ N ih =>
    intro F hsz d
    cases F with
    | nil => rw [flattenF_nil, sizeF_nil]; rfl
    | cons t ts =>
      obtain ⟨lab, kids⟩ := t
      rw [flattenF_cons, flatten_mk] at *
      rw [sizeF_cons, Rose.size] at *
      rw [List.length_append, List.length_cons, ih kids (by omega) (d + 1),
        ih ts (by omega) d]
      omega

theorem flattenF_count_roots : ∀ (N : Nat) (F : List Rose), sizeF F ≤ N →
    ∀ d, ((flattenF d F).countP fun p => (p.1 : Int) = (d : Int)) = F.length := by
  intro N
  induction N with
  | zero =>
    intro F hsz d
    cases F with
    | nil => rw [flattenF_nil]; rfl
    | cons t ts =>
      rw [sizeF_cons] at hsz
      have := rose_size_pos t
      omega
  | succ N ih =>
    intro F hsz d
    cases F with
    | nil => rw [flattenF_nil]; rfl
    | cons t ts =>
      obtain ⟨lab, kids⟩ := t
      rw [flattenF_cons, flatten_mk, sizeF_cons, Rose.size] at *
      rw [List.countP_append, List.countP_cons]
      have h1 : ((flattenF (d + 1) kids).countP fun p => (p.1 : Int) = (d : Int)) = 0 := by
        rw [List.countP_eq_zero]
        intro p hp
        have := flattenF_level_ge (sizeF kids) kids (le_refl _) (d + 1) p hp
        simp only [decide_eq_true_eq]
        intro hc
        rw [Nat.cast_inj] at hc
        omega
      rw [h1, ih ts (by omega) d, List.length_cons]
      simp
      omega

theorem flattenF_label_mem : ∀ (N : Nat) (F : List Rose), sizeF F ≤ N →
    ∀ (d : Nat) (p : Nat × List Char), p ∈ flattenF d F → p.2 ∈ labelsF F := by
  intro N
  induction N with
  | zero =>
    intro F hsz d p hp
    cases F with
    | nil => rw [flattenF_nil] at hp; cases hp
    | cons t ts =>
      rw [sizeF_cons] at hsz
      have := rose_size_pos t
      omega
  | succ N ih =>
    intro F hsz d p hp
    cases F with
    | nil => rw [flattenF_nil] at hp; cases hp
    | cons t ts =>
      obtain ⟨lab, kids⟩ := t
      rw [flattenF_cons, flatten_mk] at hp
      rw [sizeF_cons, Rose.size] at hsz
      rw [labelsF_cons, labels_mk]
      rcases List.mem_append.1 hp with hp | hp
      · rcases List.mem_cons.1 hp with hp | hp
        · rw [hp]
          exact List.mem_append_left _ (List.mem_cons_self _ _)
        · exact List.mem_append_left _
            (List.mem_cons_of_mem _ (ih kids (by omega) (d + 1) p hp))
      · exact List.mem_append_right _ (ih ts (by omega) d p hp)

theorem flattenF_ne_nil (d : Nat) (F : List Rose) (hne : F ≠ []) : flattenF d F ≠ [] := by
  cases F with
  | nil => exact absurd rfl hne
  | cons t ts =>
    obtain ⟨lab, kids⟩ := t
    rw [flattenF_cons, flatten_mk]
    simp

theorem sizeR_assignT : ∀ (N : Nat),
    (∀ t : Rose, t.size ≤ N → ∀ n, (assignT n t).sizeR = t.size) ∧
    (∀ F : List Rose, sizeF F ≤ N → ∀ n, sizeRF (assignF n F) = sizeF F) := by
  intro N
  induction N with
  | zero =>
    constructor
    · intro t hsz
      have := rose_size_pos t
      omega
    · intro F hsz n
      cases F with
      | nil => rw [assignF_nil, sizeF_nil]; rfl
      | cons t ts =>
        rw [sizeF_cons] at hsz
        have := rose_size_pos t
        omega
  | succ N ih =>
    have hT : ∀ t : Rose, t.size ≤ N + 1 → ∀ n, (assignT n t).sizeR = t.size := by
      intro t hsz n
      obtain ⟨lab, kids⟩ := t
      rw [assignT_mk, sizeR_mk, Rose.size]
      rw [Rose.size] at hsz
      rw [ih.2 kids (by omega) (n + 1)]
    refine ⟨hT, ?_⟩
    intro F hsz n
    cases F with
    | nil => rw [assignF_nil, sizeF_nil]; rfl
    | cons t ts =>
      rw [assignF_cons, sizeRF_cons, sizeF_cons]
      rw [sizeF_cons] at hsz
      have h1 := rose_size_pos t
      rw [hT t (by omega) n, ih.2 ts (by omega) (n + t.size)]

theorem assignF_dropLast_getLast (m : Nat) (kids : List Rose) (hne : kids ≠ []) :
    assignF m kids.dropLast ++ [assignT (m + sizeF kids.dropLast) (kids.getLast hne)] =
      assignF m kids := by
  conv_rhs => rw [← List.dropLast_append_getLast hne]
  rw [assignF_append]
  rfl

theorem closeChain_append_openSpine (e : OpenNode) (d n : Nat) (t : Rose) :
    closeSpine (e :: openSpine d n t) = .mk e.id e.label (e.kids ++ [assignT n t]) := by
  obtain ⟨ks, es, hsp⟩ := openSpine_shape d n t
  rw [hsp, closeSpine, closeChain,
    closeChain_openSpine t.size t (le_refl _) d n _ es hsp]

theorem map_sub_zero : ∀ (items : List (Int × List Char × Nat)),
    (items.map fun q => (q.1 - ((0 : Nat) : Int), q.2.1, q.2.2)) = items := by
  intro items
  induction items with
  | nil => rfl
  | cons q rest ih =>
    obtain ⟨l, t, n⟩ := q
    rw [List.map_cons, ih]
    simp

/-- Parsing the canonical serialization of stripped, nonempty, newline-free
lines goes through the list dialect with exactly those items. -/
theorem parse_canonical (ps : List (Nat × List Char)) (hne : ps ≠ [])
    (hgood : ∀ p ∈ ps, p.2 ≠ [] ∧ pyStrip p.2 = p.2 ∧ '\n' ∉ p.2) :
    MarkdownParser.parse [] (joinNl (ps.map mkLine)) =
      match MarkdownParser.build_tree_from_list (attachLines 0 ps) with
      | some (r, a, m) => ⟨some r, a, m⟩
      | none => ⟨none, [], []⟩ := by
  have hmatch : ∀ p ∈ ps, MarkdownParser.listMatch (mkLine p) = some ((p.1 : Int), p.2) := by
    intro p hp
    obtain ⟨h1, h2, _⟩ := hgood p hp
    exact listMatch_mkLine p.1 p.2 h1 h2
  have hlines : ∀ l ∈ ps.map mkLine, '\n' ∉ l := by
    intro l hl
    rw [List.mem_map] at hl
    obtain ⟨p, hp, hpl⟩ := hl
    rw [← hpl]
    exact mkLine_no_newline p (hgood p hp).2.2
  have hsplit : splitNl (joinNl (ps.map mkLine)) = ps.map mkLine :=
    splitNl_joinNl (by simpa using hne) hlines
  have hextract : MarkdownParser.extract_list_items (joinNl (ps.map mkLine)) =
      attachLines 0 ps := by
    rw [MarkdownParser.extract_list_items, hsplit, extract_attach ps 0 hmatch]
  have hstrip : pyStrip (joinNl (ps.map mkLine)) ≠ [] := by
    cases ps with
    | nil => exact absurd rfl hne
    | cons p0 rest =>
      refine pyStrip_ne_nil (c := '-') ?_ (by decide)
      refine mem_joinNl (List.mem_map_of_mem mkLine (List.mem_cons_self p0 rest)) ?_
      rw [mkLine, List.mem_append]
      exact Or.inr (List.mem_cons_self _ _)
  have hne2 : attachLines 0 ps ≠ [] := by
    cases ps with
    | nil => exact absurd rfl hne
    | cons p0 rest => simp [attachLines]
  rw [MarkdownParser.parse, if_neg hstrip, hextract,
    if_neg (by simpa [List.isEmpty_iff] using hne2)]

theorem fold_openSpine_root (lab0 : List Char) (kids : List Rose) :
    ((flattenF 1 kids).map fun p => ((p.1 : Int), p.2)).foldl pureStep
      ⟨[⟨((0 : Nat) : Int), 0, lab0, []⟩], 1⟩ =
    ⟨openSpine 0 0 (.mk lab0 kids), (Rose.mk lab0 kids).size⟩ := by
  cases kids with
  | nil =>
    rw [flattenF_nil, List.map_nil, List.foldl_nil, openSpine_of_none 0 0 lab0 [] rfl,
      PState.mk.injEq]
    refine ⟨rfl, ?_⟩
    rw [Rose.size, sizeF_nil]
  | cons k1 ks =>
    have hA := (fold_combined (sizeF (k1 :: ks))).2.2 (k1 :: ks) (List.cons_ne_nil _ _)
      (le_refl _) 1 1 ⟨((0 : Nat) : Int), 0, lab0, []⟩ [] (by intro e he; cases he)
    rw [hA, openSpine_of_some 0 0 lab0 (k1 :: ks) ((k1 :: ks).getLast (List.cons_ne_nil _ _))
      (List.getLast?_eq_getLast _ (List.cons_ne_nil _ _)), PState.mk.injEq]
    constructor
    · show updLast (fun e => { e with kids := e.kids ++ assignF 1 (k1 :: ks).dropLast })
        [⟨((0 : Nat) : Int), 0, lab0, []⟩] ++ _ = _
      rw [updLast]
      simp
    · rw [Rose.size]

theorem fold_openSpine_vroot (kids : List Rose) (hne : kids ≠ []) :
    ((flattenF 0 kids).map fun p => ((p.1 : Int), p.2)).foldl pureStep
      ⟨[⟨-1, 0, MarkdownParser.vrootText, []⟩], 1⟩ =
    ⟨⟨-1, 0, MarkdownParser.vrootText, assignF 1 kids.dropLast⟩ ::
        openSpine 0 (1 + sizeF kids.dropLast) (kids.getLast hne), 1 + sizeF kids⟩ := by
  have hA := (fold_combined (sizeF kids)).2.2 kids hne (le_refl _) 0 1
    ⟨-1, 0, MarkdownParser.vrootText, []⟩ [] (by intro e he; cases he)
  rw [hA, PState.mk.injEq]
  refine ⟨?_, rfl⟩
  rw [updLast]
  simp

theorem parse_pureConvert (t : Rose) (hg : GoodRose t) :
    ∃ a m, MarkdownParser.parse [] (pureConvert t) = ⟨some 0, a, m⟩ ∧
      Represents a (assignT 0 t) ∧ a.length = t.size := by
  obtain ⟨hlabels, hvrootk⟩ := hg
  obtain ⟨lab0, kids⟩ := t
  have hlabel0 : lab0 ≠ [] ∧ pyStrip lab0 = lab0 ∧ '\n' ∉ lab0 := by
    refine hlabels lab0 ?_
    rw [labels_mk]
    exact List.mem_cons_self _ _
  have hkidlabels : ∀ (d : Nat) (p : Nat × List Char), p ∈ flattenF d kids →
      p.2 ≠ [] ∧ pyStrip p.2 = p.2 ∧ '\n' ∉ p.2 := by
    intro d p hp
    refine hlabels p.2 ?_
    rw [labels_mk]
    exact List.mem_cons_of_mem _ (flattenF_label_mem (sizeF kids) kids (le_refl _) d p hp)
  by_cases hvl : (Rose.mk lab0 kids).label = MarkdownParser.vrootText
  · -- synthesized virtual root: at least two children, all at depth 0
    have hklen : 2 ≤ kids.length := hvrootk hvl
    have hkne : kids ≠ [] := by
      intro h
      rw [h] at hklen
      simp at hklen
    have hpc : pureConvert (Rose.mk lab0 kids) =
        joinNl ((flattenF 0 kids).map mkLine) := by
      rw [pureConvert, if_pos hvl]
      rfl
    have hpsne : flattenF 0 kids ≠ [] := flattenF_ne_nil 0 kids hkne
    have hparse := parse_canonical (flattenF 0 kids) hpsne (hkidlabels 0)
    rw [hpc, hparse]
    have hlab0v : lab0 = MarkdownParser.vrootText := by
      rw [Rose.label] at hvl
      exact hvl
    subst hlab0v
    -- shape of the items
    obtain ⟨k1, ks, hk⟩ : ∃ k1 ks, kids = k1 :: ks := by
      cases kids with
      | nil => exact absurd rfl hkne
      | cons a b => exact ⟨a, b, rfl⟩
    obtain ⟨k1l, k1k⟩ := k1
    have hps : flattenF 0 kids = (0, k1l) :: (flattenF 1 k1k ++ flattenF 0 ks) := by
      rw [hk, flattenF_cons, flatten_mk, List.cons_append]
    have hitems : attachLines 0 (flattenF 0 kids) =
        (((0 : Nat) : Int), k1l, 0) :: attachLines 1 (flattenF 1 k1k ++ flattenF 0 ks) := by
      rw [hps]
      rfl
    have hmin : (attachLines 1 (flattenF 1 k1k ++ flattenF 0 ks)).foldl
        (fun m q => min m q.1) ((0 : Nat) : Int) = ((0 : Nat) : Int) := by
      refine foldl_min_const _ _ ?_
      intro q hq
      obtain ⟨p, _, hl⟩ := attachLines_mem_level _ 1 q hq
      rw [hl]
      exact_mod_cast Nat.zero_le p.1
    have hcount : ((attachLines 0 (flattenF 0 kids)).countP
        fun q => q.1 = ((0 : Nat) : Int)) = kids.length := by
      rw [attachLines_countP]
      exact flattenF_count_roots (sizeF kids) kids (le_refl _) 0
    rw [hitems] at hcount
    have hcond : 1 < (((((0 : Nat) : Int), k1l, (0 : Nat)) ::
        attachLines 1 (flattenF 1 k1k ++ flattenF 0 ks)).filter
          fun q => q.1 = ((0 : Nat) : Int)).length := by
      rw [← List.countP_eq_length_filter, hcount]
      omega
    rw [hitems]
    simp only [MarkdownParser.build_tree_from_list, newNode, hmin, List.length_nil]
    rw [if_pos hcond]
    rw [map_sub_zero]
    have hmapproj : ((((0 : Nat) : Int), k1l, (0 : Nat)) ::
        attachLines 1 (flattenF 1 k1k ++ flattenF 0 ks)).map proj =
        (flattenF 0 kids).map fun p => ((p.1 : Int), p.2) := by
      rw [← hitems, attachLines_map_proj]
    have hrel := rel_fold 0
      ((((0 : Nat) : Int), k1l, (0 : Nat)) :: attachLines 1 (flattenF 1 k1k ++ flattenF 0 ks))
      ⟨[] ++ [⟨MarkdownParser.vrootText, none, []⟩], [], [(-1, 0)]⟩
      ⟨[⟨-1, 0, MarkdownParser.vrootText, []⟩], 1⟩
      (rel_init MarkdownParser.vrootText (-1) [])
    rw [hmapproj, fold_openSpine_vroot kids hkne] at hrel
    obtain ⟨bottom, tail, b, hspine, hbid, hlink, hnextF, _⟩ := hrel
    have hsp2 : (⟨-1, 0, MarkdownParser.vrootText, assignF 1 kids.dropLast⟩ : OpenNode) ::
        openSpine 0 (1 + sizeF kids.dropLast) (kids.getLast hkne) = bottom :: tail := hspine
    injection hsp2 with hb ht
    subst hb
    subst ht
    have hrep0 := represents_closeChain
      (openSpine 0 (1 + sizeF kids.dropLast) (kids.getLast hkne))
      ⟨-1, 0, MarkdownParser.vrootText, assignF 1 kids.dropLast⟩ hlink
    have hclose : closeChain
        (⟨-1, 0, MarkdownParser.vrootText, assignF 1 kids.dropLast⟩ : OpenNode)
        (openSpine 0 (1 + sizeF kids.dropLast) (kids.getLast hkne)) =
        assignT 0 (Rose.mk MarkdownParser.vrootText kids) := by
      have hcs := closeChain_append_openSpine ⟨-1, 0, MarkdownParser.vrootText,
        assignF 1 kids.dropLast⟩ 0 (1 + sizeF kids.dropLast) (kids.getLast hkne)
      rw [closeSpine] at hcs
      rw [hcs, assignT_mk]
      have hdg : (⟨-1, 0, MarkdownParser.vrootText, assignF 1 kids.dropLast⟩ :
          OpenNode).kids ++ [assignT (1 + sizeF kids.dropLast) (kids.getLast hkne)] =
          assignF 1 kids := assignF_dropLast_getLast 1 kids hkne
      rw [hdg]
    rw [hclose] at hrep0
    refine ⟨_, _, rfl, hrep0, ?_⟩
    rw [← hnextF]
    rw [Rose.size]
  · -- ordinary root
    have hpc : pureConvert (Rose.mk lab0 kids) =
        joinNl ((((0 : Nat), lab0) :: flattenF 1 kids).map mkLine) := by
      rw [pureConvert, if_neg hvl, flatten_mk]
    have hgood : ∀ p ∈ ((0 : Nat), lab0) :: flattenF 1 kids,
        p.2 ≠ [] ∧ pyStrip p.2 = p.2 ∧ '\n' ∉ p.2 := by
      intro p hp
      rcases List.mem_cons.1 hp with hp | hp
      · rw [hp]
        exact hlabel0
      · exact hkidlabels 1 p hp
    have hparse := parse_canonical _ (List.cons_ne_nil _ _) hgood
    rw [hpc, hparse]
    have hitems : attachLines 0 (((0 : Nat), lab0) :: flattenF 1 kids) =
        (((0 : Nat) : Int), lab0, 0) :: attachLines 1 (flattenF 1 kids) := rfl
    have hmin : (attachLines 1 (flattenF 1 kids)).foldl
        (fun m q => min m q.1) ((0 : Nat) : Int) = ((0 : Nat) : Int) := by
      refine foldl_min_const _ _ ?_
      intro q hq
      obtain ⟨p, _, hl⟩ := attachLines_mem_level _ 1 q hq
      rw [hl]
      exact_mod_cast Nat.zero_le p.1
    have hfilter : ((attachLines 1 (flattenF 1 kids)).filter
        fun q => q.1 = ((0 : Nat) : Int)) = [] := by
      rw [List.filter_eq_nil_iff]
      intro q hq
      obtain ⟨p, hp, hl⟩ := attachLines_mem_level _ 1 q hq
      have hge := flattenF_level_ge (sizeF kids) kids (le_refl _) 1 p hp
      simp only [decide_eq_true_eq]
      intro hc
      rw [hl, Nat.cast_inj] at hc
      omega
    have hcondneg : ¬ 1 < (((((0 : Nat) : Int), lab0, (0 : Nat)) ::
        attachLines 1 (flattenF 1 kids)).filter
          fun q => q.1 = ((0 : Nat) : Int)).length := by
      rw [List.filter_cons_of_pos (by simp), hfilter]
      simp
    rw [hitems]
    simp only [MarkdownParser.build_tree_from_list, newNode, hmin, List.length_nil]
    rw [if_neg hcondneg]
    have hrel := rel_fold 0 (attachLines 1 (flattenF 1 kids))
      ⟨[] ++ [⟨lab0, none, []⟩], MarkdownParser.mapInsert [] 0 0, [(((0 : Nat) : Int), 0)]⟩
      ⟨[⟨((0 : Nat) : Int), 0, lab0, []⟩], 1⟩
      (rel_init lab0 ((0 : Nat) : Int) (MarkdownParser.mapInsert [] 0 0))
    rw [attachLines_map_proj, fold_openSpine_root lab0 kids] at hrel
    obtain ⟨bottom, tail, b, hspine, hbid, hlink, hnextF, _⟩ := hrel
    have hsp2 : openSpine 0 0 (Rose.mk lab0 kids) = bottom :: tail := hspine
    have hclose := closeChain_openSpine (Rose.mk lab0 kids).size (Rose.mk lab0 kids)
      (le_refl _) 0 0 bottom tail hsp2
    have hrep0 := represents_closeChain tail bottom (hsp2 ▸ hlink)
    rw [hclose] at hrep0
    refine ⟨_, _, rfl, hrep0, ?_⟩
    rw [← hnextF]

/-- Serializing a represented tree gives the canonical text of its shape. -/
theorem convert_pureConvert {a : Arena} {T : RTree} (h : Represents a T)
    (hfuel : T.sizeR ≤ a.length) :
    TreeToMarkdownConverter.convert a (some T.id) = pureConvert T.shape := by
  cases h with
  | mk id label ts h1 h2 h3 =>
    rw [sizeR_mk] at hfuel
    simp only [RTree.id, shape_mk]
    simp only [TreeToMarkdownConverter.convert, pureConvert, Rose.label, Rose.kids, h1]
    by_cases hv : label = MarkdownParser.vrootText
    · rw [if_pos hv, if_pos hv]
      congr 1
      rw [h2, kidsIds, List.flatMap_map, flattenF_shapeF, List.map_flatMap]
      apply flatMap_congr_mem
      intro t2 ht2
      have hsz := sizeR_le_sizeRF_of_mem ht2
      exact represents_convert_node (h3 t2 ht2) a.length (by omega) 0
    · rw [if_neg hv, if_neg hv]
      congr 1
      have hrcn := represents_convert_node (Represents.mk id label ts h1 h2 h3) a.length
        (by rw [sizeR_mk]; omega) 0
      simp only [RTree.id, shape_mk] at hrcn
      exact hrcn

theorem good_ab : GoodRose (Rose.mk ['a'] [Rose.mk ['b'] []]) := by
  constructor
  · intro l hl
    have hlabs : (Rose.mk ['a'] [Rose.mk ['b'] []]).labels = [['a'], ['b']] := rfl
    rw [hlabs] at hl
    rcases List.mem_cons.1 hl with h | h
    · subst h
      exact ⟨by decide, by decide, by decide⟩
    · rcases List.mem_cons.1 h with h2 | h2
      · subst h2
        exact ⟨by decide, by decide, by decide⟩
      · cases h2

  · intro hv
    exact absurd hv (by decide)

/-- C2 (corrected): for every tree the parser can produce whose labels are
all nonempty, stripped and newline-free, and whose root carries the
virtual-root marker label only with at least two children, parsing the
serialization yields a tree structurally equal to it: the same shape,
labels and child order read back from the new heap, with freshly assigned
node identities.  Without the amendments the round trip fails: the claim's
unrestricted form breaks on the empty-label tree parsed from `"-  "`. -/
theorem spec_c2 (a0 : Arena) (T0 : RTree) (t : Rose) (hrep0 : Represents a0 T0)
    (hfuel : T0.sizeR ≤ a0.length) (hshape : T0.shape = t) (hg : GoodRose t) :
    ∃ a m, MarkdownParser.parse []
        (TreeToMarkdownConverter.convert a0 (some T0.id)) = ⟨some 0, a, m⟩ ∧
      extractTree a a.length 0 = t := by
  rw [convert_pureConvert hrep0 hfuel, hshape]
  obtain ⟨a, m, hp, hrep, hlen⟩ := parse_pureConvert t hg
  refine ⟨a, m, hp, ?_⟩
  have hsz : (assignT 0 t).sizeR = t.size := (sizeR_assignT t.size).1 t (le_refl _) 0
  have hex := represents_extract hrep a.length (by rw [hsz, hlen])
  have hid : (assignT 0 t).id = 0 := by
    obtain ⟨lab, kids⟩ := t
    rw [assignT_mk]
    rfl
  rw [hid] at hex
  rw [hex, shape_assignT]

theorem spec_c2_witness :
    ∃ a m, MarkdownParser.parse [] (TreeToMarkdownConverter.convert
        [⟨['a'], none, [1]⟩, ⟨['b'], some 0, []⟩] (some (RTree.mk 0 ['a']
          [RTree.mk 1 ['b'] []]).id)) = ⟨some 0, a, m⟩ ∧
      extractTree a a.length 0 = Rose.mk ['a'] [Rose.mk ['b'] []] := by
  refine spec_c2 [⟨['a'], none, [1]⟩, ⟨['b'], some 0, []⟩]
    (RTree.mk 0 ['a'] [RTree.mk 1 ['b'] []]) (Rose.mk ['a'] [Rose.mk ['b'] []])
    ?_ (by decide) rfl good_ab
  refine Represents.mk 0 ['a'] [RTree.mk 1 ['b'] []] rfl rfl ?_
  intro t2 ht2
  rw [List.mem_singleton] at ht2
  subst ht2
  exact Represents.mk 1 ['b'] [] rfl rfl fun t3 ht3 => absurd ht3 (List.not_mem_nil _)

/-- Counterexample to C2 as stated: `"-  "` parses to a producible
single-node tree with an empty label; its serialization `"- "` fails the
list regex (and the heading regex), so re-parsing returns no tree at all,
not a tree structurally equal to the original. -/
theorem spec_c2_counterexample :
    (MarkdownParser.parse [] ("-  ".toList)).root = some 0 ∧
    extractTree (MarkdownParser.parse [] ("-  ".toList)).arena 1 0 = Rose.mk [] [] ∧
    TreeToMarkdownConverter.convert (MarkdownParser.parse [] ("-  ".toList)).arena
      (MarkdownParser.parse [] ("-  ".toList)).root = "- ".toList ∧
    (MarkdownParser.parse []
      (TreeToMarkdownConverter.convert (MarkdownParser.parse [] ("-  ".toList)).arena
        (MarkdownParser.parse [] ("-  ".toList)).root)).root = none :=
  ⟨rfl, rfl, rfl, rfl⟩

/-- C6 (corrected): under the same producibility conditions as C2 (labels
nonempty, stripped, newline-free; a virtual-root-labeled root has at least
two children), re-parsing the serialized text and serializing again
reproduces the text exactly. -/
theorem spec_c6 (a0 : Arena) (T0 : RTree) (t : Rose) (hrep0 : Represents a0 T0)
    (hfuel : T0.sizeR ≤ a0.length) (hshape : T0.shape = t) (hg : GoodRose t) :
    TreeToMarkdownConverter.convert
        (MarkdownParser.parse [] (TreeToMarkdownConverter.convert a0 (some T0.id))).arena
        (MarkdownParser.parse [] (TreeToMarkdownConverter.convert a0 (some T0.id))).root =
      TreeToMarkdownConverter.convert a0 (some T0.id) := by
  rw [convert_pureConvert hrep0 hfuel, hshape]
  obtain ⟨a, m, hp, hrep, hlen⟩ := parse_pureConvert t hg
  rw [hp]
  have hsz : (assignT 0 t).sizeR = t.size := (sizeR_assignT t.size).1 t (le_refl _) 0
  have hc := convert_pureConvert hrep (by rw [hsz, hlen])
  have hid : (assignT 0 t).id = 0 := by
    obtain ⟨lab, kids⟩ := t
    rw [assignT_mk]
    rfl
  rw [hid, shape_assignT] at hc
  exact hc

theorem spec_c6_witness :
    TreeToMarkdownConverter.convert
        (MarkdownParser.parse [] (TreeToMarkdownConverter.convert
          [⟨['a'], none, [1]⟩, ⟨['b'], some 0, []⟩]
          (some (RTree.mk 0 ['a'] [RTree.mk 1 ['b'] []]).id))).arena
        (MarkdownParser.parse [] (TreeToMarkdownConverter.convert
          [⟨['a'], none, [1]⟩, ⟨['b'], some 0, []⟩]
          (some (RTree.mk 0 ['a'] [RTree.mk 1 ['b'] []]).id))).root =
      TreeToMarkdownConverter.convert [⟨['a'], none, [1]⟩, ⟨['b'], some 0, []⟩]
        (some (RTree.mk 0 ['a'] [RTree.mk 1 ['b'] []]).id) := by
  refine spec_c6 [⟨['a'], none, [1]⟩, ⟨['b'], some 0, []⟩]
    (RTree.mk 0 ['a'] [RTree.mk 1 ['b'] []]) (Rose.mk ['a'] [Rose.mk ['b'] []])
    ?_ (by decide) rfl good_ab
  refine Represents.mk 0 ['a'] [RTree.mk 1 ['b'] []] rfl rfl ?_
  intro t2 ht2
  rw [List.mem_singleton] at ht2
  subst ht2
  exact Represents.mk 1 ['b'] [] rfl rfl fun t3 ht3 => absurd ht3 (List.not_mem_nil _)

/-- Counterexample to C6 as stated: for the producible tree parsed from
`"-  "` the serialization is `"- "`, but serializing its re-parse gives the
empty string instead. -/
theorem spec_c6_counterexample :
    TreeToMarkdownConverter.convert (MarkdownParser.parse [] "-  ".toList).arena
      (MarkdownParser.parse [] "-  ".toList).root = "- ".toList ∧
    TreeToMarkdownConverter.convert
      (MarkdownParser.parse [] "- ".toList).arena (MarkdownParser.parse [] "- ".toList).root
      = [] ∧
    ("- ".toList : List Char) ≠ [] :=
  ⟨rfl, rfl, by decide⟩

/-- Invariant of the assembly fold, pure side: the running root's children
ids, followed by the id of the currently open shallowest entry, list exactly
the first open entry and then the ids of the later anchor items (those whose
level undercuts or matches every earlier one). -/
theorem anchors_inv : ∀ (items : List (Int × List Char × Nat)) (bottom h0 : OpenNode)
    (tl0 : List OpenNode) (n : Nat),
    ∃ ck h2 tl2,
      ((items.map proj).foldl pureStep ⟨bottom :: h0 :: tl0, n⟩) =
        ⟨{ bottom with kids := bottom.kids ++ ck } :: h2 :: tl2, n + items.length⟩ ∧
      kidsIds ck ++ [h2.id] = h0.id :: anchorIds (some h0.key) n items := by
  intro items
  induction items with
  | nil =>
    intro bottom h0 tl0 n
    refine ⟨[], h0, tl0, ?_, ?_⟩
    · rw [List.map_nil, List.foldl_nil, appendNilKid_id]
      rw [List.length_nil]
      rfl
    · rw [anchorIds]
      rfl
  | cons item rest ih =>
    intro bottom h0 tl0 n
    obtain ⟨l, txt, ln⟩ := item
    rw [List.map_cons, List.foldl_cons]
    by_cases hle : l ≤ h0.key
    · -- the new item undercuts the open entry: everything above the root closes
      have hstep : pureStep ⟨bottom :: h0 :: tl0, n⟩ (proj (l, txt, ln)) =
          ⟨{ bottom with kids := bottom.kids ++ [closeChain h0 tl0] } ::
            (⟨l, n, txt, []⟩ : OpenNode) :: [], n + 1⟩ := by
        have h1 := pureStep_close bottom [] h0 tl0 n l txt
          (fun e he => absurd he (List.not_mem_nil _)) (not_lt.2 hle)
        rw [List.cons_append, List.nil_append] at h1
        rw [show proj (l, txt, ln) = (l, txt) from rfl, h1]
        rfl
      rw [hstep]
      obtain ⟨ck, h2, tl2, hfold, hids⟩ :=
        ih { bottom with kids := bottom.kids ++ [closeChain h0 tl0] } ⟨l, n, txt, []⟩ [] (n + 1)
      refine ⟨closeChain h0 tl0 :: ck, h2, tl2, ?_, ?_⟩
      · rw [hfold, PState.mk.injEq]
        constructor
        · obtain ⟨bk, bi, bl, bks⟩ := bottom
          simp
        · rw [List.length_cons]
          omega
      · have hids2 : kidsIds ck ++ [h2.id] = n :: anchorIds (some l) (n + 1) rest := hids
        rw [kidsIds, List.map_cons, closeChain_id, List.cons_append]
        rw [show List.map RTree.id ck = kidsIds ck from rfl, hids2]
        rw [anchorIds]
        rw [if_pos hle, min_eq_right hle]
    · -- the open entry survives the step
      have hh0 : (fun e : OpenNode => decide (e.key < l)) h0 = true := by
        simp only [decide_eq_true_eq]
        omega
      cases hdp : tl0.dropWhile fun e => e.key < l with
      | nil =>
        have htk : (tl0.takeWhile fun e => e.key < l) = tl0 := by
          rw [← List.takeWhile_append_dropWhile (fun e => decide (e.key < l)) tl0, hdp,
            List.append_nil, List.takeWhile_idem]
        have hdw2 : ((h0 :: tl0).dropWhile fun e => e.key < l) = [] := by
          rw [@List.dropWhile_cons_of_pos OpenNode (fun e => decide (e.key < l)) h0 tl0 hh0,
            hdp]
        have htk2 : ((h0 :: tl0).takeWhile fun e => e.key < l) = h0 :: tl0 := by
          rw [@List.takeWhile_cons_of_pos OpenNode (fun e => decide (e.key < l)) h0 tl0 hh0,
            htk]
        have hstep : pureStep ⟨bottom :: h0 :: tl0, n⟩ (proj (l, txt, ln)) =
            ⟨bottom :: h0 :: (tl0 ++ [⟨l, n, txt, []⟩]), n + 1⟩ := by
          simp only [pureStep, proj, hdw2, htk2, List.cons_append]
        rw [hstep]
        obtain ⟨ck, h2, tl2, hfold, hids⟩ := ih bottom h0 (tl0 ++ [⟨l, n, txt, []⟩]) (n + 1)
        refine ⟨ck, h2, tl2, ?_, ?_⟩
        · rw [hfold, List.length_cons, PState.mk.injEq]
          exact ⟨rfl, by omega⟩
        · rw [hids, anchorIds]
          rw [if_neg hle, min_eq_left (by omega)]
      | cons d ds =>
        obtain ⟨b2, t2, hu, hpairs⟩ := updLast_cons_shape
          (fun e => { e with kids := e.kids ++ [closeChain d ds] }) (fun e => ⟨rfl, rfl⟩)
          h0 (tl0.takeWhile fun e => e.key < l)
        have hb2 : b2.key = h0.key ∧ b2.id = h0.id := by
          rw [List.map_cons, List.map_cons] at hpairs
          injection hpairs with hhead _
          exact ⟨congrArg Prod.fst hhead, congrArg Prod.snd hhead⟩
        have hdw2 : ((h0 :: tl0).dropWhile fun e => e.key < l) = d :: ds := by
          rw [@List.dropWhile_cons_of_pos OpenNode (fun e => decide (e.key < l)) h0 tl0 hh0,
            hdp]
        have htk2 : ((h0 :: tl0).takeWhile fun e => e.key < l) =
            h0 :: (tl0.takeWhile fun e => e.key < l) := by
          rw [@List.takeWhile_cons_of_pos OpenNode (fun e => decide (e.key < l)) h0 tl0 hh0]
        have hstep : pureStep ⟨bottom :: h0 :: tl0, n⟩ (proj (l, txt, ln)) =
            ⟨bottom :: b2 :: (t2 ++ [⟨l, n, txt, []⟩]), n + 1⟩ := by
          simp only [pureStep, proj, hdw2, htk2]
          have hupd : updLast (fun e => { e with kids := e.kids ++ [closeChain d ds] })
              (bottom :: h0 :: (tl0.takeWhile fun e => e.key < l)) =
              bottom :: b2 :: t2 := by
            rw [show updLast (fun e => { e with kids := e.kids ++ [closeChain d ds] })
                (bottom :: h0 :: (tl0.takeWhile fun e => e.key < l)) =
                bottom :: updLast (fun e => { e with kids := e.kids ++ [closeChain d ds] })
                  (h0 :: (tl0.takeWhile fun e => e.key < l)) from rfl, hu]
          rw [hupd]
          rfl
        rw [hstep]
        obtain ⟨ck, h2, tl2, hfold, hids⟩ := ih bottom b2 (t2 ++ [⟨l, n, txt, []⟩]) (n + 1)
        refine ⟨ck, h2, tl2, ?_, ?_⟩
        · rw [hfold, List.length_cons, PState.mk.injEq]
          exact ⟨rfl, by omega⟩
        · rw [hids, hb2.1, hb2.2, anchorIds]
          rw [if_neg hle, min_eq_left (by omega)]

theorem anchorIds_shift (c : Int) : ∀ (items : List (Int × List Char × Nat))
    (m : Option Int) (n : Nat),
    anchorIds (m.map fun x => x - c + 1) n
        (items.map fun q => (q.1 - c + 1, q.2.1, q.2.2)) =
      anchorIds m n items := by
  intro items
  induction items with
  | nil => intro m n; cases m <;> rfl
  | cons q rest ih =>
    intro m n
    obtain ⟨l, txt, ln⟩ := q
    cases m with
    | none =>
      have h1 : anchorIds ((none : Option Int).map fun x => x - c + 1) n
          (((l, txt, ln) :: rest).map fun q => (q.1 - c + 1, q.2.1, q.2.2)) =
          n :: anchorIds (some (l - c + 1)) (n + 1)
            (rest.map fun q => (q.1 - c + 1, q.2.1, q.2.2)) := rfl
      have h2 : anchorIds none n ((l, txt, ln) :: rest) =
          n :: anchorIds (some l) (n + 1) rest := rfl
      rw [h1, h2]
      exact congrArg (List.cons n) (ih (some l) (n + 1))
    | some mv =>
      have hunf : ∀ (mv2 l2 : Int) (txt2 : List Char) (ln2 : Nat)
          (rest2 : List (Int × List Char × Nat)) (n2 : Nat),
          anchorIds (some mv2) n2 ((l2, txt2, ln2) :: rest2) =
            if l2 ≤ mv2 then n2 :: anchorIds (some (min mv2 l2)) (n2 + 1) rest2
            else anchorIds (some (min mv2 l2)) (n2 + 1) rest2 :=
        fun _ _ _ _ _ _ => rfl
      have hL : anchorIds ((some mv).map fun x => x - c + 1) n
          (((l, txt, ln) :: rest).map fun q => (q.1 - c + 1, q.2.1, q.2.2)) =
          anchorIds (some (mv - c + 1)) n
            ((l - c + 1, txt, ln) :: rest.map fun q => (q.1 - c + 1, q.2.1, q.2.2)) := rfl
      have hmin : min (mv - c + 1) (l - c + 1) = min mv l - c + 1 := by
        rcases le_total mv l with h | h
        · rw [min_eq_left (by omega : mv - c + 1 ≤ l - c + 1), min_eq_left h]
        · rw [min_eq_right (by omega : l - c + 1 ≤ mv - c + 1), min_eq_right h]
      rw [hL, hunf, hunf, hmin]
      by_cases hle : l ≤ mv
      · rw [if_pos (by omega : l - c + 1 ≤ mv - c + 1), if_pos hle]
        exact congrArg (List.cons n) (ih (some (min mv l)) (n + 1))
      · rw [if_neg (by omega : ¬ l - c + 1 ≤ mv - c + 1), if_neg hle]
        exact ih (some (min mv l)) (n + 1)

theorem rel_root_cell {root : Nat} {st : MarkdownParser.BuildState} {ps : PState}
    (h : Rel root st ps) (bottom2 h2 : OpenNode) (tl2 : List OpenNode)
    (hsp : ps.spine = bottom2 :: h2 :: tl2) :
    (getNode st.arena root).text = bottom2.label ∧
    (getNode st.arena root).children = kidsIds bottom2.kids ++ [h2.id] := by
  obtain ⟨bottom, tail, b, hspine, hbid, hlink, h4, h5, h6, h7, h8⟩ := h
  rw [hspine] at hsp
  injection hsp with hb ht
  rw [SpineLink, hspine, hb, ht] at hlink
  have hok : entryOk st.arena bottom2 (some h2.id) := hlink.1
  have hbid2 : bottom2.id = root := hb ▸ hbid
  rw [← hbid2]
  exact ⟨hok.1, hok.2.1⟩

theorem build_tree_multi_top (l0 : Int) (t0 : List Char) (n0 : Nat)
    (hs : List (Int × List Char × Nat))
    (hc : 1 < (((l0, t0, n0) :: hs).filter fun q =>
        q.1 = hs.foldl (fun m q => min m q.1) l0).length) :
    ∃ a m, MarkdownParser.build_tree ((l0, t0, n0) :: hs) = some (0, a, m) ∧
      (getNode a 0).text = MarkdownParser.vrootText ∧
      (getNode a 0).children = anchorIds none 1 ((l0, t0, n0) :: hs) := by
  rw [MarkdownParser.build_tree]
  simp only []
  rw [if_pos hc]
  rw [show (newNode ([] : Arena) MarkdownParser.vrootText).2 = 0 from rfl,
    show (newNode ([] : Arena) MarkdownParser.vrootText).1 =
      [(⟨MarkdownParser.vrootText, none, []⟩ : NodeData)] from rfl]
  refine ⟨_, _, rfl, ?_, ?_⟩ <;>
  · have hrel := rel_fold 0 (((l0, t0, n0) :: hs).map fun q =>
        (q.1 - hs.foldl (fun m q => min m q.1) l0 + 1, q.2.1, q.2.2))
      ⟨[⟨MarkdownParser.vrootText, none, []⟩], [], [((0 : Int), 0)]⟩
      ⟨[⟨(0 : Int), 0, MarkdownParser.vrootText, []⟩], 1⟩
      (rel_init MarkdownParser.vrootText 0 [])
    obtain ⟨ck, h2, tl2, hfold, hids⟩ := anchors_inv
      (hs.map fun q => (q.1 - hs.foldl (fun m q => min m q.1) l0 + 1, q.2.1, q.2.2))
      ⟨0, 0, MarkdownParser.vrootText, []⟩
      ⟨l0 - hs.foldl (fun m q => min m q.1) l0 + 1, 1, t0, []⟩ [] 2
    have hstep1 : pureStep ⟨[(⟨(0 : Int), 0, MarkdownParser.vrootText, []⟩ : OpenNode)], 1⟩
        ((l0 - hs.foldl (fun m q => min m q.1) l0 + 1 : Int), t0) =
        ⟨(⟨(0 : Int), 0, MarkdownParser.vrootText, []⟩ : OpenNode) ::
          (⟨l0 - hs.foldl (fun m q => min m q.1) l0 + 1, 1, t0, []⟩ : OpenNode) :: [], 2⟩ :=
      pureStep_push ⟨0, 0, MarkdownParser.vrootText, []⟩ [] 1 _ t0
        (fun e he => absurd he (List.not_mem_nil _))
    have hpure : ((((l0, t0, n0) :: hs).map fun q =>
          (q.1 - hs.foldl (fun m q => min m q.1) l0 + 1, q.2.1, q.2.2)).map proj).foldl
        pureStep ⟨[⟨(0 : Int), 0, MarkdownParser.vrootText, []⟩], 1⟩ =
        ⟨(⟨(0 : Int), 0, MarkdownParser.vrootText, ck⟩ : OpenNode) :: h2 :: tl2,
          2 + ((hs.map fun q =>
            (q.1 - hs.foldl (fun m q => min m q.1) l0 + 1, q.2.1, q.2.2)).length)⟩ := by
      have hF : (((l0, t0, n0) :: hs).map fun q =>
            (q.1 - hs.foldl (fun m q => min m q.1) l0 + 1, q.2.1, q.2.2)).map proj =
          ((l0 - hs.foldl (fun m q => min m q.1) l0 + 1 : Int), t0) ::
            ((hs.map fun q =>
              (q.1 - hs.foldl (fun m q => min m q.1) l0 + 1, q.2.1, q.2.2)).map proj) := rfl
      rw [hF, List.foldl_cons, hstep1]
      exact hfold
    have hroot := rel_root_cell hrel ⟨(0 : Int), 0, MarkdownParser.vrootText, ck⟩ h2 tl2
      (congrArg PState.spine hpure)
    first
    | exact hroot.1
    | · rw [hroot.2]
        have hfin : kidsIds ((⟨(0 : Int), 0, MarkdownParser.vrootText, ck⟩ : OpenNode)).kids ++
            [h2.id] = kidsIds ck ++ [h2.id] := rfl
        rw [hfin, hids]
        have hsh : anchorIds
            (some ((⟨l0 - hs.foldl (fun m q => min m q.1) l0 + 1, 1, t0, []⟩ : OpenNode)).key) 2
            (hs.map fun q => (q.1 - hs.foldl (fun m q => min m q.1) l0 + 1, q.2.1, q.2.2)) =
            anchorIds (some l0) 2 hs :=
          anchorIds_shift (hs.foldl (fun m (q : Int × List Char × Nat) => min m q.1) l0) hs
            (some l0) 2
        rw [hsh]
        exact rfl

/-- C3.  When more than one parsed entry sits at the minimum depth level,
`_build_tree` synthesizes a virtual root; its children are the anchor
entries (each entry not preceded by a strictly shallower one), and
serializing any tree whose root carries the virtual-root label emits no
line for that root, only its children starting at depth 0.  Parsing
"# Root1\n# Root2" gives the virtual root with children [Root1, Root2]
and serializes back to "- Root1\n- Root2". -/
theorem spec_c3 :
    (∀ (l0 : Int) (t0 : List Char) (n0 : Nat) (hs : List (Int × List Char × Nat)),
      1 < (((l0, t0, n0) :: hs).filter fun q =>
          q.1 = hs.foldl (fun m q => min m q.1) l0).length →
      ∃ a m, MarkdownParser.build_tree ((l0, t0, n0) :: hs) = some (0, a, m) ∧
        (getNode a 0).text = MarkdownParser.vrootText ∧
        (getNode a 0).children = anchorIds none 1 ((l0, t0, n0) :: hs)) ∧
    (∀ (a : Arena) (r : Nat), (getNode a r).text = MarkdownParser.vrootText →
      TreeToMarkdownConverter.convert a (some r) =
        joinNl ((getNode a r).children.flatMap fun c =>
          TreeToMarkdownConverter.convert_node a a.length c 0)) ∧
    MarkdownParser.parse [] "# Root1\n# Root2".toList =
      ⟨some 0, [⟨MarkdownParser.vrootText, none, [1, 2]⟩,
        ⟨"Root1".toList, some 0, []⟩, ⟨"Root2".toList, some 0, []⟩], [(0, 1), (1, 2)]⟩ ∧
    TreeToMarkdownConverter.convert
        (MarkdownParser.parse [] "# Root1\n# Root2".toList).arena
        (MarkdownParser.parse [] "# Root1\n# Root2".toList).root =
      "- Root1\n- Root2".toList := by
  refine ⟨fun l0 t0 n0 hs hc => build_tree_multi_top l0 t0 n0 hs hc,
    fun a r h => ?_, rfl, rfl⟩
  rw [TreeToMarkdownConverter.convert, if_pos h]

theorem spec_c3_witness :
    (1 < ((((1 : Int), "Root1".toList, 0) :: [((1 : Int), "Root2".toList, 1)]).filter fun q =>
        q.1 = [((1 : Int), "Root2".toList, 1)].foldl
          (fun m (q : Int × List Char × Nat) => min m q.1) 1).length) ∧
    (∃ a m, MarkdownParser.build_tree
        (((1 : Int), "Root1".toList, 0) :: [((1 : Int), "Root2".toList, 1)]) =
          some (0, a, m) ∧
      (getNode a 0).text = MarkdownParser.vrootText ∧
      (getNode a 0).children =
        anchorIds none 1 (((1 : Int), "Root1".toList, 0) ::
          [((1 : Int), "Root2".toList, 1)])) ∧
    ((getNode [⟨MarkdownParser.vrootText, none, []⟩] 0).text = MarkdownParser.vrootText ∧
      TreeToMarkdownConverter.convert [(⟨MarkdownParser.vrootText, none, []⟩ : NodeData)]
          (some 0) =
        joinNl ((getNode [(⟨MarkdownParser.vrootText, none, []⟩ : NodeData)] 0).children.flatMap
          fun c => TreeToMarkdownConverter.convert_node
            [(⟨MarkdownParser.vrootText, none, []⟩ : NodeData)] 1 c 0)) :=
  ⟨by decide,
    spec_c3.1 1 "Root1".toList 0 [((1 : Int), "Root2".toList, 1)] (by decide),
    rfl, spec_c3.2.1 [⟨MarkdownParser.vrootText, none, []⟩] 0 rfl⟩

theorem spec_c3_counterexample :
    MarkdownParser.extract_headings "## b\n# a\n# c".toList =
      [((2 : Int), "b".toList, 0), ((1 : Int), "a".toList, 1), ((1 : Int), "c".toList, 2)] ∧
    ((MarkdownParser.extract_headings "## b\n# a\n# c".toList).filter fun q =>
      q.1 = (1 : Int)).length = 2 ∧
    (MarkdownParser.parse [] "## b\n# a\n# c".toList).root = some 0 ∧
    (getNode (MarkdownParser.parse [] "## b\n# a\n# c".toList).arena 0).text =
      MarkdownParser.vrootText ∧
    (MarkdownParser.parse [] "## b\n# a\n# c".toList).lineMap = [(0, 1), (1, 2), (2, 3)] ∧
    (getNode (MarkdownParser.parse [] "## b\n# a\n# c".toList).arena 0).children =
      [1, 2, 3] ∧
    [1, 2, 3] ≠ [2, 3] :=
  ⟨rfl, rfl, rfl, rfl, rfl, rfl, by decide⟩

end Mindmap
